import Mathlib

/-! Command-buffer management of libdrm_nouveau (pushbuf.c)

A shallow embedding of `src/source/pushbuf.c`.  C pointers become indices into
explicit heaps that are carried in one `State` value: buffer objects, pushbufs
and buffer contexts are addressed by natural numbers, and a pointer into a
record's `buffer[]` array is a `KrefPtr` (owning pushbuf, index).  Arrays are
total functions on `Nat`, so a write never fails on its own and the guards of
the C code are the only bounds checks.  A dereference of `NULL`, a failed
`assert` and a pointer difference across two arrays end the run with
`Err.fault`; the fuel of the mutually recursive pair
`nouveau_pushbuf_space` / `pushbuf_validate` running out ends it with
`Err.nofuel`.

What a C program does past the end of an array or with a pointer difference
across two arrays depends on the layout of memory, which this embedding does
not have: a store to `push[NOUVEAU_GEM_MAX_PUSH]` lands, in C, on the memory of
`nr_buffer`, the read of `bos[0]` of an empty pool is a read past the pool, and
`kref - krec->buffer` for a reference of another record is some number.  The
theorems on records and descriptors over runs of a client are therefore stated
for runs that stay inside the arrays (`InScope`, `StepIn`), where none of this
happens; a status returned as `-rc` is negated in 32 bits (`neg_status`).

All pushbufs of a state belong to one client.  `push->kick_notify` is a client
callback that lives outside this file; it is taken to leave the tracked state
alone.  `pushbuf_dump`, the tracing aid `pushbuf_submit` calls on a rejected
kickoff, is read as built with `DEBUG`, where it only prints, and is left out.
(Without `DEBUG` the arguments of `TRACE` vanish, and with them the `*bgn++`
that advances the inner loop of `pushbuf_dump`.)
-/

namespace Pushbuf

/-- Constants that pushbuf.c takes from headers which are not part of the
source tree (nouveau_drm.h, nouveau.h, errno.h, switch.h).  Every definition
takes them as a parameter. -/
structure Consts where
  NOUVEAU_GEM_MAX_BUFFERS : Nat
  NOUVEAU_GEM_MAX_PUSH : Nat
  NOUVEAU_GEM_DOMAIN_GART : Nat
  NOUVEAU_BO_RD : Nat
  NOUVEAU_BO_WR : Nat
  NOUVEAU_FIFO_CHANNEL_CLASS : Nat
  GPFIFO_ENTRY_NOT_MAIN : Nat
  GPFIFO_ENTRY_NO_PREFETCH : Nat
  ENOSPC : Nat
  EINVAL : Nat

/-- The values these constants have in the libdrm and newlib headers; used for
concrete runs only. -/
def hdr : Consts where
  NOUVEAU_GEM_MAX_BUFFERS := 1024
  NOUVEAU_GEM_MAX_PUSH := 512
  NOUVEAU_GEM_DOMAIN_GART := 4
  NOUVEAU_BO_RD := 0x100
  NOUVEAU_BO_WR := 0x200
  NOUVEAU_FIFO_CHANNEL_CLASS := 0x80000001
  GPFIFO_ENTRY_NOT_MAIN := 0x200
  GPFIFO_ENTRY_NO_PREFETCH := 0x80000000
  ENOSPC := 28
  EINVAL := 22

/-- Ways a run can end without a result. -/
inductive Err where
  | fault
  | nofuel
  deriving DecidableEq, Repr

/-- Address of `krec->buffer[idx]` in the current record of pushbuf `push`. -/
structure KrefPtr where
  push : Nat
  idx : Nat
  deriving DecidableEq, Repr

/-- The struct drm_nouveau_gem_pushbuf_bo, with the fields pushbuf.c uses. -/
structure drm_nouveau_gem_pushbuf_bo where
  bo : Nat
  handle : Nat
  read_domains : Nat
  write_domains : Nat
  deriving DecidableEq, Repr

/-- The struct drm_nouveau_gem_pushbuf_push. -/
structure drm_nouveau_gem_pushbuf_push where
  bo_index : Nat
  offset : Nat
  length : Nat
  deriving DecidableEq, Repr

/-- The struct nouveau_pushbuf_krec without its `next` link, which is kept in
the owning pushbuf.  The slots of `buffer[NOUVEAU_GEM_MAX_BUFFERS]` and of
`push[NOUVEAU_GEM_MAX_PUSH]` are the indices below these constants; the
functions have values beyond them, which stand for no memory of the struct. -/
structure nouveau_pushbuf_krec where
  buffer : Nat → drm_nouveau_gem_pushbuf_bo
  push : Nat → drm_nouveau_gem_pushbuf_push
  nr_buffer : Nat
  nr_push : Nat

/-- The NvFence of the hardware queue: an id and a counter value. -/
structure NvFence where
  id : Nat
  value : Nat
  deriving DecidableEq, Repr

/-- One entry of the hardware queue. -/
structure GpfifoEntry where
  start : Nat
  num_cmds : Nat
  flags : Nat
  deriving DecidableEq, Repr

/-- Modelled from the spec: the hardware queue collaborator (NvGpuChannel of
switch.h) accepts an ordered list of (offset, word count, flags) entries and
returns a completion fence.  `entries` are appended and not yet kicked off,
`submitted` were accepted by the hardware, `kickoff` lists the status the
hardware gives to the coming kickoffs (0 accepts; an empty list accepts). -/
structure NvGpuChannel where
  entries : List GpfifoEntry
  submitted : List GpfifoEntry
  fence : NvFence
  fence_incr : Nat
  kickoff : List Nat
  deriving DecidableEq, Repr

/-- The struct nouveau_object of a channel: only its class is read. -/
structure nouveau_object where
  oclass : Nat
  deriving DecidableEq, Repr

/-- The struct nouveau_bo together with the refcnt, fence and access fields of
its nouveau_bo_priv.  `map` is the mapping address counted in 32-bit words. -/
structure nouveau_bo where
  handle : Nat
  size : Nat
  offset : Nat
  map : Int
  refcnt : Int
  fence : NvFence
  access : Nat
  deriving DecidableEq, Repr

/-- The struct nouveau_bufref: the buffer and the flags of one declaration. -/
structure nouveau_bufref where
  bo : Nat
  flags : Nat
  deriving DecidableEq, Repr

/-- The struct nouveau_bufctx: its two lists and the relocation counter.  The
`head` link is kept as membership in a pushbuf's `bctx_list`. -/
structure nouveau_bufctx where
  pending : List nouveau_bufref
  current : List nouveau_bufref
  relocs : Int
  deriving DecidableEq, Repr

/-- The struct nouveau_pushbuf_priv with its base struct nouveau_pushbuf.
`nvpb->list` and `nvpb->krec` are assigned once, by the constructor, to the
same record: `krec` is that record and `next` the records that follow it
through the `next` links (none after construction).  Pointers into the command
buffer (`cur`, `end_`, `ptr`, `bgn`) are word addresses. -/
structure nouveau_pushbuf_priv where
  channel : Option nouveau_object
  bufctx : Option Nat
  rsvd_kick : Nat
  flags : Nat
  cur : Int
  end_ : Int
  krec : nouveau_pushbuf_krec
  next : List nouveau_pushbuf_krec
  bctx_list : List Nat
  bo : Option Nat
  bo_zcullctx : Nat
  bo_builtin_cmdbuf : Nat
  gpu_channel : NvGpuChannel
  fence_num_cmds : Nat
  flush_num_cmds : Nat
  type : Nat
  ptr : Int
  bgn : Int
  bo_next : Nat
  bo_nr : Nat
  bos : Nat → Nat

/-- Everything the functions of pushbuf.c read and write: the ownership table
of the client (`kref`, `kpush`), the heaps of buffer objects, pushbufs and
buffer contexts, and the answers of the memory collaborator to the coming
allocation and mapping requests (0 succeeds; an empty list succeeds).
`bo_fresh` is the identity the next allocation returns. -/
structure State where
  kref : Nat → Option KrefPtr
  kpush : Nat → Option Nat
  bo : Nat → nouveau_bo
  push : Nat → nouveau_pushbuf_priv
  bufctx : Nat → nouveau_bufctx
  bo_new : List Int
  bo_map : List Int
  bo_fresh : Nat

/-! ## The ownership table of the client (private.h) -/

/-- Modelled from the spec: `kref_get(client, bo)` of private.h, the current
reference record of a buffer object, or null. -/
def cli_kref_get (s : State) (bo : Nat) : Option KrefPtr := s.kref bo

/-- Modelled from the spec: `push_get(client, bo)` of private.h, the pushbuf
that owns the live reference of a buffer object, or null. -/
def cli_push_get (s : State) (bo : Nat) : Option Nat := s.kpush bo

/-- Modelled from the spec: `kref_set(client, bo, ref, owningPushbuf)` of
private.h records reference and owner of a buffer object. -/
def cli_kref_set (s : State) (bo : Nat) (kref : Option KrefPtr) (push : Option Nat) : State :=
  { s with kref := Function.update s.kref bo kref, kpush := Function.update s.kpush bo push }

/-! ## The memory collaborator -/

/-- Modelled from the spec: `nouveau_bo_ref(NULL, &bo)` drops one external
reference of a buffer object. -/
def bo_unref (s : State) (bo : Nat) : State :=
  { s with bo := Function.update s.bo bo { s.bo bo with refcnt := (s.bo bo).refcnt - 1 } }

/-- Modelled from the spec: taking one external reference of a buffer object
(`atomic_inc` of its refcnt, also done by `nouveau_bo_ref(bo, &ref)`). -/
def bo_incref (s : State) (bo : Nat) : State :=
  { s with bo := Function.update s.bo bo { s.bo bo with refcnt := (s.bo bo).refcnt + 1 } }

/-- Modelled from the spec: `nouveau_bo_new` of the memory collaborator.  It
answers with the next status of `bo_new`; on success the buffer object
`bo_fresh` is created with the requested size and one reference. -/
def nouveau_bo_new (s : State) (size : Nat) : State × Int × Nat :=
  let ret := s.bo_new.headD 0
  let s1 := { s with bo_new := s.bo_new.tail }
  if ret ≠ 0 then (s1, ret, 0)
  else
    ({ s1 with bo := Function.update s1.bo s.bo_fresh { s1.bo s.bo_fresh with size := size, refcnt := 1 },
               bo_fresh := s.bo_fresh + 1 }, 0, s.bo_fresh)

/-- Modelled from the spec: `nouveau_bo_map` of the memory collaborator answers
with the next status of `bo_map`; the mapping address is the `map` field. -/
def nouveau_bo_map (s : State) : State × Int :=
  ({ s with bo_map := s.bo_map.tail }, s.bo_map.headD 0)

/-! ## The hardware queue collaborator -/

/-- Modelled from the spec: `nvGpuChannelAppendEntry` appends one entry. -/
def nvGpuChannelAppendEntry (g : NvGpuChannel) (start num_cmds flags : Nat) : NvGpuChannel :=
  { g with entries := g.entries ++ [{ start := start, num_cmds := num_cmds, flags := flags }] }

/-- Modelled from the spec: `nvGpuChannelIncrFence` announces one more
increment of the completion counter. -/
def nvGpuChannelIncrFence (g : NvGpuChannel) : NvGpuChannel :=
  { g with fence_incr := g.fence_incr + 1 }

/-- Modelled from the spec: `nvGpuChannelKickoff` hands the appended entries to
the hardware.  A non-zero status rejects them and leaves the queue as it is;
otherwise they are accepted and the fence advances by the announced
increments. -/
def nvGpuChannelKickoff (g : NvGpuChannel) : Nat × NvGpuChannel :=
  let rc := g.kickoff.headD 0
  let g1 := { g with kickoff := g.kickoff.tail }
  if rc ≠ 0 then (rc, g1)
  else (0, { g1 with submitted := g1.submitted ++ g1.entries, entries := [],
                     fence := { g1.fence with value := g1.fence.value + g1.fence_incr },
                     fence_incr := 0 })

/-- Modelled from the spec: `nvGpuChannelGetFence` reads the fence of the last
accepted kickoff. -/
def nvGpuChannelGetFence (g : NvGpuChannel) : NvFence := g.fence

/-- Every entry ever appended to a channel, in order. -/
def NvGpuChannel.appended (g : NvGpuChannel) : List GpfifoEntry := g.submitted ++ g.entries

/-! ## State access -/

/-- Replace pushbuf `p`. -/
def setPush (s : State) (p : Nat) (v : nouveau_pushbuf_priv) : State :=
  { s with push := Function.update s.push p v }

/-- Replace the current record of pushbuf `p`. -/
def setKrec (s : State) (p : Nat) (k : nouveau_pushbuf_krec) : State :=
  setPush s p { s.push p with krec := k }

/-- The reference a `KrefPtr` points to. -/
def derefKref (s : State) (k : KrefPtr) : drm_nouveau_gem_pushbuf_bo :=
  (s.push k.push).krec.buffer k.idx

/-- Store a reference through a `KrefPtr`. -/
def storeKref (s : State) (k : KrefPtr) (v : drm_nouveau_gem_pushbuf_bo) : State :=
  setKrec s k.push { (s.push k.push).krec with buffer := Function.update (s.push k.push).krec.buffer k.idx v }

/-! ## pushbuf.c -/

/-- The `if (bo)` part of nouveau_pushbuf_data: append a push descriptor for
`bo` to the current record.  The `assert(kref)` faults when the buffer has no
reference.  For a reference that lies in the record of another pushbuf the C
code has no test: it stores the pointer difference `kref - krec->buffer` of two
arrays, a number that depends on where the records lie in memory; here such a
call ends the run, and what is proved of descriptors is proved of calls for a
buffer referenced in the record of the pushbuf.  The store goes to slot
`nr_push`, which is a slot of `push[NOUVEAU_GEM_MAX_PUSH]` when nr_push is
below that constant. -/
def push_data_append (s : State) (p : Nat) (bo : Option Nat) (offset length : Nat) :
    Except Err State :=
  match bo with
  | none => .ok s
  | some b =>
    match cli_kref_get s b with
    | none => .error .fault
    | some kref =>
      if kref.push ≠ p then .error .fault
      else
        let krec := (s.push p).krec
        .ok (setKrec s p { krec with
          push := Function.update krec.push krec.nr_push
            { bo_index := kref.idx, offset := offset, length := length },
          nr_push := krec.nr_push + 1 })

/-- The function nouveau_pushbuf_data.  The inner call is made with the current
buffer, for which the first condition is false, so it is the `if (bo)` part
alone. -/
def nouveau_pushbuf_data (s : State) (p : Nat) (bo : Option Nat) (offset length : Nat) :
    Except Err State :=
  let nvpb := s.push p
  if bo ≠ nvpb.bo ∧ nvpb.bgn ≠ nvpb.cur then
    match push_data_append s p nvpb.bo
        ((((nvpb.bgn - nvpb.ptr) * 4) % 2 ^ 64).toNat) ((((nvpb.cur - nvpb.bgn) * 4) % 2 ^ 64).toNat) with
    | .error e => .error e
    | .ok s1 =>
      push_data_append (setPush s1 p { s1.push p with bgn := (s1.push p).cur }) p bo offset length
  else push_data_append s p bo offset length

/-- The first loop of the body of pushbuf_submit: one queue entry per push
descriptor of the record. -/
def submit_entries (c : Consts) (s : State) (krec : nouveau_pushbuf_krec) (g : NvGpuChannel) :
    NvGpuChannel :=
  (List.range krec.nr_push).foldl (fun g i =>
    let kpsh := krec.push i
    let kref := krec.buffer kpsh.bo_index
    nvGpuChannelAppendEntry g (((s.bo kref.bo).offset + kpsh.offset) % 2 ^ 64) (kpsh.length / 4)
      c.GPFIFO_ENTRY_NOT_MAIN) g

/-- One round of the second loop of the body of pushbuf_submit: store the fence
in the buffer object of reference `i` and note the observed access. -/
def stamp_fence_step (c : Consts) (krec : nouveau_pushbuf_krec) (fence : NvFence) (st : State)
    (i : Nat) : State :=
  let kref := krec.buffer i
  let nvbo := st.bo kref.bo
  let a1 := if kref.write_domains ≠ 0 then nvbo.access ||| c.NOUVEAU_BO_WR else nvbo.access
  let a2 := if kref.read_domains ≠ 0 then a1 ||| c.NOUVEAU_BO_RD else a1
  { st with bo := Function.update st.bo kref.bo { nvbo with fence := fence, access := a2 } }

/-- The second loop of the body of pushbuf_submit, over all references of the
record. -/
def stamp_fence (c : Consts) (s : State) (krec : nouveau_pushbuf_krec) (fence : NvFence) : State :=
  (List.range krec.nr_buffer).foldl (stamp_fence_step c krec fence) s

/-- The value of `return -rc` in a function that returns int, for a status `rc`
of type u32: the negation is taken in 32 bits and the result read as a signed
32-bit integer. -/
def neg_status (rc : Nat) : Int :=
  let v : Nat := (2 ^ 32 - rc % 2 ^ 32) % 2 ^ 32
  if v < 2 ^ 31 then (v : Int) else (v : Int) - 2 ^ 32

/-- The `while (krec && krec->nr_push)` loop of pushbuf_submit over the chain of
records.  On a rejected kickoff the loop returns `-rc`; the call of
pushbuf_dump before that return is the `DEBUG` build's, which only prints. -/
def submit_chain (c : Consts) (p : Nat) : State → List nouveau_pushbuf_krec → State × Int
  | s, [] => (s, 0)
  | s, krec :: rest =>
    if krec.nr_push = 0 then (s, 0)
    else
      let nvpb := s.push p
      let g1 := submit_entries c s krec nvpb.gpu_channel
      let g2 := nvGpuChannelIncrFence g1
      let g3 := nvGpuChannelAppendEntry g2 (s.bo nvpb.bo_builtin_cmdbuf).offset nvpb.fence_num_cmds
        (c.GPFIFO_ENTRY_NOT_MAIN ||| c.GPFIFO_ENTRY_NO_PREFETCH)
      let (rc, g4) := nvGpuChannelKickoff g3
      if rc ≠ 0 then (setPush s p { nvpb with gpu_channel := g4 }, neg_status rc)
      else
        let fence := nvGpuChannelGetFence g4
        let s1 := stamp_fence c (setPush s p { nvpb with gpu_channel := g4 }) krec fence
        let nvpb1 := s1.push p
        let g5 := nvGpuChannelAppendEntry nvpb1.gpu_channel
          ((s1.bo nvpb1.bo_builtin_cmdbuf).offset + 4 * nvpb1.fence_num_cmds) nvpb1.flush_num_cmds
          c.GPFIFO_ENTRY_NOT_MAIN
        let g6 := nvGpuChannelAppendEntry g5
          ((s1.bo nvpb1.bo_builtin_cmdbuf).offset + 4 * (nvpb1.fence_num_cmds + nvpb1.flush_num_cmds)) 1
          (c.GPFIFO_ENTRY_NOT_MAIN ||| c.GPFIFO_ENTRY_NO_PREFETCH)
        submit_chain c p (setPush s1 p { nvpb1 with gpu_channel := g6 }) rest

/-- The function pushbuf_submit.  Reading `chan->data` and `chan->oclass`
through a null `chan` is a fault. -/
def pushbuf_submit (c : Consts) (s : State) (p : Nat) (chan : Option nouveau_object) :
    Except Err (State × Int) :=
  match chan with
  | none => .error .fault
  | some ch =>
    if ch.oclass ≠ c.NOUVEAU_FIFO_CHANNEL_CLASS then .ok (s, -(c.EINVAL : Int))
    else
      match nouveau_pushbuf_data s p none 0 0 with
      | .error e => .error e
      | .ok s1 => .ok (submit_chain c p s1 ((s1.push p).krec :: (s1.push p).next))

/-- One round of the first loop of pushbuf_flush: clear the ownership entry of
the buffer of reference `i` and, on a pushbuf with a channel, drop its external
reference. -/
def flush_release_step (p : Nat) (st : State) (i : Nat) : State :=
  let bo := ((st.push p).krec.buffer i).bo
  let st1 := cli_kref_set st bo none none
  if (st1.push p).channel.isSome then bo_unref st1 bo else st1

/-- The first loop of pushbuf_flush, over all references of the record. -/
def flush_release (s : State) (p : Nat) : State :=
  (List.range (s.push p).krec.nr_buffer).foldl (flush_release_step p) s

/-- One round of the DRMLISTFOREACHENTRYSAFE loop of pushbuf_flush:
DRMLISTJOIN(&bctx->current, &bctx->pending) puts the current list in front of
the pending list, DRMINITLISTHEAD(&bctx->current) empties the current list. -/
def flush_bufctx_step (st : State) (b : Nat) : State :=
  let bctx := st.bufctx b
  { st with bufctx := Function.update st.bufctx b { bctx with pending := bctx.current ++ bctx.pending, current := [] } }

/-- The DRMLISTFOREACHENTRYSAFE loop of pushbuf_flush: every open context gets
its current list joined in front of its pending list and leaves the list of
open contexts. -/
def flush_bufctx (s : State) (p : Nat) : State :=
  let s1 := (s.push p).bctx_list.foldl flush_bufctx_step s
  setPush s1 p { s1.push p with bctx_list := [] }

/-- The function pushbuf_flush. -/
def pushbuf_flush (c : Consts) (s : State) (p : Nat) : Except Err (State × Int) :=
  match pushbuf_submit c s p (s.push p).channel with
  | .error e => .error e
  | .ok (s1, ret) =>
    let s2 := flush_release s1 p
    let s3 := setKrec s2 p { (s2.push p).krec with nr_buffer := 0, nr_push := 0 }
    .ok (flush_bufctx s3 p, ret)

/-- The function pushbuf_kref_fits: always true. -/
def pushbuf_kref_fits : Bool := true

/-- The first half of pushbuf_kref: if the buffer is referenced on another
pushbuf that is owned by the same client, that pushbuf is flushed first. -/
def kref_flush_other (c : Consts) (s : State) (p : Nat) (bo : Nat) : Except Err State :=
  match cli_push_get s bo with
  | none => .ok s
  | some fpush =>
    if fpush ≠ p then
      match pushbuf_flush c s fpush with
      | .error e => .error e
      | .ok (s1, _) => .ok s1
    else .ok s

/-- The second half of pushbuf_kref: OR the domains into the reference the
table holds for the buffer, or append a new reference to the record of `p`,
or return NULL (`none`) when the record is full. -/
def kref_insert (c : Consts) (s1 : State) (p : Nat) (bo : Nat) (flags : Nat) :
    State × Option KrefPtr :=
  let domains := c.NOUVEAU_GEM_DOMAIN_GART
  let domains_wr := domains * (if flags &&& c.NOUVEAU_BO_WR ≠ 0 then 1 else 0)
  let domains_rd := domains * (if flags &&& c.NOUVEAU_BO_RD ≠ 0 then 1 else 0)
  match cli_kref_get s1 bo with
  | some kref =>
    let r := derefKref s1 kref
    (storeKref s1 kref { r with write_domains := r.write_domains ||| domains_wr,
                                read_domains := r.read_domains ||| domains_rd }, some kref)
  | none =>
    let krec := (s1.push p).krec
    if krec.nr_buffer = c.NOUVEAU_GEM_MAX_BUFFERS ∨ pushbuf_kref_fits = false then (s1, none)
    else
      let kref : KrefPtr := { push := p, idx := krec.nr_buffer }
      let s2 := setKrec s1 p { krec with
        buffer := Function.update krec.buffer krec.nr_buffer
          { bo := bo, handle := (s1.bo bo).handle, write_domains := domains_wr,
            read_domains := domains_rd },
        nr_buffer := krec.nr_buffer + 1 }
      (bo_incref (cli_kref_set s2 bo (some kref) (some p)) bo, some kref)

/-- The function pushbuf_kref.  The result holds the returned pointer, `none`
for NULL. -/
def pushbuf_kref (c : Consts) (s : State) (p : Nat) (bo : Nat) (flags : Nat) :
    Except Err (State × Option KrefPtr) :=
  match kref_flush_other c s p bo with
  | .error e => .error e
  | .ok s1 => .ok (kref_insert c s1 p bo flags)

/-- Round `j` of the loop of pushbuf_refn_fail: release the reference at index
`sref + j`. -/
def refn_fail_step (p : Nat) (sref : Nat) (st : State) (j : Nat) : State :=
  let bo := ((st.push p).krec.buffer (sref + j)).bo
  bo_unref (cli_kref_set st bo none none) bo

/-- The function pushbuf_refn_fail: the loop `while (krec->nr_buffer-- > sref)`
releases the references from index `sref` on, then the count is set to `sref`. -/
def pushbuf_refn_fail (s : State) (p : Nat) (sref : Nat) : State :=
  let s1 := (List.range ((s.push p).krec.nr_buffer - sref)).foldl (refn_fail_step p sref) s
  setKrec s1 p { (s1.push p).krec with nr_buffer := sref }

/-- The struct nouveau_pushbuf_refn: one (buffer, flags) pair of a batch. -/
structure struct_nouveau_pushbuf_refn where
  bo : Nat
  flags : Nat
  deriving DecidableEq, Repr

/-- The insertion loop shared by pushbuf_refn and pushbuf_validate: call
pushbuf_kref for each (buffer, flags) pair in turn and stop with -ENOSPC at the
first call that returns NULL. -/
def kref_loop (c : Consts) (p : Nat) : State → List (Nat × Nat) → Except Err (State × Int)
  | s, [] => .ok (s, 0)
  | s, r :: rest =>
    match pushbuf_kref c s p r.1 r.2 with
    | .error e => .error e
    | .ok (s1, none) => .ok (s1, -(c.ENOSPC : Int))
    | .ok (s1, some _) => kref_loop c p s1 rest

/-- The function pushbuf_refn called with `retry = false`. -/
def pushbuf_refn_pass (c : Consts) (s : State) (p : Nat) (refs : List struct_nouveau_pushbuf_refn) :
    Except Err (State × Int) :=
  let sref := (s.push p).krec.nr_buffer
  match kref_loop c p s (refs.map (fun r => (r.bo, r.flags))) with
  | .error e => .error e
  | .ok (s1, ret) =>
    if ret ≠ 0 then .ok (pushbuf_refn_fail s1 p sref, ret) else .ok (s1, ret)

/-- DRMLISTDEL(&bctx->head) followed by DRMLISTADD(&bctx->head,
&nvpb->bctx_list): the context leaves the list it is on and becomes the head of
the list of open contexts of pushbuf `p`. -/
def bctx_move (s : State) (p : Nat) (b : Nat) : State :=
  let s1 := { s with push := fun q => { s.push q with bctx_list := (s.push q).bctx_list.erase b } }
  setPush s1 p { s1.push p with bctx_list := b :: (s1.push p).bctx_list }

/-- The body of pushbuf_validate after its call of nouveau_pushbuf_space, for
`retry = false`; `bctx` is `push->bufctx` as read on entry. -/
def validate_insert (c : Consts) (s1 : State) (p : Nat) (b : Nat) : Except Err (State × Int) :=
  let sref := (s1.push p).krec.nr_buffer
  let s2 := bctx_move s1 p b
  match kref_loop c p s2 ((s2.bufctx b).pending.map (fun r => (r.bo, r.flags))) with
  | .error e => .error e
  | .ok (s3, ret) =>
    let bctx := s3.bufctx b
    let s4 := { s3 with bufctx := Function.update s3.bufctx b { bctx with current := bctx.pending ++ bctx.current, pending := [] } }
    if ret ≠ 0 then .ok (pushbuf_refn_fail s4 p sref, ret) else .ok (s4, ret)

/-- One pass of pushbuf_validate, with the function it calls for space as a
parameter: reserve space, then insert the pending references of the attached
context.  The flag of the result tells that the pass ended in the branch
`if (ret)` behind the rollback, where `retry` is looked at. -/
def validate_pass (c : Consts)
    (space : State → Nat → Nat → Nat → Nat → Except Err (State × Int))
    (s : State) (p : Nat) : Except Err (State × Int × Bool) :=
  let bctx := (s.push p).bufctx
  let relocs : Int := match bctx with
    | some b => (s.bufctx b).relocs * 2
    | none => 0
  match space s p (relocs % 2 ^ 32).toNat (relocs % 2 ^ 32).toNat 0 with
  | .error e => .error e
  | .ok (s1, ret) =>
    match bctx with
    | none => .ok (s1, ret, false)
    | some b =>
      if ret ≠ 0 then .ok (s1, ret, false)
      else
        match validate_insert c s1 p b with
        | .error e => .error e
        | .ok (s2, ret2) => .ok (s2, ret2, decide (ret2 ≠ 0))

/-- The function pushbuf_validate with the function it calls for space as a
parameter.  With `retry` set, a failed insertion pass is followed by a flush
and one more pass without retry. -/
def pushbuf_validate_with (c : Consts)
    (space : State → Nat → Nat → Nat → Nat → Except Err (State × Int))
    (s : State) (p : Nat) (retry : Bool) : Except Err (State × Int) :=
  match validate_pass c space s p with
  | .error e => .error e
  | .ok (s1, ret, failed) =>
    if failed = true ∧ retry = true then
      match pushbuf_flush c s1 p with
      | .error e => .error e
      | .ok (s2, _) =>
        match validate_pass c space s2 p with
        | .error e => .error e
        | .ok (s3, ret3, _) => .ok (s3, ret3)
    else .ok (s1, ret)

/-- The first block of nouveau_pushbuf_space, `if (push->cur + dwords >=
push->end)`: switch to the next buffer if there is insufficient space in the
current one.  The result holds the status and the selected buffer `bo`.
`nvpb->bos[0]` is a buffer of the pool when the pool has one (bo_nr >= 1). -/
def space_select (s : State) (p : Nat) (dwords : Nat) : State × Int × Option Nat :=
  let nvpb := s.push p
  if nvpb.cur + (dwords : Int) ≥ nvpb.end_ then
    if nvpb.bo_next < nvpb.bo_nr then
      let b := nvpb.bos nvpb.bo_next
      let s1 := bo_incref s b
      let n1 := nvpb.bo_next + 1
      (setPush s1 p { s1.push p with
        bo_next := if n1 = nvpb.bo_nr ∧ nvpb.channel.isSome then 0 else n1 }, 0, some b)
    else
      let r := nouveau_bo_new s (s.bo (nvpb.bos 0)).size
      if r.2.1 ≠ 0 then (r.1, r.2.1, none) else (r.1, 0, some r.2.2)
  else (s, 0, none)

/-- The condition of the flush in nouveau_pushbuf_space, evaluated left to
right: `(bo && (push->channel || !pushbuf_kref(push, bo, push->flags))) ||
krec->nr_push + pushes >= NOUVEAU_GEM_MAX_PUSH`, the sum taken in 32 bits. -/
def space_cond (c : Consts) (s : State) (p : Nat) (bo : Option Nat) (pushes : Nat) :
    Except Err (State × Bool) :=
  let limit := fun (st : State) =>
    decide (((st.push p).krec.nr_push + pushes) % 2 ^ 32 ≥ c.NOUVEAU_GEM_MAX_PUSH)
  match bo with
  | none => .ok (s, limit s)
  | some b =>
    if (s.push p).channel.isSome then .ok (s, true)
    else
      match pushbuf_kref c s p b (s.push p).flags with
      | .error e => .error e
      | .ok (s2, none) => .ok (s2, true)
      | .ok (s2, some _) => .ok (s2, limit s2)

/-- The body of that condition: `if (nvpb->bo && krec->nr_buffer)
pushbuf_flush(push)`. -/
def space_flush (c : Consts) (s : State) (p : Nat) (flushed : Bool) : Except Err State :=
  if flushed = true ∧ (s.push p).bo.isSome ∧ (s.push p).krec.nr_buffer ≠ 0 then
    match pushbuf_flush c s p with
    | .error e => .error e
    | .ok (s3, _) => .ok s3
  else .ok s

/-- Modelled from the spec: `nouveau_bo_ref(bo, &nvpb->bo)` takes a reference
of `bo`, drops the reference of the buffer `nvpb->bo` pointed to, if any, and
stores `bo` in `nvpb->bo`. -/
def bo_ref_current (s : State) (p : Nat) (b : Nat) : State :=
  let s5 := bo_incref s b
  let s6 := match (s5.push p).bo with
    | some old => bo_unref s5 old
    | none => s5
  setPush s6 p { s6.push p with bo := some b }

/-- The block `if (bo)` of nouveau_pushbuf_space: if necessary, switch to the
new buffer. -/
def space_switch (s : State) (p : Nat) (bo : Option Nat) : Except Err (State × Int) :=
  match bo with
  | none => .ok (s, 0)
  | some b =>
    let m := nouveau_bo_map s
    if m.2 ≠ 0 then .ok (m.1, m.2)
    else
      match nouveau_pushbuf_data m.1 p none 0 0 with
      | .error e => .error e
      | .ok s4 =>
        let s7 := bo_unref (bo_ref_current s4 p b) b
        let bgn := (s7.bo b).map
        .ok (setPush s7 p { s7.push p with
          bgn := bgn, ptr := bgn, cur := bgn,
          end_ := bgn + ((s7.bo b).size / 4 : Nat) - (((2 + (s7.push p).rsvd_kick) % 2 ^ 32 : Nat) : Int) }, 0)

/-- The function nouveau_pushbuf_space.  The first argument bounds the depth of
the recursion through pushbuf_validate. -/
def nouveau_pushbuf_space (c : Consts) :
    Nat → State → Nat → Nat → Nat → Nat → Except Err (State × Int)
  | 0, _, _, _, _, _ => .error .nofuel
  | fuel + 1, s, p, dwords, _relocs, pushes =>
    let sel := space_select s p dwords
    if sel.2.1 ≠ 0 then .ok (sel.1, sel.2.1)
    else
      match space_cond c sel.1 p sel.2.2 ((pushes + 1) % 2 ^ 32) with
      | .error e => .error e
      | .ok (s2, flushed) =>
        match space_flush c s2 p flushed with
        | .error e => .error e
        | .ok s3 =>
          match space_switch s3 p sel.2.2 with
          | .error e => .error e
          | .ok (s8, ret) =>
            if ret ≠ 0 then .ok (s8, ret)
            else
              match (s8.push p).bo with
              | none => .error .fault
              | some cur_bo =>
                match pushbuf_kref c s8 p cur_bo (s8.push p).flags with
                | .error e => .error e
                | .ok (s9, _) =>
                  if flushed = true then
                    pushbuf_validate_with c (nouveau_pushbuf_space c fuel) s9 p false
                  else .ok (s9, 0)

/-- The function pushbuf_validate. -/
def pushbuf_validate (c : Consts) (fuel : Nat) (s : State) (p : Nat) (retry : Bool) :
    Except Err (State × Int) :=
  pushbuf_validate_with c (nouveau_pushbuf_space c fuel) s p retry

/-- The function nouveau_pushbuf_validate. -/
def nouveau_pushbuf_validate (c : Consts) (fuel : Nat) (s : State) (p : Nat) :
    Except Err (State × Int) :=
  pushbuf_validate c fuel s p true

/-- The function pushbuf_refn. -/
def pushbuf_refn (c : Consts) (fuel : Nat) (s : State) (p : Nat) (retry : Bool)
    (refs : List struct_nouveau_pushbuf_refn) : Except Err (State × Int) :=
  let sref := (s.push p).krec.nr_buffer
  match kref_loop c p s (refs.map (fun r => (r.bo, r.flags))) with
  | .error e => .error e
  | .ok (s1, ret) =>
    if ret ≠ 0 then
      let s2 := pushbuf_refn_fail s1 p sref
      if retry = true then
        match pushbuf_flush c s2 p with
        | .error e => .error e
        | .ok (s3, _) =>
          match nouveau_pushbuf_space c fuel s3 p 0 0 0 with
          | .error e => .error e
          | .ok (s4, _) => pushbuf_refn_pass c s4 p refs
      else .ok (s2, ret)
    else .ok (s1, ret)

/-- The function nouveau_pushbuf_refn. -/
def nouveau_pushbuf_refn (c : Consts) (fuel : Nat) (s : State) (p : Nat)
    (refs : List struct_nouveau_pushbuf_refn) : Except Err (State × Int) :=
  pushbuf_refn c fuel s p true refs

/-- The function nouveau_pushbuf_refd; its `assert(kref)` faults on a buffer
that has an owner and no reference. -/
def nouveau_pushbuf_refd (c : Consts) (s : State) (p : Nat) (bo : Nat) : Except Err Nat :=
  if cli_push_get s bo = some p then
    match cli_kref_get s bo with
    | none => .error .fault
    | some kref =>
      let flags := if (derefKref s kref).read_domains ≠ 0 then 0 ||| c.NOUVEAU_BO_RD else 0
      .ok (if (derefKref s kref).write_domains ≠ 0 then flags ||| c.NOUVEAU_BO_WR else flags)
  else .ok 0

/-- The function nouveau_pushbuf_kick. -/
def nouveau_pushbuf_kick (c : Consts) (fuel : Nat) (s : State) (p : Nat)
    (chan : Option nouveau_object) : Except Err (State × Int) :=
  match (s.push p).channel with
  | none => pushbuf_submit c s p chan
  | some _ =>
    match pushbuf_flush c s p with
    | .error e => .error e
    | .ok (s1, _) => pushbuf_validate c fuel s1 p false

/-- Modelled from the spec: `nouveau_bo_ref(NULL, &ref)` on a reference that
may be null drops the external reference of the buffer `ref` points to, if
any. -/
def bo_unref_opt (s : State) (ref : Option Nat) : State :=
  match ref with
  | some b => bo_unref s b
  | none => s

/-- Modelled from the spec: `nvGpuChannelClose` tears the hardware queue down.
It appends no entry and kicks nothing off; what the queue holds is left as it
is. -/
def nvGpuChannelClose (g : NvGpuChannel) : NvGpuChannel := g

/-- One round of the inner loop of nouveau_pushbuf_del, `while
(krec->nr_buffer--)`, for reference `i` of the record: clear the ownership
entry of its buffer and drop its external reference. -/
def del_release_step (krec : nouveau_pushbuf_krec) (st : State) (i : Nat) : State :=
  let bo := (krec.buffer i).bo
  bo_unref (cli_kref_set st bo none none) bo

/-- The inner loop of nouveau_pushbuf_del over the references of one record. -/
def del_release (s : State) (krec : nouveau_pushbuf_krec) : State :=
  (List.range krec.nr_buffer).foldl (del_release_step krec) s

/-- The outer loop of nouveau_pushbuf_del, `while ((krec = nvpb->list))`: the
references of the head record are released, `nvpb->list` moves on to
`krec->next` and the record is freed.  The result holds the state, the queue
that is left when the loop ends and the number of records freed. -/
def del_chain : State → List nouveau_pushbuf_krec → State × List nouveau_pushbuf_krec × Nat
  | s, [] => (s, [], 0)
  | s, krec :: rest =>
    let r := del_chain (del_release s krec) rest
    (r.1, r.2.1, r.2.2 + 1)

/-- The loop `while (nvpb->bo_nr--) nouveau_bo_ref(NULL, &nvpb->bos[nvpb->bo_nr])`
of nouveau_pushbuf_del: the pool buffers are released from the last to the
first. -/
def del_pool (s : State) (p : Nat) : State :=
  (List.range (s.push p).bo_nr).reverse.foldl (fun st i => bo_unref st ((s.push p).bos i)) s

/-- The function nouveau_pushbuf_del on a constructed pushbuf (its built-in and
auxiliary buffers exist); `ppush` is the handle `*ppush` of the caller.  The
result holds the state, the handle of the caller after the call, the record
queue `nvpb->list` at the time the pushbuf is freed and the number of records
freed.  The memory of the pushbuf is freed: the state keeps its last contents,
which nothing reads any more. -/
def nouveau_pushbuf_del (s : State) (ppush : Option Nat) :
    State × Option Nat × List nouveau_pushbuf_krec × Nat :=
  match ppush with
  | none => (s, none, [], 0)
  | some p =>
    let nvpb := s.push p
    let s1 := setPush s p { nvpb with gpu_channel := nvGpuChannelClose nvpb.gpu_channel }
    let s2 := bo_unref s1 nvpb.bo_zcullctx
    let s3 := bo_unref s2 nvpb.bo_builtin_cmdbuf
    let r := del_chain s3 (nvpb.krec :: nvpb.next)
    let s4 := del_pool r.1 p
    (bo_unref_opt s4 (s4.push p).bo, none, r.2.1, r.2.2)

/-! ## Concrete states used for runs of the model -/

/-- An empty record. -/
def krec0 : nouveau_pushbuf_krec :=
  { buffer := fun _ => ⟨0, 0, 0, 0⟩, push := fun _ => ⟨0, 0, 0⟩, nr_buffer := 0, nr_push := 0 }

/-- A channel with nothing queued whose kickoffs answer with `ks`. -/
def gpu0 (ks : List Nat) : NvGpuChannel := ⟨[], [], ⟨0, 0⟩, 0, ks⟩

/-- Pushbuf `q` as the constructor leaves it, with a pool of two buffers (objects
10 (q + 1) and 10 (q + 1) + 1), built-in command buffer 100 + q and auxiliary
context buffer 200 + q; pushbufs with an even number are immediate, the others
deferred.  Every kickoff answers with `ks`. -/
def push0 (q : Nat) (ks : List Nat) : nouveau_pushbuf_priv :=
  { channel := if q % 2 = 0 then some ⟨hdr.NOUVEAU_FIFO_CHANNEL_CLASS⟩ else none,
    bufctx := none, rsvd_kick := 0, flags := 0x80000102, cur := 0, end_ := 0,
    krec := krec0, next := [], bctx_list := [], bo := none, bo_zcullctx := 200 + q,
    bo_builtin_cmdbuf := 100 + q,
    gpu_channel := gpu0 ks, fence_num_cmds := 3, flush_num_cmds := 8, type := 2,
    ptr := 0, bgn := 0, bo_next := 0, bo_nr := 2, bos := fun i => 10 * (q + 1) + i }

/-- A client with empty ownership table; buffer object `i` has handle `i` and
4096 bytes. -/
def st0 (ks : List Nat) : State :=
  { kref := fun _ => none, kpush := fun _ => none,
    bo := fun i => { handle := i, size := 0x1000, offset := 0x10000 * i, map := 0x400 * i,
                     refcnt := 1, fence := ⟨0, 0⟩, access := 0 },
    push := fun q => push0 q ks, bufctx := fun _ => ⟨[], [], 0⟩,
    bo_new := [], bo_map := [], bo_fresh := 1000 }

/-- The channel object the immediate pushbufs of `st0` were built on. -/
def chan0 : nouveau_object := ⟨hdr.NOUVEAU_FIFO_CHANNEL_CLASS⟩

/-- The state of a result, or the given state when the run ended without one. -/
def stateOf {α : Type} (d : State) (r : Except Err (State × α)) : State :=
  match r with
  | .ok (s, _) => s
  | .error _ => d

/-- The state `st0 ks` after the immediate pushbuf 0 reserved 16 words, which
makes object 10 its command buffer, and the client wrote 4 words. -/
def st1 (ks : List Nat) : State :=
  let s := stateOf (st0 ks) (nouveau_pushbuf_space hdr 3 (st0 ks) 0 16 0 0)
  setPush s 0 { s.push 0 with cur := (s.push 0).cur + 4 }

/-- The state `st1 ks` after pushbuf 0 took a read reference of object 7. -/
def st2 (ks : List Nat) : State :=
  stateOf (st1 ks) (pushbuf_kref hdr (st1 ks) 0 7 hdr.NOUVEAU_BO_RD)

/-! ## Expected queue entries of a submission -/

/-- The queue entry pushbuf_submit appends for push descriptor `i` of a
record. -/
def batch_entry (c : Consts) (s : State) (krec : nouveau_pushbuf_krec) (i : Nat) : GpfifoEntry :=
  { start := ((s.bo (krec.buffer (krec.push i).bo_index).bo).offset + (krec.push i).offset) % 2 ^ 64,
    num_cmds := (krec.push i).length / 4,
    flags := c.GPFIFO_ENTRY_NOT_MAIN }

/-- The fence-increment block of pushbuf `p`. -/
def fence_entry (c : Consts) (s : State) (p : Nat) : GpfifoEntry :=
  { start := (s.bo (s.push p).bo_builtin_cmdbuf).offset,
    num_cmds := (s.push p).fence_num_cmds,
    flags := c.GPFIFO_ENTRY_NOT_MAIN ||| c.GPFIFO_ENTRY_NO_PREFETCH }

/-- The cache-flush block of pushbuf `p`. -/
def flush_entry (c : Consts) (s : State) (p : Nat) : GpfifoEntry :=
  { start := (s.bo (s.push p).bo_builtin_cmdbuf).offset + 4 * (s.push p).fence_num_cmds,
    num_cmds := (s.push p).flush_num_cmds,
    flags := c.GPFIFO_ENTRY_NOT_MAIN }

/-- The single-entry barrier block of pushbuf `p`. -/
def barrier_entry (c : Consts) (s : State) (p : Nat) : GpfifoEntry :=
  { start := (s.bo (s.push p).bo_builtin_cmdbuf).offset
      + 4 * ((s.push p).fence_num_cmds + (s.push p).flush_num_cmds),
    num_cmds := 1,
    flags := c.GPFIFO_ENTRY_NOT_MAIN ||| c.GPFIFO_ENTRY_NO_PREFETCH }

/-- The access flags the stamping loop of pushbuf_submit leaves on the buffer
of a reference, from the flags `a` it had before. -/
def stamped_access (c : Consts) (kref : drm_nouveau_gem_pushbuf_bo) (a : Nat) : Nat :=
  (a ||| (if kref.write_domains ≠ 0 then c.NOUVEAU_BO_WR else 0))
    ||| (if kref.read_domains ≠ 0 then c.NOUVEAU_BO_RD else 0)

/-- A state reached in two rounds: starting from `st1 []`, pushbuf 0 takes a
write reference of object 7 and is kicked (flush and re-validation); then the
client writes 4 more words and pushbuf 0 takes a read reference of object 7. -/
def st3 : State :=
  let sa := stateOf (st1 []) (pushbuf_kref hdr (st1 []) 0 7 hdr.NOUVEAU_BO_WR)
  let sb := stateOf sa (nouveau_pushbuf_kick hdr 3 sa 0 none)
  let sc := setPush sb 0 { sb.push 0 with cur := (sb.push 0).cur + 4 }
  stateOf sc (pushbuf_kref hdr sc 0 7 hdr.NOUVEAU_BO_RD)

/-- The state `st0 ks` after the deferred pushbuf 1 reserved 16 words, which
makes object 20 its command buffer, and the client wrote 4 words. -/
def st1d (ks : List Nat) : State :=
  let s := stateOf (st0 ks) (nouveau_pushbuf_space hdr 3 (st0 ks) 1 16 0 0)
  setPush s 1 { s.push 1 with cur := (s.push 1).cur + 4 }

/-- The command-buffer geometry is the same in two states: cursor, end, kick
reserve and current buffer of every pushbuf, and mapping address and size of
every buffer object. -/
def Geom (s s1 : State) : Prop :=
  (∀ q, (s1.push q).cur = (s.push q).cur ∧ (s1.push q).end_ = (s.push q).end_ ∧
    (s1.push q).rsvd_kick = (s.push q).rsvd_kick ∧ (s1.push q).bo = (s.push q).bo) ∧
  ∀ b, (s1.bo b).map = (s.bo b).map ∧ (s1.bo b).size = (s.bo b).size

/-- The cursor of pushbuf `p` stands at the start of its current buffer and the
end lies 2 + rsvd_kick words before the end of the size/4 words of that
buffer. -/
def AtStart (s : State) (p : Nat) : Prop :=
  ∃ b, (s.push p).bo = some b ∧ (s.push p).cur = (s.bo b).map ∧
    (s.push p).end_ = (s.bo b).map + (((s.bo b).size / 4 : Nat) : Int)
      - ((((2 + (s.push p).rsvd_kick) % 2 ^ 32 : Nat)) : Int)

/-- The state `st0 []` after the immediate pushbuf 0 reserved 16 words. -/
def st0s : State := stateOf (st0 []) (nouveau_pushbuf_space hdr 3 (st0 []) 0 16 0 0)

/-! ## Agreement of the ownership table with the records -/

/-- The ownership table and the records agree: an entry of the table points to
a live reference of the pushbuf it names, that reference is for the same
buffer, and the owner it names is that pushbuf; and every live reference of a
record is the one the table holds for its buffer. -/
def WF (s : State) : Prop :=
  (∀ bo k, s.kref bo = some k →
    k.idx < (s.push k.push).krec.nr_buffer ∧ ((s.push k.push).krec.buffer k.idx).bo = bo ∧
    s.kpush bo = some k.push) ∧
  (∀ q i, i < (s.push q).krec.nr_buffer → s.kref ((s.push q).krec.buffer i).bo = some ⟨q, i⟩)

/-- No record holds more references than NOUVEAU_GEM_MAX_BUFFERS. -/
def Bound (c : Consts) (s : State) : Prop :=
  ∀ q, (s.push q).krec.nr_buffer ≤ c.NOUVEAU_GEM_MAX_BUFFERS

/-- Two states have the same ownership table and the same references in every
record. -/
def SameRefs (s s1 : State) : Prop :=
  s1.kref = s.kref ∧ s1.kpush = s.kpush ∧
  ∀ q, (s1.push q).krec.buffer = (s.push q).krec.buffer ∧
    (s1.push q).krec.nr_buffer = (s.push q).krec.nr_buffer

/-- The reference pushbuf `p` holds for buffer `b` according to the table, if
any. -/
def own (s : State) (p : Nat) (b : Nat) : Option drm_nouveau_gem_pushbuf_bo :=
  match s.kref b with
  | some k => if k.push = p then some (derefKref s k) else none
  | none => none

/-- The read-domain mask pushbuf_kref computes from the requested flags. -/
def domains_rd (c : Consts) (flags : Nat) : Nat :=
  c.NOUVEAU_GEM_DOMAIN_GART * (if flags &&& c.NOUVEAU_BO_RD ≠ 0 then 1 else 0)

/-- The write-domain mask pushbuf_kref computes from the requested flags. -/
def domains_wr (c : Consts) (flags : Nat) : Nat :=
  c.NOUVEAU_GEM_DOMAIN_GART * (if flags &&& c.NOUVEAU_BO_WR ≠ 0 then 1 else 0)

/-- The (read_domains, write_domains) of the reference pushbuf `p` holds for
buffer `b`, if it holds one. -/
def refFlags (s : State) (p : Nat) (b : Nat) : Option (Nat × Nat) :=
  (own s p b).map (fun r => (r.read_domains, r.write_domains))

/-- The domains of a reference after an insertion with `flags`, from the
domains `old` it had before (none for a new reference). -/
def mergeFlags (c : Consts) (flags : Nat) (old : Option (Nat × Nat)) : Nat × Nat :=
  ((old.getD (0, 0)).1 ||| domains_rd c flags, (old.getD (0, 0)).2 ||| domains_wr c flags)

/-- The invariant of the reference tracker: table and records agree and no
record is over its capacity. -/
def Inv (c : Consts) (s : State) : Prop := WF s ∧ Bound c s

/-- A state in which the immediate pushbuf 0 has command buffer 10 with 4 words
written and a record of n + 1 read references: object 10 in slot 0 and object
2000 + i in slot i for 0 < i <= n. -/
def stRec (n : Nat) : State :=
  { st0 [] with
    kref := fun b => if b = 10 then some ⟨0, 0⟩
      else if 2001 ≤ b ∧ b < 2001 + n then some ⟨0, b - 2000⟩ else none,
    kpush := fun b => if b = 10 ∨ (2001 ≤ b ∧ b < 2001 + n) then some 0 else none,
    push := Function.update (st0 []).push 0 { push0 0 [] with
      krec := { krec0 with
        buffer := fun i => if i = 0 then ⟨10, 10, 4, 0⟩ else ⟨2000 + i, 2000 + i, 4, 0⟩,
        nr_buffer := n + 1 },
      bo := some 10, bo_next := 1, ptr := 10240, bgn := 10240, cur := 10244, end_ := 11262 } }

/-- A batch of 1025 read references of the distinct buffers 5000, ..., 6024. -/
def batch1025 : List struct_nouveau_pushbuf_refn :=
  (List.range 1025).map (fun i => ⟨5000 + i, hdr.NOUVEAU_BO_RD⟩)

/-- Pushbuf `p` is the same in two states apart from the references of its
record and their count. -/
def PFrame (s s1 : State) (p : Nat) : Prop :=
  s1.push p = { s.push p with krec := { (s.push p).krec with
    buffer := (s1.push p).krec.buffer, nr_buffer := (s1.push p).krec.nr_buffer } }

/-- A run of pushbuf_kref calls on pushbuf `p`, one for each (buffer, flags)
pair in turn, in which every call returns a reference: the state after the
last call.  The run has no result (`none`) if a call faults or returns NULL,
which is what a call on a full record does. -/
def kref_seq (c : Consts) (p : Nat) : State → List (Nat × Nat) → Option State
  | s, [] => some s
  | s, r :: rest =>
    match pushbuf_kref c s p r.1 r.2 with
    | .ok (s1, some _) => kref_seq c p s1 rest
    | _ => none

/-- The bitwise OR of `mask flags` over the insertions of buffer `b` in a
sequence of (buffer, flags) pairs. -/
def or_masks (mask : Nat → Nat) (b : Nat) : List (Nat × Nat) → Nat
  | [] => 0
  | r :: rest => (if r.1 = b then mask r.2 else 0) ||| or_masks mask b rest

/-- Some insertion of buffer `b` in the sequence has a bit of `bit` in its
flags. -/
def requested (bit : Nat) (b : Nat) (ins : List (Nat × Nat)) : Bool :=
  ins.any (fun r => decide (r.1 = b) && decide (r.2 &&& bit ≠ 0))

/-! ## The built-in command buffer -/

/-- The function generate_fence_cmdlist on a memory of 32-bit words addressed
by word: writes three words from `buf_start` on and returns the memory and
`cmd - buf_start`. -/
def generate_fence_cmdlist (mem : Nat → Nat) (buf_start : Nat) (syncpt_id : Nat) :
    (Nat → Nat) × Nat :=
  let cmd := buf_start
  let mem1 := Function.update mem cmd ((0x451 ||| (0 <<< 13) ||| (0 <<< 16) ||| (4 <<< 29)) % 2 ^ 32)
  let cmd1 := cmd + 1
  let mem2 := Function.update mem1 cmd1 ((0x0B2 ||| (0 <<< 13) ||| (1 <<< 16) ||| (1 <<< 29)) % 2 ^ 32)
  let cmd2 := cmd1 + 1
  let mem3 := Function.update mem2 cmd2 ((syncpt_id % 2 ^ 32 ||| (1 <<< 20) ||| (1 <<< 16)) % 2 ^ 32)
  let cmd3 := cmd2 + 1
  (mem3, cmd3 - buf_start)

/-- The function generate_flush_cmdlist: eight words written with `*cmd++`, then
`*cmd = 0` without an increment. -/
def generate_flush_cmdlist (mem : Nat → Nat) (buf_start : Nat) : (Nat → Nat) × Nat :=
  let cmd := buf_start
  let mem1 := Function.update mem cmd ((0x00B ||| (6 <<< 13) ||| (1 <<< 16) ||| (1 <<< 29)) % 2 ^ 32)
  let cmd1 := cmd + 1
  let mem2 := Function.update mem1 cmd1 0x80000000
  let cmd2 := cmd1 + 1
  let mem3 := Function.update mem2 cmd2 ((0x00B ||| (6 <<< 13) ||| (1 <<< 16) ||| (1 <<< 29)) % 2 ^ 32)
  let cmd3 := cmd2 + 1
  let mem4 := Function.update mem3 cmd3 0x70000000
  let cmd4 := cmd3 + 1
  let mem5 := Function.update mem4 cmd4 ((0x4A2 ||| (0 <<< 13) ||| (0 <<< 16) ||| (4 <<< 29)) % 2 ^ 32)
  let cmd5 := cmd4 + 1
  let mem6 := Function.update mem5 cmd5 ((0x369 ||| (0 <<< 13) ||| (0x1011 <<< 16) ||| (4 <<< 29)) % 2 ^ 32)
  let cmd6 := cmd5 + 1
  let mem7 := Function.update mem6 cmd6 ((0x50A ||| (0 <<< 13) ||| (0 <<< 16) ||| (4 <<< 29)) % 2 ^ 32)
  let cmd7 := cmd6 + 1
  let mem8 := Function.update mem7 cmd7 ((0x509 ||| (0 <<< 13) ||| (0 <<< 16) ||| (4 <<< 29)) % 2 ^ 32)
  let cmd8 := cmd7 + 1
  let mem9 := Function.update mem8 cmd8 0
  (mem9, cmd8 - buf_start)

/-- The lines of nouveau_pushbuf_new that fill the built-in command buffer,
mapped at word address `map`: the fence list at its start, the flush list
right behind it (`cmds += nvpb->fence_num_cmds`).  The result holds the memory,
`fence_num_cmds` and `flush_num_cmds`. -/
def builtin_cmdbuf_init (mem : Nat → Nat) (map : Nat) (syncpt_id : Nat) : (Nat → Nat) × Nat × Nat :=
  let cmds := map
  let r1 := generate_fence_cmdlist mem cmds syncpt_id
  let fence_num_cmds := r1.2 % 2 ^ 32
  let cmds1 := cmds + fence_num_cmds
  let r2 := generate_flush_cmdlist r1.1 cmds1
  (r2.1, fence_num_cmds, r2.2 % 2 ^ 32)

/-- The bytes a queue entry addresses: from `start` up to `start + 4 * num_cmds`. -/
def GpfifoEntry.stop (e : GpfifoEntry) : Nat := e.start + 4 * e.num_cmds

/-! ## Write spans -/

/-- The client writes `n` words through the cursor (`*push->cur++ = word` in
client code): the cursor of pushbuf `p` advances by `n`. -/
def client_write (s : State) (p : Nat) (n : Nat) : State :=
  setPush s p { s.push p with cur := (s.push p).cur + (n : Int) }

/-- A run of finalisations on pushbuf `p`: for each `n` of the list in turn the
client writes `n` words and nouveau_pushbuf_data(push, NULL, 0, 0) is called. -/
def finalise_run (p : Nat) : State → List Nat → Except Err State
  | s, [] => .ok s
  | s, n :: ns =>
    match nouveau_pushbuf_data (client_write s p n) p none 0 0 with
    | .error e => .error e
    | .ok s1 => finalise_run p s1 ns

/-- The spans that tile the words written in a run: one span of `4 * n` bytes
for each non-empty write of `n` words, each starting where the one before it
ends; `start` is the word the first one starts at. -/
def spans_expected (idx : Nat) : Nat → List Nat → List drm_nouveau_gem_pushbuf_push
  | _, [] => []
  | start, n :: ns =>
    if n = 0 then spans_expected idx start ns
    else ⟨idx, 4 * start, 4 * n⟩ :: spans_expected idx (start + n) ns

/-- The span nouveau_pushbuf_data records for the words between `bgn` and the
cursor of pushbuf `p`, for the reference at index `idx`. -/
def self_span (s : State) (p : Nat) (idx : Nat) : drm_nouveau_gem_pushbuf_push :=
  { bo_index := idx,
    offset := ((((s.push p).bgn - (s.push p).ptr) * 4) % 2 ^ 64).toNat,
    length := ((((s.push p).cur - (s.push p).bgn) * 4) % 2 ^ 64).toNat }

/-! ## Destruction -/

/-- A buffer object with `n` external references fewer. -/
def nouveau_bo.dropped (x : nouveau_bo) (n : Nat) : nouveau_bo :=
  { x with refcnt := x.refcnt - (n : Int) }

/-- The buffers the references of a record name, in order. -/
def krec_refs (krec : nouveau_pushbuf_krec) : List Nat :=
  (List.range krec.nr_buffer).map (fun i => (krec.buffer i).bo)

/-- The buffers referenced by the records of the queue of pushbuf `p`. -/
def queue_refs (s : State) (p : Nat) : List Nat :=
  (((s.push p).krec :: (s.push p).next).map krec_refs).flatten

/-- The number of external references of buffer `b` that nouveau_pushbuf_del
drops for pushbuf `p`: one for each reference of a record of the queue, one for
each pool slot, one each for the auxiliary context buffer, the built-in command
buffer and the current command buffer. -/
def del_drops (s : State) (p : Nat) (b : Nat) : Nat :=
  (queue_refs s p).count b + ((List.range (s.push p).bo_nr).map (s.push p).bos).count b
    + (if (s.push p).bo_zcullctx = b then 1 else 0)
    + (if (s.push p).bo_builtin_cmdbuf = b then 1 else 0)
    + (if (s.push p).bo = some b then 1 else 0)

/-- The state `st0 []` after the deferred pushbuf 1 took a read reference of
object 7. -/
def st7d : State :=
  stateOf (st0 []) (pushbuf_kref hdr (st0 []) 1 7 hdr.NOUVEAU_BO_RD)

/-! ## Buffer rotation -/

/-- What only the buffer selection of nouveau_pushbuf_space may change is the
same in two states: the allocator, size and mapping of every buffer object,
the relocation counter of every context and, for every pushbuf, channel, pool,
position in the pool, kick reserve, attached context and flags. -/
def Pool (s s1 : State) : Prop :=
  s1.bo_fresh = s.bo_fresh ∧ s1.bo_new = s.bo_new ∧
  (∀ b, (s1.bufctx b).relocs = (s.bufctx b).relocs) ∧
  (∀ b, (s1.bo b).size = (s.bo b).size ∧ (s1.bo b).map = (s.bo b).map) ∧
  ∀ q, (s1.push q).channel = (s.push q).channel ∧ (s1.push q).bo_nr = (s.push q).bo_nr ∧
    (s1.push q).bos = (s.push q).bos ∧ (s1.push q).bo_next = (s.push q).bo_next ∧
    (s1.push q).rsvd_kick = (s.push q).rsvd_kick ∧ (s1.push q).bufctx = (s.push q).bufctx ∧
    (s1.push q).flags = (s.push q).flags

/-- As `Pool`, but the position in the pool of pushbuf `p` may have moved
inside the pool. -/
def Rot (s s1 : State) (p : Nat) : Prop :=
  s1.bo_fresh = s.bo_fresh ∧ s1.bo_new = s.bo_new ∧
  (∀ b, (s1.bufctx b).relocs = (s.bufctx b).relocs) ∧
  (∀ b, (s1.bo b).size = (s.bo b).size ∧ (s1.bo b).map = (s.bo b).map) ∧
  (∀ q, (s1.push q).channel = (s.push q).channel ∧ (s1.push q).bo_nr = (s.push q).bo_nr ∧
    (s1.push q).bos = (s.push q).bos ∧ (q ≠ p → (s1.push q).bo_next = (s.push q).bo_next) ∧
    (s1.push q).rsvd_kick = (s.push q).rsvd_kick ∧ (s1.push q).bufctx = (s.push q).bufctx ∧
    (s1.push q).flags = (s.push q).flags) ∧
  ((s.push p).bo_next < (s.push p).bo_nr → (s1.push p).bo_next < (s1.push p).bo_nr)

/-! ## Reachable states -/

/-- The function nouveau_pushbuf_bufctx: attach a buffer context (`none` for
NULL) to pushbuf `p` and return the one that was attached. -/
def nouveau_pushbuf_bufctx (s : State) (p : Nat) (ctx : Option Nat) : State × Option Nat :=
  (setPush s p { s.push p with bufctx := ctx }, (s.push p).bufctx)

/-- A new client whose pushbufs are as nouveau_pushbuf_new leaves them: the
ownership table has no entry and every record is empty (the record comes from
calloc). -/
def Fresh (s : State) : Prop :=
  (∀ b, s.kref b = none) ∧ (∀ b, s.kpush b = none) ∧
  ∀ q, (s.push q).krec.nr_buffer = 0 ∧ (s.push q).krec.nr_push = 0

/-- One operation on a pushbuf of the client: a returning call of a function of
pushbuf.c (the client-visible ones, pushbuf_flush, pushbuf_kref and the passes
pushbuf_refn and pushbuf_validate with `retry = false`), or something client
code does between the calls: write words through the cursor, set the kick
reserve, or edit its buffer contexts in any way. -/
inductive Step (c : Consts) : State → State → Prop
  | space (fuel : Nat) (s s1 : State) (p dwords relocs pushes : Nat) (r : Int) :
      nouveau_pushbuf_space c fuel s p dwords relocs pushes = .ok (s1, r) → Step c s s1
  | data (s s1 : State) (p : Nat) (bo : Option Nat) (offset length : Nat) :
      nouveau_pushbuf_data s p bo offset length = .ok s1 → Step c s s1
  | refn (fuel : Nat) (s s1 : State) (p : Nat) (refs : List struct_nouveau_pushbuf_refn)
      (r : Int) : nouveau_pushbuf_refn c fuel s p refs = .ok (s1, r) → Step c s s1
  | validate (fuel : Nat) (s s1 : State) (p : Nat) (r : Int) :
      nouveau_pushbuf_validate c fuel s p = .ok (s1, r) → Step c s s1
  | kick (fuel : Nat) (s s1 : State) (p : Nat) (chan : Option nouveau_object) (r : Int) :
      nouveau_pushbuf_kick c fuel s p chan = .ok (s1, r) → Step c s s1
  | flush (s s1 : State) (p : Nat) (r : Int) : pushbuf_flush c s p = .ok (s1, r) → Step c s s1
  | kref (s s1 : State) (p bo flags : Nat) (k : Option KrefPtr) :
      pushbuf_kref c s p bo flags = .ok (s1, k) → Step c s s1
  | refn_pass (s s1 : State) (p : Nat) (refs : List struct_nouveau_pushbuf_refn) (r : Int) :
      pushbuf_refn_pass c s p refs = .ok (s1, r) → Step c s s1
  | validate_pass (fuel : Nat) (s s1 : State) (p : Nat) (r : Int) :
      pushbuf_validate c fuel s p false = .ok (s1, r) → Step c s s1
  | bufctx (s : State) (p : Nat) (ctx : Option Nat) : Step c s (nouveau_pushbuf_bufctx s p ctx).1
  | write (s : State) (p n : Nat) : Step c s (client_write s p n)
  | reserve (s : State) (p n : Nat) : Step c s (setPush s p { s.push p with rsvd_kick := n })
  | declare (s : State) (bc : Nat → nouveau_bufctx) : Step c s { s with bufctx := bc }

/-- The states a client can get to from `s0` by such operations. -/
def Reach (c : Consts) (s0 s : State) : Prop := Relation.ReflTransGen (Step c) s0 s

/-- The record of pushbuf `q` in `s1` continues the one in `s`: the descriptors
and the references of `s` are still there, every reference is for the buffer it
was for, and the descriptors that came on top index live references. -/
def DKeep (s s1 : State) (q : Nat) : Prop :=
  (s.push q).krec.nr_push ≤ (s1.push q).krec.nr_push ∧
  (s.push q).krec.nr_buffer ≤ (s1.push q).krec.nr_buffer ∧
  (∀ i, i < (s.push q).krec.nr_push → (s1.push q).krec.push i = (s.push q).krec.push i) ∧
  (∀ j, j < (s.push q).krec.nr_buffer →
    ((s1.push q).krec.buffer j).bo = ((s.push q).krec.buffer j).bo) ∧
  ∀ i, (s.push q).krec.nr_push ≤ i → i < (s1.push q).krec.nr_push →
    ((s1.push q).krec.push i).bo_index < (s1.push q).krec.nr_buffer

/-- Between `s` and `s1` no pushbuf changed its channel, no immediate pushbuf
got a descriptor, and every record either continues the one of `s` or is the
emptied record of an immediate pushbuf. -/
def Quiet (s s1 : State) : Prop :=
  ∀ q, (s1.push q).channel = (s.push q).channel ∧
    ((s.push q).channel.isSome → (s1.push q).krec.nr_push ≤ (s.push q).krec.nr_push) ∧
    (((s1.push q).channel.isSome ∧ (s1.push q).krec.nr_push = 0) ∨ DKeep s s1 q)

/-- Between `s` and `s1` the record of pushbuf `q` kept its descriptors, their
count and its references, and may have got references on top. -/
def GrowAt (s s1 : State) (q : Nat) : Prop :=
  (s1.push q).channel = (s.push q).channel ∧
  (s1.push q).krec.push = (s.push q).krec.push ∧
  (s1.push q).krec.nr_push = (s.push q).krec.nr_push ∧
  (s.push q).krec.nr_buffer ≤ (s1.push q).krec.nr_buffer ∧
  ∀ j, j < (s.push q).krec.nr_buffer →
    ((s1.push q).krec.buffer j).bo = ((s.push q).krec.buffer j).bo

/-- That of every record. -/
def RefsGrow (s s1 : State) : Prop := ∀ q, GrowAt s s1 q

/-- The state `st1 []` after nouveau_pushbuf_data(push, NULL, 0, 0) on pushbuf
0, which records the four words written as one descriptor. -/
def st1f : State :=
  match nouveau_pushbuf_data (st1 []) 0 none 0 0 with
  | .ok s => s
  | .error _ => st1 []

/-- No immediate pushbuf has more push descriptors in `s1` than in `s`. -/
def NoGrow (s s1 : State) : Prop :=
  ∀ q, (s.push q).channel.isSome → (s1.push q).krec.nr_push ≤ (s.push q).krec.nr_push

/-- The number of words pushbuf_validate asks nouveau_pushbuf_space for:
`bctx->relocs * 2` of the attached context as uint32_t, 0 without a context. -/
def reloc_words (s : State) (p : Nat) : Nat :=
  match (s.push p).bufctx with
  | some b => (((s.bufctx b).relocs * 2) % 2 ^ 32).toNat
  | none => 0

/-- The state `st0s` after the client wrote 1021 words through the cursor of
pushbuf 0, which leaves one word before `push->end`, and attached context 5 with
one relocation. -/
def stEnd : State :=
  let s := (nouveau_pushbuf_bufctx (client_write st0s 0 1021) 0 (some 5)).1
  { s with bufctx := Function.update s.bufctx 5 ⟨[], [], 1⟩ }

/-- The pool of pushbuf `p` is in use and every buffer of it has more usable
words, size/4 - 2 - rsvd_kick, than pushbuf_validate asks for. -/
def PoolFit (s : State) (p : Nat) : Prop :=
  (s.push p).bo_next < (s.push p).bo_nr ∧
  ∀ i, i < (s.push p).bo_nr →
    reloc_words s p + (2 + (s.push p).rsvd_kick) % 2 ^ 32 < (s.bo ((s.push p).bos i)).size / 4

/-- The body of nouveau_pushbuf_space up to its last statement, the call of
pushbuf_validate: the state, the status and whether the flush condition held. -/
def space_body (c : Consts) (s : State) (p dwords pushes : Nat) :
    Except Err (State × Int × Bool) :=
  let sel := space_select s p dwords
  if sel.2.1 ≠ 0 then .ok (sel.1, sel.2.1, false)
  else
    match space_cond c sel.1 p sel.2.2 ((pushes + 1) % 2 ^ 32) with
    | .error e => .error e
    | .ok (s2, flushed) =>
      match space_flush c s2 p flushed with
      | .error e => .error e
      | .ok s3 =>
        match space_switch s3 p sel.2.2 with
        | .error e => .error e
        | .ok (s8, ret) =>
          if ret ≠ 0 then .ok (s8, ret, false)
          else
            match (s8.push p).bo with
            | none => .error .fault
            | some cur_bo =>
              match pushbuf_kref c s8 p cur_bo (s8.push p).flags with
              | .error e => .error e
              | .ok (s9, _) => .ok (s9, 0, flushed)

/-! ## Runs inside the descriptor array -/

/-- Every open span lies in a buffer that is referenced in the record of its
own pushbuf: where `bgn` is not at the cursor, the ownership table holds a
reference of the record of that pushbuf for the current buffer.  This is what
the lookup `kref = cli_kref_get(push->client, bo)` and the index
`kref - krec->buffer` of nouveau_pushbuf_data need when the span is recorded. -/
def OwnCur (s : State) : Prop :=
  ∀ q b, (s.push q).bgn ≠ (s.push q).cur → (s.push q).bo = some b →
    ∃ i, cli_kref_get s b = some ⟨q, i⟩

/-- What a submission may change: descriptors, count and `bgn` of the record of
pushbuf `p`, its channel, and the fence and access of buffer objects. -/
def SubmitFrame (s s1 : State) (p : Nat) : Prop :=
  ∃ (pu : Nat → drm_nouveau_gem_pushbuf_push) (n : Nat) (bg : Int) (g : NvGpuChannel)
    (bo1 : Nat → nouveau_bo),
    s1 = { setPush s p { s.push p with
              krec := { (s.push p).krec with push := pu, nr_push := n },
              bgn := bg, gpu_channel := g } with bo := bo1 } ∧
    ∀ b, ∃ f a, bo1 b = { s.bo b with fence := f, access := a }

/-! ## Frame lemmas -/

theorem foldl_keeps {α β γ : Type} (f : α → β → α) (π : α → γ)
    (h : ∀ a b, π (f a b) = π a) : ∀ (l : List β) (a : α), π (l.foldl f a) = π a := by
  intro l
  induction l with
  | nil => intro a; rfl
  | cons x xs ih => intro a; rw [List.foldl_cons, ih, h]

theorem foldl_rel {α β : Type} (f : α → β → α) (R : α → α → Prop)
    (hr : ∀ a, R a a) (ht : ∀ a b d, R a b → R b d → R a d) (h : ∀ a b, R a (f a b)) :
    ∀ (l : List β) (a : α), R a (l.foldl f a) := by
  intro l
  induction l with
  | nil => intro a; exact hr a
  | cons x xs ih => intro a; rw [List.foldl_cons]; exact ht _ _ _ (h a x) (ih _)

theorem setPush_self (s : State) (p : Nat) : setPush s p (s.push p) = s := by
  simp [setPush]

theorem SubmitFrame.sf_refl (s : State) (p : Nat) : SubmitFrame s s p :=
  ⟨_, _, _, _, _, by rw [show ({ s.push p with krec := { (s.push p).krec with push := (s.push p).krec.push, nr_push := (s.push p).krec.nr_push }, bgn := (s.push p).bgn, gpu_channel := (s.push p).gpu_channel } : nouveau_pushbuf_priv) = s.push p from rfl, setPush_self], fun b => ⟨_, _, rfl⟩⟩

theorem SubmitFrame.sf_trans {s s1 s2 : State} {p : Nat} (h1 : SubmitFrame s s1 p)
    (h2 : SubmitFrame s1 s2 p) : SubmitFrame s s2 p := by
  obtain ⟨pu, n, bg, g, bo1, rfl, hb1⟩ := h1
  obtain ⟨pu2, n2, bg2, g2, bo2, rfl, hb2⟩ := h2
  refine ⟨pu2, n2, bg2, g2, bo2, ?_, ?_⟩
  · simp [setPush]
  · intro b
    obtain ⟨f, a, h⟩ := hb2 b
    obtain ⟨f1, a1, h1⟩ := hb1 b
    exact ⟨f, a, by rw [h]; simp [h1]⟩

theorem SubmitFrame.sf_of_push (s : State) (p : Nat) (pu : Nat → drm_nouveau_gem_pushbuf_push)
    (n : Nat) (bg : Int) (g : NvGpuChannel) :
    SubmitFrame s (setPush s p { s.push p with
      krec := { (s.push p).krec with push := pu, nr_push := n }, bgn := bg, gpu_channel := g }) p :=
  ⟨pu, n, bg, g, s.bo, rfl, fun _ => ⟨_, _, rfl⟩⟩

theorem SubmitFrame.sf_of_bo (s : State) (p : Nat) (bo1 : Nat → nouveau_bo)
    (h : ∀ b, ∃ f a, bo1 b = { s.bo b with fence := f, access := a }) :
    SubmitFrame s { s with bo := bo1 } p := by
  refine ⟨(s.push p).krec.push, (s.push p).krec.nr_push, (s.push p).bgn, (s.push p).gpu_channel,
    bo1, ?_, h⟩
  rw [show ({ s.push p with krec := { (s.push p).krec with push := (s.push p).krec.push, nr_push := (s.push p).krec.nr_push }, bgn := (s.push p).bgn, gpu_channel := (s.push p).gpu_channel } : nouveau_pushbuf_priv) = s.push p from rfl, setPush_self]

theorem SubmitFrame.sf_kref {s s1 : State} {p : Nat} (h : SubmitFrame s s1 p) : s1.kref = s.kref := by
  obtain ⟨_, _, _, _, _, rfl, _⟩ := h; rfl

theorem SubmitFrame.sf_kpush {s s1 : State} {p : Nat} (h : SubmitFrame s s1 p) :
    s1.kpush = s.kpush := by
  obtain ⟨_, _, _, _, _, rfl, _⟩ := h; rfl

theorem SubmitFrame.sf_bufctx {s s1 : State} {p : Nat} (h : SubmitFrame s s1 p) :
    s1.bufctx = s.bufctx := by
  obtain ⟨_, _, _, _, _, rfl, _⟩ := h; rfl

theorem SubmitFrame.sf_push_ne {s s1 : State} {p : Nat} (h : SubmitFrame s s1 p) (q : Nat)
    (hq : q ≠ p) : s1.push q = s.push q := by
  obtain ⟨_, _, _, _, _, rfl, _⟩ := h
  simp [setPush, Function.update_apply, hq]

theorem SubmitFrame.sf_push_eq {s s1 : State} {p : Nat} (h : SubmitFrame s s1 p) :
    ∃ pu n bg g, s1.push p = { s.push p with
      krec := { (s.push p).krec with push := pu, nr_push := n }, bgn := bg, gpu_channel := g } := by
  obtain ⟨pu, n, bg, g, _, rfl, _⟩ := h
  exact ⟨pu, n, bg, g, by simp [setPush]⟩

theorem SubmitFrame.sf_buffer {s s1 : State} {p : Nat} (h : SubmitFrame s s1 p) (q : Nat) :
    (s1.push q).krec.buffer = (s.push q).krec.buffer ∧
    (s1.push q).krec.nr_buffer = (s.push q).krec.nr_buffer ∧
    (s1.push q).channel = (s.push q).channel := by
  by_cases hq : q = p
  · subst hq
    obtain ⟨pu, n, bg, g, h1⟩ := h.sf_push_eq
    rw [h1]; exact ⟨rfl, rfl, rfl⟩
  · rw [h.sf_push_ne q hq]; exact ⟨rfl, rfl, rfl⟩

theorem SubmitFrame.sf_bo {s s1 : State} {p : Nat} (h : SubmitFrame s s1 p) (b : Nat) :
    ∃ f a, s1.bo b = { s.bo b with fence := f, access := a } := by
  obtain ⟨_, _, _, _, _, rfl, hb⟩ := h
  exact hb b

theorem push_data_append_frame {s s1 : State} {p : Nat} {bo : Option Nat} {off len : Nat}
    (h : push_data_append s p bo off len = .ok s1) : SubmitFrame s s1 p := by
  unfold push_data_append at h
  cases bo with
  | none => simp at h; subst h; exact SubmitFrame.sf_refl s p
  | some b =>
    simp only at h
    cases hk : cli_kref_get s b with
    | none => simp [hk] at h
    | some k =>
      simp only [hk] at h
      split at h
      · simp at h
      · simp only [Except.ok.injEq] at h
        subst h
        exact SubmitFrame.sf_of_push s p _ _ _ _

theorem nouveau_pushbuf_data_frame {s s1 : State} {p : Nat} {bo : Option Nat} {off len : Nat}
    (h : nouveau_pushbuf_data s p bo off len = .ok s1) : SubmitFrame s s1 p := by
  unfold nouveau_pushbuf_data at h
  simp only at h
  split at h
  · split at h
    · simp at h
    · rename_i s2 h2
      have f1 := push_data_append_frame h2
      have f2 : SubmitFrame s2 (setPush s2 p { s2.push p with bgn := (s2.push p).cur }) p :=
        SubmitFrame.sf_of_push s2 p _ _ _ _
      exact (f1.sf_trans f2).sf_trans (push_data_append_frame h)
  · exact push_data_append_frame h

theorem stamp_fence_frame (c : Consts) (s : State) (krec : nouveau_pushbuf_krec) (fence : NvFence)
    (p : Nat) : SubmitFrame s (stamp_fence c s krec fence) p := by
  unfold stamp_fence
  apply foldl_rel _ (fun a b => SubmitFrame a b p) (fun a => SubmitFrame.sf_refl a p)
    (fun a b d h1 h2 => h1.sf_trans h2)
  intro a i
  unfold stamp_fence_step
  apply SubmitFrame.sf_of_bo
  intro b
  by_cases hb : b = (krec.buffer i).bo
  · subst hb
    exact ⟨_, _, by rw [Function.update_same]⟩
  · exact ⟨(a.bo b).fence, (a.bo b).access, by rw [Function.update_noteq hb]⟩

theorem submit_chain_frame (c : Consts) (p : Nat) :
    ∀ (l : List nouveau_pushbuf_krec) (s : State), SubmitFrame s (submit_chain c p s l).1 p := by
  intro l
  induction l with
  | nil => intro s; exact SubmitFrame.sf_refl s p
  | cons krec rest ih =>
    intro s
    unfold submit_chain
    split
    · exact SubmitFrame.sf_refl s p
    · simp only
      split
      · exact SubmitFrame.sf_of_push s p _ _ _ _
      · refine SubmitFrame.sf_trans ?_ (ih _)
        refine SubmitFrame.sf_trans ?_ (SubmitFrame.sf_of_push _ p _ _ _ _)
        exact (SubmitFrame.sf_of_push s p _ _ _ _).sf_trans (stamp_fence_frame c _ krec _ p)

theorem pushbuf_submit_frame {c : Consts} {s s1 : State} {p : Nat} {chan : Option nouveau_object}
    {r : Int} (h : pushbuf_submit c s p chan = .ok (s1, r)) : SubmitFrame s s1 p := by
  unfold pushbuf_submit at h
  cases chan with
  | none => simp at h
  | some ch =>
    simp only at h
    split at h
    · simp only [Except.ok.injEq, Prod.mk.injEq] at h
      rw [← h.1]; exact SubmitFrame.sf_refl s p
    · split at h
      · simp at h
      · rename_i s2 h2
        simp only [Except.ok.injEq] at h
        have := submit_chain_frame c p ((s2.push p).krec :: (s2.push p).next) s2
        rw [h] at this
        exact (nouveau_pushbuf_data_frame h2).sf_trans this

theorem flush_release_step_push (p : Nat) (st : State) (i : Nat) :
    (flush_release_step p st i).push = st.push := by
  unfold flush_release_step
  simp only
  split <;> rfl

theorem flush_release_step_kref (p : Nat) (st : State) (i : Nat) (bo : Nat) :
    (flush_release_step p st i).kref bo
      = if ((st.push p).krec.buffer i).bo = bo then none else st.kref bo := by
  unfold flush_release_step
  simp only
  split <;> simp [cli_kref_set, bo_unref, Function.update_apply, eq_comm]

theorem flush_release_step_kpush (p : Nat) (st : State) (i : Nat) (bo : Nat) :
    (flush_release_step p st i).kpush bo
      = if ((st.push p).krec.buffer i).bo = bo then none else st.kpush bo := by
  unfold flush_release_step
  simp only
  split <;> simp [cli_kref_set, bo_unref, Function.update_apply, eq_comm]

/-- The release loop over any list of indices: the pushbufs stay as they are
and exactly the buffers of the visited references lose their table entry. -/
theorem release_fold (p : Nat) (l : List Nat) : ∀ (s : State),
    (l.foldl (flush_release_step p) s).push = s.push ∧
    ∀ bo, ((l.foldl (flush_release_step p) s).kref bo
        = if ∃ i ∈ l, ((s.push p).krec.buffer i).bo = bo then none else s.kref bo) ∧
      ((l.foldl (flush_release_step p) s).kpush bo
        = if ∃ i ∈ l, ((s.push p).krec.buffer i).bo = bo then none else s.kpush bo) := by
  induction l with
  | nil => intro s; simp
  | cons x xs ih =>
    intro s
    rw [List.foldl_cons]
    obtain ⟨h1, h2⟩ := ih (flush_release_step p s x)
    refine ⟨by rw [h1, flush_release_step_push], fun bo => ?_⟩
    obtain ⟨h3, h4⟩ := h2 bo
    rw [h3, h4, flush_release_step_push, flush_release_step_kref, flush_release_step_kpush]
    by_cases hx : ((s.push p).krec.buffer x).bo = bo
    · simp [hx]
    · simp [hx]

theorem flush_release_push (s : State) (p : Nat) : (flush_release s p).push = s.push :=
  (release_fold p _ s).1

theorem flush_release_kref (s : State) (p : Nat) (bo : Nat) :
    (flush_release s p).kref bo
      = if ∃ i, i < (s.push p).krec.nr_buffer ∧ ((s.push p).krec.buffer i).bo = bo then none
        else s.kref bo := by
  have := ((release_fold p (List.range (s.push p).krec.nr_buffer) s).2 bo).1
  simpa [flush_release] using this

theorem flush_release_kpush (s : State) (p : Nat) (bo : Nat) :
    (flush_release s p).kpush bo
      = if ∃ i, i < (s.push p).krec.nr_buffer ∧ ((s.push p).krec.buffer i).bo = bo then none
        else s.kpush bo := by
  have := ((release_fold p (List.range (s.push p).krec.nr_buffer) s).2 bo).2
  simpa [flush_release] using this

theorem flush_bufctx_kref (s : State) (p : Nat) :
    (flush_bufctx s p).kref = s.kref ∧ (flush_bufctx s p).kpush = s.kpush ∧
    (flush_bufctx s p).bo = s.bo ∧
    (∀ q, q ≠ p → (flush_bufctx s p).push q = s.push q) ∧
    (flush_bufctx s p).push p = { s.push p with bctx_list := [] } := by
  unfold flush_bufctx
  have hk := foldl_keeps flush_bufctx_step
    (fun st => (st.kref, st.kpush, st.bo, st.push)) (fun _ _ => rfl) (s.push p).bctx_list s
  simp only [Prod.mk.injEq] at hk
  obtain ⟨h1, h2, h3, h4⟩ := hk
  refine ⟨h1, h2, h3, fun q hq => ?_, ?_⟩
  · simp [setPush, Function.update_apply, hq, h4]
  · simp [setPush, h4]

/-- What pushbuf_flush does to the record and to the ownership table: it
returns the status of the submission, the record of `p` keeps its entries and
has both counts at zero, the other records stay as they are, and exactly the
buffers referenced by the record lose their table entry. -/
theorem pushbuf_flush_spec {c : Consts} {s s1 : State} {p : Nat} {ret : Int}
    (hsub : pushbuf_submit c s p (s.push p).channel = .ok (s1, ret)) :
    ∃ s2, pushbuf_flush c s p = .ok (s2, ret) ∧
      (s2.push p).krec.nr_buffer = 0 ∧ (s2.push p).krec.nr_push = 0 ∧
      (s2.push p).krec.buffer = (s.push p).krec.buffer ∧
      (∀ q, q ≠ p → s2.push q = s.push q) ∧
      (∀ bo, s2.kref bo =
        if ∃ i, i < (s.push p).krec.nr_buffer ∧ ((s.push p).krec.buffer i).bo = bo then none
        else s.kref bo) ∧
      (∀ bo, s2.kpush bo =
        if ∃ i, i < (s.push p).krec.nr_buffer ∧ ((s.push p).krec.buffer i).bo = bo then none
        else s.kpush bo) := by
  have hf := pushbuf_submit_frame hsub
  obtain ⟨hb, hn, _⟩ := hf.sf_buffer p
  refine ⟨_, by unfold pushbuf_flush; rw [hsub], ?_⟩
  obtain ⟨k1, k2, _, k4, k5⟩ := flush_bufctx_kref
    (setKrec (flush_release s1 p) p
      { ((flush_release s1 p).push p).krec with nr_buffer := 0, nr_push := 0 }) p
  refine ⟨by rw [k5]; simp [setKrec, setPush], by rw [k5]; simp [setKrec, setPush],
    by rw [k5]; simp [setKrec, setPush, flush_release_push, hb], fun q hq => ?_,
    fun bo => ?_, fun bo => ?_⟩
  · rw [k4 q hq]
    simp [setKrec, setPush, Function.update_apply, hq, flush_release_push, hf.sf_push_ne q hq]
  · rw [k1]
    simp only [setKrec, setPush]
    rw [flush_release_kref, hb, hn, hf.sf_kref]
  · rw [k2]
    simp only [setKrec, setPush]
    rw [flush_release_kpush, hb, hn, hf.sf_kpush]

theorem pushbuf_flush_inv {c : Consts} {s s2 : State} {p : Nat} {ret : Int}
    (h : pushbuf_flush c s p = .ok (s2, ret)) :
    (∃ s1, pushbuf_submit c s p (s.push p).channel = .ok (s1, ret)) ∧
      (s2.push p).krec.nr_buffer = 0 ∧ (s2.push p).krec.nr_push = 0 ∧
      (s2.push p).krec.buffer = (s.push p).krec.buffer ∧
      (∀ q, q ≠ p → s2.push q = s.push q) ∧
      (∀ bo, s2.kref bo =
        if ∃ i, i < (s.push p).krec.nr_buffer ∧ ((s.push p).krec.buffer i).bo = bo then none
        else s.kref bo) ∧
      (∀ bo, s2.kpush bo =
        if ∃ i, i < (s.push p).krec.nr_buffer ∧ ((s.push p).krec.buffer i).bo = bo then none
        else s.kpush bo) := by
  cases hsub : pushbuf_submit c s p (s.push p).channel with
  | error e => unfold pushbuf_flush at h; simp [hsub] at h
  | ok r =>
    obtain ⟨s1, ret1⟩ := r
    obtain ⟨s3, h3, rest⟩ := pushbuf_flush_spec hsub
    rw [h3] at h
    simp only [Except.ok.injEq, Prod.mk.injEq] at h
    obtain ⟨rfl, rfl⟩ := h
    exact ⟨⟨s1, rfl⟩, rest⟩

/-! ## The claims -/

/-- C5: whatever status `ret` the submission step of pushbuf_flush returns,
pushbuf_flush returns that status, the current record has nr_buffer = 0 and
nr_push = 0 afterwards, and cli_kref_get and cli_push_get are null for every
buffer that was referenced by the record. -/
theorem C5_flush_empties_record (c : Consts) (s s1 : State) (p : Nat) (ret : Int)
    (hsub : pushbuf_submit c s p (s.push p).channel = .ok (s1, ret)) :
    ∃ s2, pushbuf_flush c s p = .ok (s2, ret) ∧
      (s2.push p).krec.nr_buffer = 0 ∧ (s2.push p).krec.nr_push = 0 ∧
      ∀ i, i < (s.push p).krec.nr_buffer →
        cli_kref_get s2 ((s.push p).krec.buffer i).bo = none ∧
        cli_push_get s2 ((s.push p).krec.buffer i).bo = none := by
  obtain ⟨s2, h, hb, hp, _, _, hk, hq⟩ := pushbuf_flush_spec hsub
  refine ⟨s2, h, hb, hp, fun i hi => ?_⟩
  unfold cli_kref_get cli_push_get
  rw [hk, hq]
  exact ⟨if_pos ⟨i, hi, rfl⟩, if_pos ⟨i, hi, rfl⟩⟩

/-- C5 at the state `st2 [5]`: the hardware rejects the batch with status 5, and
the flush returns -5 and empties the record of objects 10 and 7. -/
theorem C5_flush_empties_record_witness :
    pushbuf_submit hdr (st2 [5]) 0 ((st2 [5]).push 0).channel
      = .ok (stateOf (st2 [5]) (pushbuf_submit hdr (st2 [5]) 0 ((st2 [5]).push 0).channel), -5) ∧
    ∃ s2, pushbuf_flush hdr (st2 [5]) 0 = .ok (s2, -5) ∧
      (s2.push 0).krec.nr_buffer = 0 ∧ (s2.push 0).krec.nr_push = 0 ∧
      ∀ i, i < ((st2 [5]).push 0).krec.nr_buffer →
        cli_kref_get s2 (((st2 [5]).push 0).krec.buffer i).bo = none ∧
        cli_push_get s2 (((st2 [5]).push 0).krec.buffer i).bo = none :=
  ⟨rfl, C5_flush_empties_record hdr (st2 [5]) _ 0 (-5) rfl⟩

/-- In a state where buffer X has a live reference owned by pushbuf A (the
table maps X to entry i of the record of A) and the flush of A returns, a
reference insertion of X on a pushbuf B other than A whose record has a free
slot runs the flush of A first:
the insertion is the insertion made on the flushed state s1, in which X has no
owner and the record of B is still as before.  Afterwards X is mapped to B
only: cli_push_get(X) = B, cli_kref_get(X) is an entry of the record of B that
refers to X, and the record of A is empty, so it holds no reference to X. -/
theorem kref_steal_spec (c : Consts) (s s1 : State) (A B X flags i : Nat) (r : Int)
    (hown : cli_push_get s X = some A) (hk : cli_kref_get s X = some ⟨A, i⟩)
    (hi : i < (s.push A).krec.nr_buffer) (hX : ((s.push A).krec.buffer i).bo = X)
    (hAB : B ≠ A) (hfree : (s.push B).krec.nr_buffer < c.NOUVEAU_GEM_MAX_BUFFERS)
    (hflush : pushbuf_flush c s A = .ok (s1, r)) :
    ∃ s2 k, pushbuf_kref c s B X flags = .ok (s2, some k) ∧
      pushbuf_kref c s1 B X flags = .ok (s2, some k) ∧
      cli_kref_get s1 X = none ∧ cli_push_get s1 X = none ∧ s1.push B = s.push B ∧
      cli_push_get s2 X = some B ∧ cli_kref_get s2 X = some k ∧
      k.push = B ∧ k.idx < (s2.push B).krec.nr_buffer ∧ (derefKref s2 k).bo = X ∧
      (s2.push A).krec.nr_buffer = 0 ∧
      ∀ j, j < (s2.push A).krec.nr_buffer → ((s2.push A).krec.buffer j).bo ≠ X := by
  have _ := hk
  obtain ⟨_, hn, _, _, hne, hkr, hkp⟩ := pushbuf_flush_inv hflush
  have h1 : s1.kref X = none := by rw [hkr, if_pos ⟨i, hi, hX⟩]
  have h2 : s1.kpush X = none := by rw [hkp, if_pos ⟨i, hi, hX⟩]
  have h3 : s1.push B = s.push B := hne B hAB
  have hAB2 : A ≠ B := fun h => hAB h.symm
  have hfull : ¬ (s.push B).krec.nr_buffer = c.NOUVEAU_GEM_MAX_BUFFERS := Nat.ne_of_lt hfree
  have e1 : pushbuf_kref c s1 B X flags = .ok
      (bo_incref (cli_kref_set (setKrec s1 B { (s1.push B).krec with
          buffer := Function.update (s1.push B).krec.buffer (s1.push B).krec.nr_buffer
            { bo := X, handle := (s1.bo X).handle,
              write_domains := c.NOUVEAU_GEM_DOMAIN_GART *
                (if flags &&& c.NOUVEAU_BO_WR ≠ 0 then 1 else 0),
              read_domains := c.NOUVEAU_GEM_DOMAIN_GART *
                (if flags &&& c.NOUVEAU_BO_RD ≠ 0 then 1 else 0) },
          nr_buffer := (s1.push B).krec.nr_buffer + 1 }) X
        (some ⟨B, (s1.push B).krec.nr_buffer⟩) (some B)) X,
       some ⟨B, (s1.push B).krec.nr_buffer⟩) := by
    unfold pushbuf_kref
    simp [kref_flush_other, kref_insert, cli_push_get, cli_kref_get, h1, h2, h3, hfull,
      pushbuf_kref_fits]
  have e0 : pushbuf_kref c s B X flags = pushbuf_kref c s1 B X flags := by
    rw [e1]
    unfold pushbuf_kref
    unfold cli_push_get at hown
    simp [kref_flush_other, kref_insert, cli_push_get, cli_kref_get, hown, hAB2, hflush, h1, h3,
      hfull, pushbuf_kref_fits]
  refine ⟨_, _, e0.trans e1, e1, h1, h2, h3, ?_, ?_, rfl, ?_, ?_, ?_, ?_⟩
  · simp [cli_push_get, bo_incref, cli_kref_set]
  · simp [cli_kref_get, bo_incref, cli_kref_set]
  · simp [bo_incref, cli_kref_set, setKrec, setPush]
  · simp [derefKref, bo_incref, cli_kref_set, setKrec, setPush]
  · simp [bo_incref, cli_kref_set, setKrec, setPush, Function.update_apply, hAB2, hn]
  · intro j hj
    simp [bo_incref, cli_kref_set, setKrec, setPush, Function.update_apply, hAB2, hn] at hj

/-- The same at the state `st2 []`: object 7 is entry 1 of the record of the
immediate pushbuf 0, and pushbuf 2 asks for a read reference of it. -/
theorem kref_steal_spec_st2 :
    (cli_push_get (st2 []) 7 = some 0 ∧ cli_kref_get (st2 []) 7 = some ⟨0, 1⟩ ∧
      1 < ((st2 []).push 0).krec.nr_buffer ∧ (((st2 []).push 0).krec.buffer 1).bo = 7 ∧
      (2 : Nat) ≠ 0 ∧ ((st2 []).push 2).krec.nr_buffer < hdr.NOUVEAU_GEM_MAX_BUFFERS ∧
      pushbuf_flush hdr (st2 []) 0
        = .ok (stateOf (st2 []) (pushbuf_flush hdr (st2 []) 0), 0)) ∧
    ∃ s2 k, pushbuf_kref hdr (st2 []) 2 7 hdr.NOUVEAU_BO_RD = .ok (s2, some k) ∧
      pushbuf_kref hdr (stateOf (st2 []) (pushbuf_flush hdr (st2 []) 0)) 2 7 hdr.NOUVEAU_BO_RD
        = .ok (s2, some k) ∧
      cli_kref_get (stateOf (st2 []) (pushbuf_flush hdr (st2 []) 0)) 7 = none ∧
      cli_push_get (stateOf (st2 []) (pushbuf_flush hdr (st2 []) 0)) 7 = none ∧
      (stateOf (st2 []) (pushbuf_flush hdr (st2 []) 0)).push 2 = (st2 []).push 2 ∧
      cli_push_get s2 7 = some 2 ∧ cli_kref_get s2 7 = some k ∧
      k.push = 2 ∧ k.idx < (s2.push 2).krec.nr_buffer ∧ (derefKref s2 k).bo = 7 ∧
      (s2.push 0).krec.nr_buffer = 0 ∧
      ∀ j, j < (s2.push 0).krec.nr_buffer → ((s2.push 0).krec.buffer j).bo ≠ 7 :=
  ⟨⟨by decide, by decide, by decide, by decide, by decide, by decide, rfl⟩,
    kref_steal_spec hdr (st2 []) _ 0 2 7 hdr.NOUVEAU_BO_RD 1 0
      (by decide) (by decide) (by decide) (by decide) (by decide) (by decide) rfl⟩

theorem submit_entries_eq (c : Consts) (s : State) (krec : nouveau_pushbuf_krec)
    (g : NvGpuChannel) :
    submit_entries c s krec g
      = { g with entries := g.entries ++ (List.range krec.nr_push).map (batch_entry c s krec) } := by
  unfold submit_entries
  generalize List.range krec.nr_push = l
  induction l generalizing g with
  | nil => simp
  | cons x xs ih =>
    rw [List.foldl_cons, ih]
    simp [nvGpuChannelAppendEntry, batch_entry]

theorem stamp_fence_push (c : Consts) (s : State) (krec : nouveau_pushbuf_krec) (f : NvFence) :
    (stamp_fence c s krec f).push = s.push := by
  unfold stamp_fence
  exact foldl_keeps (stamp_fence_step c krec f) (fun st => st.push) (fun _ _ => rfl) _ _

theorem stamp_fence_offset (c : Consts) (s : State) (krec : nouveau_pushbuf_krec) (f : NvFence)
    (b : Nat) : ((stamp_fence c s krec f).bo b).offset = (s.bo b).offset := by
  obtain ⟨_, _, h⟩ := (stamp_fence_frame c s krec f 0).sf_bo b
  rw [h]

/-- The loop of pushbuf_submit on a chain of one record: nothing for an empty
record, batch and fence block when the kickoff is rejected, and the cache-flush
and barrier blocks behind them when it is accepted. -/
theorem submit_chain_single (c : Consts) (p : Nat) (s : State) (krec : nouveau_pushbuf_krec) :
    (krec.nr_push = 0 → submit_chain c p s [krec] = (s, 0)) ∧
    (krec.nr_push ≠ 0 → (s.push p).gpu_channel.kickoff.headD 0 ≠ 0 →
      (submit_chain c p s [krec]).2 = neg_status ((s.push p).gpu_channel.kickoff.headD 0) ∧
      ((submit_chain c p s [krec]).1.push p).gpu_channel.appended
        = (s.push p).gpu_channel.appended
          ++ (List.range krec.nr_push).map (batch_entry c s krec) ++ [fence_entry c s p]) ∧
    (krec.nr_push ≠ 0 → (s.push p).gpu_channel.kickoff.headD 0 = 0 →
      (submit_chain c p s [krec]).2 = 0 ∧
      ((submit_chain c p s [krec]).1.push p).gpu_channel.appended
        = (s.push p).gpu_channel.appended
          ++ (List.range krec.nr_push).map (batch_entry c s krec)
          ++ [fence_entry c s p, flush_entry c s p, barrier_entry c s p]) := by
  refine ⟨fun h => ?_, fun h hk => ?_, fun h hk => ?_⟩
  · simp [submit_chain, h]
  · have hk2 : ¬ (s.push p).gpu_channel.kickoff.head?.getD 0 = 0 := by simpa using hk
    simp [submit_chain, h, hk2, nvGpuChannelKickoff, submit_entries_eq, nvGpuChannelIncrFence,
      nvGpuChannelAppendEntry, setPush, NvGpuChannel.appended, fence_entry]
  · have hk2 : (s.push p).gpu_channel.kickoff.head?.getD 0 = 0 := by simpa using hk
    simp [submit_chain, h, hk2, nvGpuChannelKickoff, submit_entries_eq, nvGpuChannelIncrFence,
      nvGpuChannelAppendEntry, setPush, NvGpuChannel.appended, fence_entry, flush_entry,
      barrier_entry, stamp_fence_push, stamp_fence_offset, nvGpuChannelGetFence]

/-- What nouveau_pushbuf_data may change: the descriptors, their count and
`bgn` of pushbuf `p`. -/
theorem nouveau_pushbuf_data_form {s s1 : State} {p : Nat} {bo : Option Nat} {off len : Nat}
    (h : nouveau_pushbuf_data s p bo off len = .ok s1) :
    ∃ pu n bg, s1 = setPush s p { s.push p with
      krec := { (s.push p).krec with push := pu, nr_push := n }, bgn := bg } := by
  have key : ∀ (t t1 : State) (b : Option Nat) (o l : Nat), push_data_append t p b o l = .ok t1 →
      ∃ pu n, t1 = setPush t p { t.push p with
        krec := { (t.push p).krec with push := pu, nr_push := n } } := by
    intro t t1 b o l ht
    unfold push_data_append at ht
    cases b with
    | none =>
      simp at ht; subst ht
      exact ⟨(t.push p).krec.push, (t.push p).krec.nr_push, (setPush_self t p).symm⟩
    | some b =>
      simp only at ht
      cases hk : cli_kref_get t b with
      | none => simp [hk] at ht
      | some k =>
        simp only [hk] at ht
        split at ht
        · simp at ht
        · simp only [Except.ok.injEq] at ht
          exact ⟨_, _, ht.symm⟩
  unfold nouveau_pushbuf_data at h
  simp only at h
  split at h
  · split at h
    · simp at h
    · rename_i s2 h2
      obtain ⟨pu, n, rfl⟩ := key _ _ _ _ _ h2
      obtain ⟨pu2, n2, rfl⟩ := key _ _ _ _ _ h
      exact ⟨pu2, n2, (s.push p).cur, by simp [setPush]⟩
  · obtain ⟨pu, n, rfl⟩ := key _ _ _ _ _ h
    exact ⟨pu, n, (s.push p).bgn, rfl⟩

/-- C6 (amended): on a correctly classed channel pushbuf_submit first finalises
the span in progress (state `sd`).  For a chain of one record that then has N
push entries: with N = 0 the call returns 0 and appends nothing; with N > 0 and
an accepted kickoff the call returns 0 and appends exactly N + 3 entries: the N
batch entries, the fence-increment block, one cache-flush block and one
single-entry barrier block carrying the no-prefetch flag. -/
theorem C6_submit_queue_entries (c : Consts) (s sd : State) (p : Nat) (ch : nouveau_object)
    (hcls : ch.oclass = c.NOUVEAU_FIFO_CHANNEL_CLASS)
    (hdata : nouveau_pushbuf_data s p none 0 0 = .ok sd)
    (hnext : (s.push p).next = []) :
    (sd.push p).gpu_channel = (s.push p).gpu_channel ∧
    ((sd.push p).krec.nr_push = 0 →
      ∃ s1, pushbuf_submit c s p (some ch) = .ok (s1, 0) ∧
        (s1.push p).gpu_channel.appended = (s.push p).gpu_channel.appended) ∧
    ((sd.push p).krec.nr_push ≠ 0 → (s.push p).gpu_channel.kickoff.headD 0 = 0 →
      ∃ s1, pushbuf_submit c s p (some ch) = .ok (s1, 0) ∧
        (s1.push p).gpu_channel.appended
          = (s.push p).gpu_channel.appended
            ++ (List.range (sd.push p).krec.nr_push).map (batch_entry c sd (sd.push p).krec)
            ++ [fence_entry c sd p, flush_entry c sd p, barrier_entry c sd p] ∧
        (s1.push p).gpu_channel.appended.length
          = (s.push p).gpu_channel.appended.length + (sd.push p).krec.nr_push + 3 ∧
        (barrier_entry c sd p).num_cmds = 1 ∧
        (barrier_entry c sd p).flags = c.GPFIFO_ENTRY_NOT_MAIN ||| c.GPFIFO_ENTRY_NO_PREFETCH) := by
  obtain ⟨pu, n, bg, hsd⟩ := nouveau_pushbuf_data_form hdata
  have hg : (sd.push p).gpu_channel = (s.push p).gpu_channel := by rw [hsd]; simp [setPush]
  have hn : (sd.push p).next = [] := by rw [hsd]; simp [setPush, hnext]
  have hs : pushbuf_submit c s p (some ch) = .ok (submit_chain c p sd [(sd.push p).krec]) := by
    unfold pushbuf_submit
    simp [hcls, hdata, hn]
  obtain ⟨h0, _, h2⟩ := submit_chain_single c p sd (sd.push p).krec
  cases hres : submit_chain c p sd [(sd.push p).krec] with
  | mk s1 r =>
    rw [hres] at hs h0 h2
    refine ⟨hg, fun h => ?_, fun h hk => ?_⟩
    · have := h0 h
      simp only [Prod.mk.injEq] at this
      obtain ⟨rfl, rfl⟩ := this
      exact ⟨_, hs, by rw [hg]⟩
    · rw [← hg] at hk ⊢
      obtain ⟨a, b⟩ := h2 h hk
      simp only at a b
      subst a
      refine ⟨s1, hs, b, ?_, rfl, rfl⟩
      rw [b]; simp; omega

/-- C6 at the state `st2 []`: the record of pushbuf 0 has one push entry after
finalisation and the submission appends 1 + 3 entries. -/
theorem C6_submit_queue_entries_witness :
    ((⟨hdr.NOUVEAU_FIFO_CHANNEL_CLASS⟩ : nouveau_object).oclass = hdr.NOUVEAU_FIFO_CHANNEL_CLASS ∧
      nouveau_pushbuf_data (st2 []) 0 none 0 0
        = .ok (match nouveau_pushbuf_data (st2 []) 0 none 0 0 with
               | .ok sd => sd
               | .error _ => st2 []) ∧
      ((st2 []).push 0).next = []) ∧
    ∃ s1, pushbuf_submit hdr (st2 []) 0 (some ⟨hdr.NOUVEAU_FIFO_CHANNEL_CLASS⟩) = .ok (s1, 0) ∧
      (s1.push 0).gpu_channel.appended.length = 1 + 3 := by
  refine ⟨⟨rfl, rfl, rfl⟩, ?_⟩
  obtain ⟨_, _, h3⟩ := C6_submit_queue_entries hdr (st2 []) _ 0
    ⟨hdr.NOUVEAU_FIFO_CHANNEL_CLASS⟩ rfl (rfl : nouveau_pushbuf_data (st2 []) 0 none 0 0 = .ok _) rfl
  obtain ⟨s1, h, _, hl, _⟩ := h3 (by decide) (by decide)
  exact ⟨s1, h, hl⟩

/-- C6 as stated fails for an empty record: a submit of the fresh immediate
pushbuf 0 on a correctly classed channel returns 0 and appends no queue entry
at all, not 0 + 3. -/
theorem C6_counterexample_empty_record :
    ((st0 []).push 0).krec.nr_push = 0 ∧
    ∃ s1, pushbuf_submit hdr (st0 []) 0 (some ⟨hdr.NOUVEAU_FIFO_CHANNEL_CLASS⟩) = .ok (s1, 0) ∧
      (s1.push 0).krec.nr_push = 0 ∧
      (s1.push 0).gpu_channel.appended.length = ((st0 []).push 0).gpu_channel.appended.length ∧
      (s1.push 0).gpu_channel.appended.length
        ≠ ((st0 []).push 0).gpu_channel.appended.length + (0 + 3) :=
  ⟨rfl, _, rfl, by decide, by decide, by decide⟩

theorem stamp_fence_step_bo (c : Consts) (krec : nouveau_pushbuf_krec) (f : NvFence) (st : State)
    (i : Nat) (b : Nat) :
    (stamp_fence_step c krec f st i).bo b
      = if b = (krec.buffer i).bo then
          { st.bo b with fence := f, access := stamped_access c (krec.buffer i) (st.bo b).access }
        else st.bo b := by
  unfold stamp_fence_step stamped_access
  by_cases hb : b = (krec.buffer i).bo
  · subst hb
    simp only [Function.update_same, if_true]
    by_cases hw : (krec.buffer i).write_domains = 0 <;>
      by_cases hr : (krec.buffer i).read_domains = 0 <;> simp [hw, hr]
  · simp [Function.update_noteq hb, hb]

theorem stamp_fold_other (c : Consts) (krec : nouveau_pushbuf_krec) (f : NvFence) (b : Nat)
    (l : List Nat) : ∀ (s : State), (∀ j ∈ l, (krec.buffer j).bo ≠ b) →
      (l.foldl (stamp_fence_step c krec f) s).bo b = s.bo b := by
  induction l with
  | nil => intro s _; rfl
  | cons x xs ih =>
    intro s h
    rw [List.foldl_cons, ih _ (fun j hj => h j (List.mem_cons_of_mem _ hj)), stamp_fence_step_bo,
      if_neg (fun e => h x (List.mem_cons_self _ _) e.symm)]

theorem stamp_fold_mem (c : Consts) (krec : nouveau_pushbuf_krec) (f : NvFence) (l : List Nat) :
    ∀ (s : State), l.Nodup →
      (∀ i ∈ l, ∀ j ∈ l, (krec.buffer i).bo = (krec.buffer j).bo → i = j) →
      ∀ i ∈ l, (l.foldl (stamp_fence_step c krec f) s).bo (krec.buffer i).bo
        = { s.bo (krec.buffer i).bo with
            fence := f, access := stamped_access c (krec.buffer i) (s.bo (krec.buffer i).bo).access } := by
  induction l with
  | nil => intro s _ _ i hi; simp at hi
  | cons x xs ih =>
    intro s hnd hinj i hi
    rw [List.foldl_cons]
    rw [List.nodup_cons] at hnd
    rcases List.mem_cons.mp hi with rfl | hi2
    · rw [stamp_fold_other, stamp_fence_step_bo, if_pos rfl]
      intro j hj e
      have := hinj j (List.mem_cons_of_mem _ hj) i (List.mem_cons_self _ _) e
      subst this
      exact hnd.1 hj
    · have hne : (krec.buffer i).bo ≠ (krec.buffer x).bo := by
        intro e
        have := hinj i hi x (List.mem_cons_self _ _) e
        subst this
        exact hnd.1 hi2
      rw [ih _ hnd.2 (fun a ha b hb => hinj a (List.mem_cons_of_mem _ ha) b
        (List.mem_cons_of_mem _ hb)) i hi2, stamp_fence_step_bo, if_neg hne]

theorem stamp_fence_bo (c : Consts) (s : State) (krec : nouveau_pushbuf_krec) (f : NvFence)
    (hinj : ∀ i j, i < krec.nr_buffer → j < krec.nr_buffer →
      (krec.buffer i).bo = (krec.buffer j).bo → i = j)
    (i : Nat) (hi : i < krec.nr_buffer) :
    (stamp_fence c s krec f).bo (krec.buffer i).bo
      = { s.bo (krec.buffer i).bo with
          fence := f, access := stamped_access c (krec.buffer i) (s.bo (krec.buffer i).bo).access } := by
  unfold stamp_fence
  exact stamp_fold_mem c krec f _ s (List.nodup_range _)
    (fun a ha b hb => hinj a b (List.mem_range.mp ha) (List.mem_range.mp hb)) i
    (List.mem_range.mpr hi)

/-- An accepted submission of a chain of one non-empty record: the buffer
objects are those of the stamping loop run with the fence `f` of the channel
after the kickoff, and the channel still shows that fence at the end. -/
theorem submit_chain_accept (c : Consts) (p : Nat) (s : State) (krec : nouveau_pushbuf_krec)
    (hne : krec.nr_push ≠ 0) (hacc : (s.push p).gpu_channel.kickoff.headD 0 = 0) :
    ∃ (f : NvFence) (g4 : NvGpuChannel),
      f = { (s.push p).gpu_channel.fence with
        value := (s.push p).gpu_channel.fence.value + ((s.push p).gpu_channel.fence_incr + 1) } ∧
      (submit_chain c p s [krec]).2 = 0 ∧
      (submit_chain c p s [krec]).1.bo
        = (stamp_fence c (setPush s p { s.push p with gpu_channel := g4 }) krec f).bo ∧
      nvGpuChannelGetFence ((submit_chain c p s [krec]).1.push p).gpu_channel = f := by
  have hk2 : (s.push p).gpu_channel.kickoff.head?.getD 0 = 0 := by simpa using hacc
  refine ⟨_, (nvGpuChannelKickoff (nvGpuChannelAppendEntry (nvGpuChannelIncrFence
    (submit_entries c s krec (s.push p).gpu_channel)) (s.bo (s.push p).bo_builtin_cmdbuf).offset
    (s.push p).fence_num_cmds (c.GPFIFO_ENTRY_NOT_MAIN ||| c.GPFIFO_ENTRY_NO_PREFETCH))).2, rfl, ?_, ?_, ?_⟩
  · simp [submit_chain, hne, hk2, nvGpuChannelKickoff, submit_entries_eq, nvGpuChannelIncrFence,
      nvGpuChannelAppendEntry]
  · simp [submit_chain, hne, hk2, nvGpuChannelKickoff, submit_entries_eq, nvGpuChannelIncrFence,
      nvGpuChannelAppendEntry, nvGpuChannelGetFence, setPush]
  · simp [submit_chain, hne, hk2, nvGpuChannelKickoff, submit_entries_eq, nvGpuChannelIncrFence,
      nvGpuChannelAppendEntry, nvGpuChannelGetFence, setPush, stamp_fence_push]

/-- C7 (amended): after a successful pushbuf_submit of a non-empty record (one
record in the chain, N > 0 push entries after finalisation, kickoff accepted,
one reference per buffer), every buffer referenced by the record stores the
fence read back from the channel after the kickoff, the same for all of them
and later than the fence the channel had before; its access flags are the
flags it had before with NOUVEAU_BO_WR added when its reference has non-zero
write_domains and NOUVEAU_BO_RD added when it has non-zero read_domains.  Bits
set before the submit stay set. -/
theorem C7_fence_stamping (c : Consts) (s sd : State) (p : Nat) (ch : nouveau_object)
    (hcls : ch.oclass = c.NOUVEAU_FIFO_CHANNEL_CLASS)
    (hdata : nouveau_pushbuf_data s p none 0 0 = .ok sd)
    (hnext : (s.push p).next = [])
    (hne : (sd.push p).krec.nr_push ≠ 0)
    (hacc : (s.push p).gpu_channel.kickoff.headD 0 = 0)
    (hinj : ∀ i j, i < (s.push p).krec.nr_buffer → j < (s.push p).krec.nr_buffer →
      ((s.push p).krec.buffer i).bo = ((s.push p).krec.buffer j).bo → i = j) :
    ∃ s1, pushbuf_submit c s p (some ch) = .ok (s1, 0) ∧
      (s.push p).gpu_channel.fence.value
        < (nvGpuChannelGetFence (s1.push p).gpu_channel).value ∧
      ∀ i, i < (s.push p).krec.nr_buffer →
        (s1.bo ((s.push p).krec.buffer i).bo).fence = nvGpuChannelGetFence (s1.push p).gpu_channel ∧
        (s1.bo ((s.push p).krec.buffer i).bo).access
          = stamped_access c ((s.push p).krec.buffer i) (s.bo ((s.push p).krec.buffer i).bo).access := by
  obtain ⟨pu, n, bg, hsd⟩ := nouveau_pushbuf_data_form hdata
  have hg : (sd.push p).gpu_channel = (s.push p).gpu_channel := by rw [hsd]; simp [setPush]
  have hn : (sd.push p).next = [] := by rw [hsd]; simp [setPush, hnext]
  have hb : (sd.push p).krec.buffer = (s.push p).krec.buffer := by rw [hsd]; simp [setPush]
  have hnb : (sd.push p).krec.nr_buffer = (s.push p).krec.nr_buffer := by rw [hsd]; simp [setPush]
  have hbo : sd.bo = s.bo := by rw [hsd]; rfl
  have hs : pushbuf_submit c s p (some ch) = .ok (submit_chain c p sd [(sd.push p).krec]) := by
    unfold pushbuf_submit
    simp [hcls, hdata, hn]
  obtain ⟨f, g4, hf, h2, h3, h4⟩ := submit_chain_accept c p sd (sd.push p).krec hne (hg ▸ hacc)
  cases hres : submit_chain c p sd [(sd.push p).krec] with
  | mk s1 r =>
    rw [hres] at hs h2 h3 h4
    simp only at h2 h3 h4
    subst h2
    refine ⟨s1, hs, ?_, fun i hi => ?_⟩
    · rw [h4, hf, hg]; simp only; omega
    · have := stamp_fence_bo c (setPush sd p { sd.push p with gpu_channel := g4 }) (sd.push p).krec f
        (by rw [hb, hnb]; exact hinj) i (by rw [hnb]; exact hi)
      rw [← h3, hb] at this
      rw [this, h4]
      simp [setPush, hbo]

/-- C7 at the state `st2 []`: objects 10 and 7 of the record of pushbuf 0 get the
fence of the channel and the read flag. -/
theorem C7_fence_stamping_witness :
    (chan0.oclass = hdr.NOUVEAU_FIFO_CHANNEL_CLASS ∧
      nouveau_pushbuf_data (st2 []) 0 none 0 0
        = .ok (match nouveau_pushbuf_data (st2 []) 0 none 0 0 with
               | .ok sd => sd
               | .error _ => st2 []) ∧
      ((st2 []).push 0).next = [] ∧
      ((st2 []).push 0).gpu_channel.kickoff.headD 0 = 0) ∧
    ∃ s1, pushbuf_submit hdr (st2 []) 0 (some chan0) = .ok (s1, 0) ∧
      (s1.bo 7).fence = nvGpuChannelGetFence (s1.push 0).gpu_channel ∧
      (s1.bo 7).access = hdr.NOUVEAU_BO_RD := by
  refine ⟨⟨rfl, rfl, rfl, rfl⟩, ?_⟩
  obtain ⟨s1, h, _, h2⟩ := C7_fence_stamping hdr (st2 []) _ 0 chan0 rfl
    (rfl : nouveau_pushbuf_data (st2 []) 0 none 0 0 = .ok _) rfl (by decide) rfl
    (by
      intro i j hi hj
      have hi2 : i < 2 := hi
      have hj2 : j < 2 := hj
      interval_cases i <;> interval_cases j <;> decide)
  exact ⟨s1, h, (h2 1 (by decide)).1, (h2 1 (by decide)).2⟩

/-- C7 as stated fails: in `st3` object 7 carries NOUVEAU_BO_WR from the record
submitted before, and the current record of pushbuf 0 only reads it
(write_domains = 0).  After the successful submit of this record the access
flags of object 7 still hold NOUVEAU_BO_WR. -/
theorem C7_counterexample_stale_access :
    ((st3.push 0).krec.buffer 1).bo = 7 ∧ 1 < (st3.push 0).krec.nr_buffer ∧
    ((st3.push 0).krec.buffer 1).write_domains = 0 ∧
    ((st3.push 0).krec.buffer 1).read_domains ≠ 0 ∧
    ∃ s1, pushbuf_submit hdr st3 0 (some chan0) = .ok (s1, 0) ∧
      (s1.bo 7).access = hdr.NOUVEAU_BO_RD ||| hdr.NOUVEAU_BO_WR ∧
      ¬ ((s1.bo 7).access &&& hdr.NOUVEAU_BO_WR ≠ 0
          ↔ ((st3.push 0).krec.buffer 1).write_domains ≠ 0) :=
  ⟨by decide, by decide, by decide, by decide, _, rfl, by decide, by decide⟩

theorem submit_chain_krec (c : Consts) (p : Nat) :
    ∀ (l : List nouveau_pushbuf_krec) (s : State),
      ((submit_chain c p s l).1.push p).krec = (s.push p).krec := by
  intro l
  induction l with
  | nil => intro s; rfl
  | cons krec rest ih =>
    intro s
    unfold submit_chain
    split
    · rfl
    · simp only
      split
      · simp [setPush]
      · rw [ih]; simp [setPush, stamp_fence_push]

theorem nouveau_pushbuf_data_nr {s s1 : State} {p : Nat} {bo : Option Nat} {off len : Nat}
    (h : nouveau_pushbuf_data s p bo off len = .ok s1) :
    (s1.push p).krec.nr_buffer = (s.push p).krec.nr_buffer ∧
    (s.push p).krec.nr_push ≤ (s1.push p).krec.nr_push := by
  have key : ∀ (t t1 : State) (b : Option Nat) (o l : Nat), push_data_append t p b o l = .ok t1 →
      (t1.push p).krec.nr_buffer = (t.push p).krec.nr_buffer ∧
      (t.push p).krec.nr_push ≤ (t1.push p).krec.nr_push := by
    intro t t1 b o l ht
    unfold push_data_append at ht
    cases b with
    | none => simp at ht; subst ht; exact ⟨rfl, le_refl _⟩
    | some b =>
      simp only at ht
      cases hk : cli_kref_get t b with
      | none => simp [hk] at ht
      | some k =>
        simp only [hk] at ht
        split at ht
        · simp at ht
        · simp only [Except.ok.injEq] at ht
          subst ht
          simp [setKrec, setPush]
  unfold nouveau_pushbuf_data at h
  simp only at h
  split at h
  · split at h
    · simp at h
    · rename_i s2 h2
      obtain ⟨a1, a2⟩ := key _ _ _ _ _ h2
      obtain ⟨b1, b2⟩ := key _ _ _ _ _ h
      simp only [setPush, Function.update_same] at b1 b2
      exact ⟨b1.trans a1, le_trans a2 b2⟩
  · exact key _ _ _ _ _ h

theorem pushbuf_submit_nr {c : Consts} {s s1 : State} {p : Nat} {chan : Option nouveau_object}
    {r : Int} (h : pushbuf_submit c s p chan = .ok (s1, r)) :
    (s1.push p).krec.nr_buffer = (s.push p).krec.nr_buffer ∧
    (s.push p).krec.nr_push ≤ (s1.push p).krec.nr_push := by
  unfold pushbuf_submit at h
  cases chan with
  | none => simp at h
  | some ch =>
    simp only at h
    split at h
    · simp only [Except.ok.injEq, Prod.mk.injEq] at h
      rw [← h.1]; exact ⟨rfl, le_refl _⟩
    · split at h
      · simp at h
      · rename_i s2 h2
        simp only [Except.ok.injEq] at h
        have hk := submit_chain_krec c p ((s2.push p).krec :: (s2.push p).next) s2
        rw [h] at hk
        simp only at hk
        rw [hk]
        exact nouveau_pushbuf_data_nr h2

/-- C8 (amended): pushbuf_submit does not empty the record.  After a submit
that returns, also a successful one of a non-empty record, nr_buffer is what it
was and nr_push is not smaller than it was (finalising the span in progress may
add one descriptor).  On a deferred pushbuf nouveau_pushbuf_kick is that call of
pushbuf_submit and nothing else, so the same holds after nouveau_pushbuf_kick.
The counts are zero after a returning pushbuf_flush, which writes them behind
its own call of pushbuf_submit. -/
theorem C8_record_after_submit (c : Consts) (fuel : Nat) (s : State) (p : Nat)
    (chan : Option nouveau_object) :
    (∀ s1 r, pushbuf_submit c s p chan = .ok (s1, r) →
      (s1.push p).krec.nr_buffer = (s.push p).krec.nr_buffer ∧
      (s.push p).krec.nr_push ≤ (s1.push p).krec.nr_push) ∧
    ((s.push p).channel = none →
      nouveau_pushbuf_kick c fuel s p chan = pushbuf_submit c s p chan ∧
      ∀ s1 r, nouveau_pushbuf_kick c fuel s p chan = .ok (s1, r) →
        (s1.push p).krec.nr_buffer = (s.push p).krec.nr_buffer ∧
        (s.push p).krec.nr_push ≤ (s1.push p).krec.nr_push) ∧
    (∀ s2 r2, pushbuf_flush c s p = .ok (s2, r2) →
      (s2.push p).krec.nr_buffer = 0 ∧ (s2.push p).krec.nr_push = 0) := by
  refine ⟨fun s1 r h => pushbuf_submit_nr h, fun hch => ?_, fun s2 r2 h => ?_⟩
  · have e : nouveau_pushbuf_kick c fuel s p chan = pushbuf_submit c s p chan := by
      unfold nouveau_pushbuf_kick
      rw [hch]
    exact ⟨e, fun s1 r h => pushbuf_submit_nr (e ▸ h)⟩
  · obtain ⟨_, h1, h2, _⟩ := pushbuf_flush_inv h
    exact ⟨h1, h2⟩

/-- C8 at the deferred pushbuf 1 of `st1d []`, whose record holds one reference
and no descriptor: nouveau_pushbuf_kick returns 0 and leaves one reference and at
least as many descriptors; and at the immediate pushbuf 0 of `st2 []`: the flush
returns and leaves neither. -/
theorem C8_record_after_submit_witness :
    (((st1d []).push 1).channel = none ∧
      ∃ s1, nouveau_pushbuf_kick hdr 3 (st1d []) 1 (some chan0) = .ok (s1, 0) ∧
        (s1.push 1).krec.nr_buffer = ((st1d []).push 1).krec.nr_buffer ∧
        ((st1d []).push 1).krec.nr_push ≤ (s1.push 1).krec.nr_push) ∧
    ∃ s2, pushbuf_flush hdr (st2 []) 0 = .ok (s2, 0) ∧
      (s2.push 0).krec.nr_buffer = 0 ∧ (s2.push 0).krec.nr_push = 0 := by
  have hk : nouveau_pushbuf_kick hdr 3 (st1d []) 1 (some chan0)
      = .ok (stateOf (st1d []) (nouveau_pushbuf_kick hdr 3 (st1d []) 1 (some chan0)), 0) := rfl
  have hf : pushbuf_flush hdr (st2 []) 0
      = .ok (stateOf (st2 []) (pushbuf_flush hdr (st2 []) 0), 0) := rfl
  have hd : ((st1d []).push 1).channel = none := by decide
  exact ⟨⟨hd, _, hk,
      ((C8_record_after_submit hdr 3 (st1d []) 1 (some chan0)).2.1 hd).2 _ 0 hk⟩,
    _, hf, (C8_record_after_submit hdr 3 (st2 []) 0 (some chan0)).2.2 _ 0 hf⟩

/-- C8 as stated fails: the deferred pushbuf 1 of `st1d []` has a non-empty
record (object 20 and 4 written words); nouveau_pushbuf_kick submits it with
success, and afterwards nr_buffer = 1 and nr_push = 1, not zero. -/
theorem C8_counterexample_deferred_kick :
    ((st1d []).push 1).channel = none ∧ ((st1d []).push 1).krec.nr_buffer = 1 ∧
    nouveau_pushbuf_kick hdr 3 (st1d []) 1 (some chan0)
      = pushbuf_submit hdr (st1d []) 1 (some chan0) ∧
    ∃ s1, nouveau_pushbuf_kick hdr 3 (st1d []) 1 (some chan0) = .ok (s1, 0) ∧
      (s1.push 1).gpu_channel.submitted.length = 2 ∧
      (s1.push 1).krec.nr_buffer = 1 ∧ (s1.push 1).krec.nr_push = 1 :=
  ⟨by decide, by decide, rfl, _, rfl, by decide, by decide, by decide⟩

/-! ## The geometry of the command buffer -/

theorem Geom.g_refl (s : State) : Geom s s := ⟨fun _ => ⟨rfl, rfl, rfl, rfl⟩, fun _ => ⟨rfl, rfl⟩⟩

theorem Geom.g_trans {s s1 s2 : State} (h1 : Geom s s1) (h2 : Geom s1 s2) : Geom s s2 := by
  refine ⟨fun q => ?_, fun b => ?_⟩
  · obtain ⟨a1, a2, a3, a4⟩ := h1.1 q
    obtain ⟨b1, b2, b3, b4⟩ := h2.1 q
    exact ⟨b1.trans a1, b2.trans a2, b3.trans a3, b4.trans a4⟩
  · obtain ⟨a1, a2⟩ := h1.2 b
    obtain ⟨b1, b2⟩ := h2.2 b
    exact ⟨b1.trans a1, b2.trans a2⟩

theorem AtStart.keep {s s1 : State} {p : Nat} (h : AtStart s p) (g : Geom s s1) : AtStart s1 p := by
  obtain ⟨b, h1, h2, h3⟩ := h
  obtain ⟨a1, a2, a3, a4⟩ := g.1 p
  obtain ⟨m1, m2⟩ := g.2 b
  exact ⟨b, by rw [a4, h1], by rw [a1, m1, h2], by rw [a2, a3, m1, m2, h3]⟩

theorem SubmitFrame.sf_geom {s s1 : State} {p : Nat} (h : SubmitFrame s s1 p) : Geom s s1 := by
  refine ⟨fun q => ?_, fun b => ?_⟩
  · by_cases hq : q = p
    · subst hq
      obtain ⟨pu, n, bg, g, h1⟩ := h.sf_push_eq
      rw [h1]; exact ⟨rfl, rfl, rfl, rfl⟩
    · rw [h.sf_push_ne q hq]; exact ⟨rfl, rfl, rfl, rfl⟩
  · obtain ⟨f, a, hb⟩ := h.sf_bo b
    rw [hb]; exact ⟨rfl, rfl⟩

theorem geom_cli_kref_set (s : State) (bo : Nat) (k : Option KrefPtr) (q : Option Nat) :
    Geom s (cli_kref_set s bo k q) := ⟨fun _ => ⟨rfl, rfl, rfl, rfl⟩, fun _ => ⟨rfl, rfl⟩⟩

theorem geom_bo_unref (s : State) (bo : Nat) : Geom s (bo_unref s bo) := by
  refine ⟨fun _ => ⟨rfl, rfl, rfl, rfl⟩, fun b => ?_⟩
  unfold bo_unref
  by_cases hb : b = bo
  · subst hb; simp
  · simp [Function.update_noteq hb]

theorem geom_bo_incref (s : State) (bo : Nat) : Geom s (bo_incref s bo) := by
  refine ⟨fun _ => ⟨rfl, rfl, rfl, rfl⟩, fun b => ?_⟩
  unfold bo_incref
  by_cases hb : b = bo
  · subst hb; simp
  · simp [Function.update_noteq hb]

theorem geom_setKrec (s : State) (p : Nat) (k : nouveau_pushbuf_krec) : Geom s (setKrec s p k) := by
  refine ⟨fun q => ?_, fun _ => ⟨rfl, rfl⟩⟩
  unfold setKrec setPush
  by_cases hq : q = p
  · subst hq; simp
  · simp [Function.update_noteq hq]

theorem geom_flush_release (s : State) (p : Nat) : Geom s (flush_release s p) := by
  unfold flush_release
  apply foldl_rel _ Geom Geom.g_refl (fun _ _ _ h1 h2 => h1.g_trans h2)
  intro a i
  unfold flush_release_step
  simp only
  split
  · exact (geom_cli_kref_set _ _ _ _).g_trans (geom_bo_unref _ _)
  · exact geom_cli_kref_set _ _ _ _

theorem geom_flush_bufctx (s : State) (p : Nat) : Geom s (flush_bufctx s p) := by
  unfold flush_bufctx
  have h1 : Geom s ((s.push p).bctx_list.foldl flush_bufctx_step s) :=
    foldl_rel flush_bufctx_step Geom Geom.g_refl (fun _ _ _ h1 h2 => h1.g_trans h2)
      (fun _ _ => ⟨fun _ => ⟨rfl, rfl, rfl, rfl⟩, fun _ => ⟨rfl, rfl⟩⟩) _ _
  refine h1.g_trans ⟨fun q => ?_, fun _ => ⟨rfl, rfl⟩⟩
  simp only [setPush]
  by_cases hq : q = p
  · subst hq; simp
  · simp [Function.update_noteq hq]

theorem geom_flush {c : Consts} {s s1 : State} {p : Nat} {r : Int}
    (h : pushbuf_flush c s p = .ok (s1, r)) : Geom s s1 := by
  unfold pushbuf_flush at h
  split at h
  · simp at h
  · rename_i s2 ret hsub
    simp only [Except.ok.injEq, Prod.mk.injEq] at h
    rw [← h.1]
    exact (((pushbuf_submit_frame hsub).sf_geom.g_trans (geom_flush_release _ _)).g_trans
      (geom_setKrec _ _ _)).g_trans (geom_flush_bufctx _ _)

theorem geom_flush_other {c : Consts} {s sf : State} {p bo : Nat}
    (h : kref_flush_other c s p bo = .ok sf) : Geom s sf := by
  unfold kref_flush_other at h
  split at h
  · simp only [Except.ok.injEq] at h; rw [← h]; exact Geom.g_refl s
  · split at h
    · split at h
      · simp at h
      · rename_i s2 r2 hfl
        simp only [Except.ok.injEq] at h
        rw [← h]; exact geom_flush hfl
    · simp only [Except.ok.injEq] at h; rw [← h]; exact Geom.g_refl s

theorem geom_kref_insert (c : Consts) (s : State) (p bo flags : Nat) :
    Geom s (kref_insert c s p bo flags).1 := by
  unfold kref_insert
  simp only
  split
  · exact geom_setKrec _ _ _
  · split
    · exact Geom.g_refl s
    · exact ((geom_setKrec _ _ _).g_trans (geom_cli_kref_set _ _ _ _)).g_trans
        (geom_bo_incref _ _)

theorem geom_kref {c : Consts} {s s1 : State} {p bo flags : Nat} {k : Option KrefPtr}
    (h : pushbuf_kref c s p bo flags = .ok (s1, k)) : Geom s s1 := by
  unfold pushbuf_kref at h
  split at h
  · simp at h
  · rename_i sf hf
    simp only [Except.ok.injEq] at h
    have := geom_kref_insert c sf p bo flags
    rw [h] at this
    exact (geom_flush_other hf).g_trans this

theorem geom_kref_loop (c : Consts) (p : Nat) : ∀ (l : List (Nat × Nat)) (s s1 : State) (r : Int),
    kref_loop c p s l = .ok (s1, r) → Geom s s1 := by
  intro l
  induction l with
  | nil =>
    intro s s1 r h
    simp only [kref_loop, Except.ok.injEq, Prod.mk.injEq] at h
    rw [← h.1]; exact Geom.g_refl s
  | cons x xs ih =>
    intro s s1 r h
    unfold kref_loop at h
    split at h
    · simp at h
    · rename_i s2 hk
      simp only [Except.ok.injEq, Prod.mk.injEq] at h
      rw [← h.1]; exact geom_kref hk
    · rename_i s2 k hk
      exact (geom_kref hk).g_trans (ih _ _ _ h)

theorem geom_refn_fail (s : State) (p sref : Nat) : Geom s (pushbuf_refn_fail s p sref) := by
  unfold pushbuf_refn_fail
  refine Geom.g_trans ?_ (geom_setKrec _ _ _)
  apply foldl_rel _ Geom Geom.g_refl (fun _ _ _ h1 h2 => h1.g_trans h2)
  intro a i
  exact (geom_cli_kref_set _ _ _ _).g_trans (geom_bo_unref _ _)

theorem geom_bctx_move (s : State) (p b : Nat) : Geom s (bctx_move s p b) := by
  refine ⟨fun q => ?_, fun _ => ⟨rfl, rfl⟩⟩
  unfold bctx_move setPush
  by_cases hq : q = p
  · subst hq; simp
  · simp [Function.update_noteq hq]

theorem geom_of_bufctx (s : State) (bc : Nat → nouveau_bufctx) :
    Geom s { s with bufctx := bc } :=
  ⟨fun _ => ⟨rfl, rfl, rfl, rfl⟩, fun _ => ⟨rfl, rfl⟩⟩

theorem geom_validate_insert {c : Consts} {s s1 : State} {p b : Nat} {r : Int}
    (h : validate_insert c s p b = .ok (s1, r)) : Geom s s1 := by
  unfold validate_insert at h
  simp only at h
  split at h
  · simp at h
  · rename_i s3 ret hl
    have g1 := (geom_bctx_move s p b).g_trans (geom_kref_loop c p _ _ _ _ hl)
    split at h
    · simp only [Except.ok.injEq, Prod.mk.injEq] at h
      rw [← h.1]
      exact (g1.g_trans (geom_of_bufctx _ _)).g_trans (geom_refn_fail _ _ _)
    · simp only [Except.ok.injEq, Prod.mk.injEq] at h
      rw [← h.1]
      exact g1.g_trans (geom_of_bufctx _ _)

theorem space_select_none {s : State} {p dwords : Nat}
    (h0 : (space_select s p dwords).2.1 = 0) (hn : (space_select s p dwords).2.2 = none) :
    (space_select s p dwords).1 = s ∧ (s.push p).cur + (dwords : Int) < (s.push p).end_ := by
  unfold space_select at h0 hn ⊢
  simp only at h0 hn ⊢
  split at hn
  · split at hn
    · simp at hn
    · split at hn
      · rename_i _ _ hr
        rw [if_pos (by assumption), if_neg (by assumption), if_pos hr] at h0
        exact absurd h0 hr
      · simp at hn
  · rename_i hlt
    rw [if_neg hlt]
    exact ⟨rfl, by omega⟩

theorem geom_space_cond {c : Consts} {s s1 : State} {p : Nat} {bo : Option Nat} {pushes : Nat}
    {fl : Bool} (h : space_cond c s p bo pushes = .ok (s1, fl)) : Geom s s1 := by
  unfold space_cond at h
  simp only at h
  split at h
  · simp only [Except.ok.injEq, Prod.mk.injEq] at h
    rw [← h.1]; exact Geom.g_refl s
  · split at h
    · simp only [Except.ok.injEq, Prod.mk.injEq] at h
      rw [← h.1]; exact Geom.g_refl s
    · split at h
      · simp at h
      · rename_i s2 hk
        simp only [Except.ok.injEq, Prod.mk.injEq] at h
        rw [← h.1]; exact geom_kref hk
      · rename_i s2 k hk
        simp only [Except.ok.injEq, Prod.mk.injEq] at h
        rw [← h.1]; exact geom_kref hk

theorem geom_space_flush {c : Consts} {s s1 : State} {p : Nat} {fl : Bool}
    (h : space_flush c s p fl = .ok s1) : Geom s s1 := by
  unfold space_flush at h
  split at h
  · split at h
    · simp at h
    · rename_i s3 r hf
      simp only [Except.ok.injEq] at h
      rw [← h]; exact geom_flush hf
  · simp only [Except.ok.injEq] at h
    rw [← h]; exact Geom.g_refl s

theorem space_switch_some {s s1 : State} {p b : Nat}
    (h : space_switch s p (some b) = .ok (s1, 0)) : AtStart s1 p := by
  unfold space_switch at h
  simp only at h
  split at h
  · rename_i hm
    simp only [Except.ok.injEq, Prod.mk.injEq] at h
    exact absurd h.2 hm
  · split at h
    · simp at h
    · rename_i s4 hd
      simp only [Except.ok.injEq, Prod.mk.injEq, and_true] at h
      rw [← h]
      have hb : ((bo_ref_current s4 p b).push p).bo = some b := by
        simp [bo_ref_current, setPush]
      refine ⟨b, ?_, ?_, ?_⟩
      · simp [setPush, bo_unref, hb]
      · simp [setPush, bo_unref]
      · simp [setPush, bo_unref]

/-- One pass of pushbuf_validate that got its space (it returned 0 or ended in
the rollback branch) keeps the geometry its call for space left. -/
theorem validate_pass_geometry (c : Consts)
    (space : State → Nat → Nat → Nat → Nat → Except Err (State × Int)) (p : Nat)
    (hsp : ∀ s s1 dw rl pu, space s p dw rl pu = .ok (s1, 0) → Geom s s1 ∨ AtStart s1 p)
    {s s1 : State} {ret : Int} {failed : Bool}
    (h : validate_pass c space s p = .ok (s1, ret, failed)) (hr : ret = 0 ∨ failed = true) :
    Geom s s1 ∨ AtStart s1 p := by
  unfold validate_pass at h
  simp only at h
  split at h
  · simp at h
  · rename_i sA retA hA
    split at h
    · simp only [Except.ok.injEq, Prod.mk.injEq] at h
      obtain ⟨rfl, rfl, rfl⟩ := h
      rcases hr with hr | hr
      · subst hr; exact hsp _ _ _ _ _ hA
      · simp at hr
    · split at h
      · rename_i hne
        simp only [Except.ok.injEq, Prod.mk.injEq] at h
        obtain ⟨rfl, rfl, rfl⟩ := h
        rcases hr with hr | hr
        · exact absurd hr hne
        · simp at hr
      · rename_i b _ hz
        have hz0 : retA = 0 := by simpa using hz
        subst hz0
        split at h
        · simp at h
        · rename_i s2 ret2 hi
          simp only [Except.ok.injEq, Prod.mk.injEq] at h
          obtain ⟨rfl, _, _⟩ := h
          have g := geom_validate_insert hi
          rcases hsp _ _ _ _ _ hA with h1 | h1
          · exact Or.inl (h1.g_trans g)
          · exact Or.inr (h1.keep g)

theorem validate_with_geometry (c : Consts)
    (space : State → Nat → Nat → Nat → Nat → Except Err (State × Int)) (p : Nat)
    (hsp : ∀ s s1 dw rl pu, space s p dw rl pu = .ok (s1, 0) → Geom s s1 ∨ AtStart s1 p)
    {s s1 : State} {retry : Bool}
    (h : pushbuf_validate_with c space s p retry = .ok (s1, 0)) :
    Geom s s1 ∨ AtStart s1 p := by
  unfold pushbuf_validate_with at h
  split at h
  · simp at h
  · rename_i sP ret failed hP
    split at h
    · rename_i hfr
      have g1 := validate_pass_geometry c space p hsp hP (Or.inr hfr.1)
      split at h
      · simp at h
      · rename_i s2 r2 hf
        have g2 := geom_flush hf
        split at h
        · simp at h
        · rename_i s3 ret3 f3 hP2
          simp only [Except.ok.injEq, Prod.mk.injEq] at h
          obtain ⟨rfl, rfl⟩ := h
          have g3 := validate_pass_geometry c space p hsp hP2 (Or.inl rfl)
          rcases g3 with g3 | g3
          · rcases g1 with g1 | g1
            · exact Or.inl ((g1.g_trans g2).g_trans g3)
            · exact Or.inr (g1.keep (g2.g_trans g3))
          · exact Or.inr g3
    · simp only [Except.ok.injEq, Prod.mk.injEq] at h
      obtain ⟨rfl, rfl⟩ := h
      exact validate_pass_geometry c space p hsp hP (Or.inl rfl)

/-- When nouveau_pushbuf_space returns 0, either it left the geometry of the
command buffer alone and there was room for the request from the start, or the
cursor stands at the start of the current buffer, with the end 2 + rsvd_kick
words before the end of that buffer. -/
theorem space_geometry (c : Consts) : ∀ (fuel : Nat) (s s1 : State) (p dwords relocs pushes : Nat),
    nouveau_pushbuf_space c fuel s p dwords relocs pushes = .ok (s1, 0) →
    (Geom s s1 ∧ (s.push p).cur + (dwords : Int) < (s.push p).end_) ∨ AtStart s1 p := by
  intro fuel
  induction fuel with
  | zero => intro s s1 p dwords relocs pushes h; simp [nouveau_pushbuf_space] at h
  | succ n ih =>
    intro s s1 p dwords relocs pushes h
    have hsp : ∀ t t1 dw rl pu, nouveau_pushbuf_space c n t p dw rl pu = .ok (t1, 0) →
        Geom t t1 ∨ AtStart t1 p := by
      intro t t1 dw rl pu ht
      rcases ih t t1 p dw rl pu ht with h1 | h1
      · exact Or.inl h1.1
      · exact Or.inr h1
    unfold nouveau_pushbuf_space at h
    simp only at h
    split at h
    · rename_i hne
      simp only [Except.ok.injEq, Prod.mk.injEq] at h
      exact absurd h.2 hne
    · rename_i hsel
      have hsel0 : (space_select s p dwords).2.1 = 0 := by simpa using hsel
      split at h
      · simp at h
      · rename_i s2 flushed hc
        have gc := geom_space_cond hc
        split at h
        · simp at h
        · rename_i s3 hf
          have gf := geom_space_flush hf
          split at h
          · simp at h
          · rename_i s8 ret hsw
            split at h
            · rename_i hne
              simp only [Except.ok.injEq, Prod.mk.injEq] at h
              exact absurd h.2 hne
            · rename_i hret
              have hret0 : ret = 0 := by simpa using hret
              subst hret0
              split at h
              · simp at h
              · rename_i cur_bo hcb
                split at h
                · simp at h
                · rename_i s9 k hk
                  have gk := geom_kref hk
                  -- the state before the last reference and what is known of it
                  have h8 : (Geom s s8 ∧ (s.push p).cur + (dwords : Int) < (s.push p).end_)
                      ∨ AtStart s8 p := by
                    cases hb : (space_select s p dwords).2.2 with
                    | none =>
                      obtain ⟨e1, e2⟩ := space_select_none hsel0 hb
                      rw [hb] at hsw
                      simp only [space_switch, Except.ok.injEq, Prod.mk.injEq, and_true] at hsw
                      rw [e1] at gc
                      rw [← hsw]
                      exact Or.inl ⟨gc.g_trans gf, e2⟩
                    | some b =>
                      rw [hb] at hsw
                      exact Or.inr (space_switch_some hsw)
                  have h9 : (Geom s s9 ∧ (s.push p).cur + (dwords : Int) < (s.push p).end_)
                      ∨ AtStart s9 p := by
                    rcases h8 with h8 | h8
                    · exact Or.inl ⟨h8.1.g_trans gk, h8.2⟩
                    · exact Or.inr (h8.keep gk)
                  split at h
                  · rcases validate_with_geometry c _ p hsp h with g | g
                    · rcases h9 with h9 | h9
                      · exact Or.inl ⟨h9.1.g_trans g, h9.2⟩
                      · exact Or.inr (h9.keep g)
                    · exact Or.inr g
                  · simp only [Except.ok.injEq, Prod.mk.injEq, and_true] at h
                    rw [← h]; exact h9

/-- C10 (amended): when nouveau_pushbuf_space(push, dwords, relocs, pushes)
returns 0, either the call left cursor and end alone and cur + dwords < end
held from the start, or the current buffer was switched: the cursor stands at
its start and push->end lies 2 + rsvd_kick words before the end of its size/4
words.  Hence push->cur + dwords <= push->end holds whenever the request fits
an empty buffer, dwords + 2 + rsvd_kick <= size/4 for the current buffer. -/
theorem C10_space_room (c : Consts) (fuel : Nat) (s s1 : State) (p dwords relocs pushes : Nat)
    (h : nouveau_pushbuf_space c fuel s p dwords relocs pushes = .ok (s1, 0))
    (hfit : ∀ b, (s1.push p).bo = some b →
      dwords + (2 + (s1.push p).rsvd_kick) % 2 ^ 32 ≤ (s1.bo b).size / 4) :
    (s1.push p).cur + (dwords : Int) ≤ (s1.push p).end_ ∧
    ((Geom s s1 ∧ (s.push p).cur + (dwords : Int) < (s.push p).end_) ∨ AtStart s1 p) := by
  have hg := space_geometry c fuel s s1 p dwords relocs pushes h
  refine ⟨?_, hg⟩
  rcases hg with ⟨g, hlt⟩ | ⟨b, hb, hc, he⟩
  · obtain ⟨a1, a2, _, _⟩ := g.1 p
    rw [a1, a2]; omega
  · have := hfit b hb
    rw [hc, he]
    omega

/-- C10 at the fresh immediate pushbuf 0 of `st0 []` and a request of 16 words:
the pool buffer 10 of 1024 words becomes current and has room. -/
theorem C10_space_room_witness :
    (nouveau_pushbuf_space hdr 3 (st0 []) 0 16 0 0 = .ok (st0s, 0) ∧
      (st0s.push 0).bo = some 10 ∧
      16 + (2 + (st0s.push 0).rsvd_kick) % 2 ^ 32 ≤ (st0s.bo 10).size / 4) ∧
    (st0s.push 0).cur + ((16 : Nat) : Int) ≤ (st0s.push 0).end_ := by
  have hbo : (st0s.push 0).bo = some 10 := by decide
  have hfit : 16 + (2 + (st0s.push 0).rsvd_kick) % 2 ^ 32 ≤ (st0s.bo 10).size / 4 := by decide
  refine ⟨⟨rfl, hbo, hfit⟩, ?_⟩
  refine (C10_space_room hdr 3 (st0 []) st0s 0 16 0 0 rfl ?_).1
  intro b hb
  rw [hbo] at hb
  simp only [Option.some.injEq] at hb
  subst hb
  exact hfit

/-- C10 as stated fails for a request larger than a buffer: on the fresh
immediate pushbuf 0 of `st0 []`, whose pool buffers hold 1024 words,
nouveau_pushbuf_space(push, 5000, 0, 0) returns 0 with cur + 5000 > end. -/
theorem C10_counterexample_large_request :
    ∃ s1, nouveau_pushbuf_space hdr 3 (st0 []) 0 5000 0 0 = .ok (s1, 0) ∧
      (s1.push 0).bo = some 10 ∧ (s1.bo 10).size / 4 = 1024 ∧
      (s1.push 0).end_ = (s1.push 0).cur + 1024 - 2 ∧
      ¬ ((s1.push 0).cur + ((5000 : Nat) : Int) ≤ (s1.push 0).end_) :=
  ⟨_, rfl, by decide, by decide, by decide, by decide⟩

/-- C9 fails on an immediate pushbuf.  In `st2 [5]` the hardware rejects the
batch of the immediate pushbuf 0 with status 5: pushbuf_flush returns -5, yet
nouveau_pushbuf_kick drops that value and returns the 0 of the validation that
follows.  On the deferred pushbuf 1 of `st1d [5]` the same rejection is
returned as -5. -/
theorem C9_kick_drops_rejection :
    ((st2 [5]).push 0).channel = some chan0 ∧
    ((st2 [5]).push 0).gpu_channel.kickoff = [5] ∧
    (∃ s1, pushbuf_flush hdr (st2 [5]) 0 = .ok (s1, -5)) ∧
    (∃ s2, nouveau_pushbuf_kick hdr 3 (st2 [5]) 0 (some chan0) = .ok (s2, 0)) ∧
    ((st1d [5]).push 1).channel = none ∧
    (∃ s3, nouveau_pushbuf_kick hdr 3 (st1d [5]) 1 (some chan0) = .ok (s3, -5)) :=
  ⟨by decide, by decide, ⟨_, rfl⟩, ⟨_, rfl⟩, by decide, ⟨_, rfl⟩⟩

/-! ## The table and the records -/

theorem sameRefs_refl (s : State) : SameRefs s s := ⟨rfl, rfl, fun _ => ⟨rfl, rfl⟩⟩

theorem sameRefs_trans {s s1 s2 : State} (h1 : SameRefs s s1) (h2 : SameRefs s1 s2) :
    SameRefs s s2 :=
  ⟨h2.1.trans h1.1, h2.2.1.trans h1.2.1,
    fun q => ⟨(h2.2.2 q).1.trans (h1.2.2 q).1, (h2.2.2 q).2.trans (h1.2.2 q).2⟩⟩

theorem sameRefs_WF {s s1 : State} (h : SameRefs s s1) (hw : WF s) : WF s1 := by
  obtain ⟨hk, hp, hq⟩ := h
  refine ⟨fun bo k hb => ?_, fun q i hi => ?_⟩
  · rw [hk] at hb
    obtain ⟨a1, a2, a3⟩ := hw.1 bo k hb
    rw [(hq k.push).1, (hq k.push).2, hp]
    exact ⟨a1, a2, a3⟩
  · rw [(hq q).2] at hi
    rw [(hq q).1, hk]
    exact hw.2 q i hi

theorem sameRefs_bound {c : Consts} {s s1 : State} (h : SameRefs s s1) (hb : Bound c s) :
    Bound c s1 := fun q => by rw [(h.2.2 q).2]; exact hb q

theorem sameRefs_own {s s1 : State} (h : SameRefs s s1) (p b : Nat) : own s1 p b = own s p b := by
  unfold own derefKref
  rw [h.1]
  cases s.kref b with
  | none => rfl
  | some k => simp only [(h.2.2 k.push).1]

theorem sameRefs_of_submitFrame {s s1 : State} {p : Nat} (h : SubmitFrame s s1 p) :
    SameRefs s s1 :=
  ⟨h.sf_kref, h.sf_kpush, fun q => ⟨(h.sf_buffer q).1, (h.sf_buffer q).2.1⟩⟩

theorem sameRefs_bo (s : State) (bo1 : Nat → nouveau_bo) : SameRefs s { s with bo := bo1 } :=
  ⟨rfl, rfl, fun _ => ⟨rfl, rfl⟩⟩

theorem sameRefs_setPush (s : State) (p : Nat) (v : nouveau_pushbuf_priv)
    (h1 : v.krec.buffer = (s.push p).krec.buffer)
    (h2 : v.krec.nr_buffer = (s.push p).krec.nr_buffer) : SameRefs s (setPush s p v) := by
  refine ⟨rfl, rfl, fun q => ?_⟩
  unfold setPush
  by_cases hq : q = p
  · subst hq; simp [h1, h2]
  · simp [Function.update_noteq hq]

theorem own_some_iff {s : State} {p b : Nat} {r : drm_nouveau_gem_pushbuf_bo} :
    own s p b = some r ↔ ∃ i, s.kref b = some ⟨p, i⟩ ∧ (s.push p).krec.buffer i = r := by
  unfold own derefKref
  constructor
  · intro h
    cases hk : s.kref b with
    | none => simp [hk] at h
    | some k =>
      simp only [hk] at h
      split at h
      · rename_i hp
        obtain ⟨q, i⟩ := k
        simp only at hp
        subst hp
        simp only [Option.some.injEq] at h
        exact ⟨i, rfl, h⟩
      · simp at h
  · rintro ⟨i, hk, hr⟩
    simp [hk, hr]

theorem own_none_iff {s : State} {p b : Nat} :
    own s p b = none ↔ ∀ i, s.kref b ≠ some ⟨p, i⟩ := by
  unfold own
  constructor
  · intro h i hk
    simp [hk] at h
  · intro h
    cases hk : s.kref b with
    | none => rfl
    | some k =>
      obtain ⟨q, i⟩ := k
      simp only
      by_cases hp : q = p
      · subst hp
        exact absurd hk (h i)
      · rw [if_neg hp]

/-- A flush keeps the table and the records in agreement. -/
theorem flush_WF {c : Consts} {s s1 : State} {q : Nat} {r : Int} (hw : WF s)
    (h : pushbuf_flush c s q = .ok (s1, r)) : WF s1 := by
  obtain ⟨_, hn, _, hb, hne, hk, hp⟩ := pushbuf_flush_inv h
  refine ⟨fun bo k hbo => ?_, fun q2 i hi => ?_⟩
  · rw [hk] at hbo
    split at hbo
    · simp at hbo
    · rename_i hnot
      obtain ⟨a1, a2, a3⟩ := hw.1 bo k hbo
      have hkq : k.push ≠ q := by
        intro e
        rw [e] at a1 a2
        exact hnot ⟨k.idx, a1, a2⟩
      rw [hne _ hkq, hp, if_neg hnot]
      exact ⟨a1, a2, a3⟩
  · by_cases hq : q2 = q
    · subst hq; rw [hn] at hi; exact absurd hi (Nat.not_lt_zero _)
    · rw [hne _ hq] at hi ⊢
      have h0 := hw.2 q2 i hi
      rw [hk]
      split
      · rename_i hin
        obtain ⟨j, hj, hje⟩ := hin
        have := hw.2 q j hj
        rw [hje, h0] at this
        simp only [Option.some.injEq, KrefPtr.mk.injEq] at this
        exact absurd this.1 hq
      · exact h0

theorem flush_bound {c : Consts} {s s1 : State} {q : Nat} {r : Int} (hb : Bound c s)
    (h : pushbuf_flush c s q = .ok (s1, r)) : Bound c s1 := by
  obtain ⟨_, hn, _, _, hne, _, _⟩ := pushbuf_flush_inv h
  intro q2
  by_cases hq : q2 = q
  · subst hq; rw [hn]; exact Nat.zero_le _
  · rw [hne _ hq]; exact hb q2

/-- A flush of pushbuf `q` leaves the references of another pushbuf `p` as they
are. -/
theorem flush_own {c : Consts} {s s1 : State} {q : Nat} {r : Int} (hw : WF s)
    (h : pushbuf_flush c s q = .ok (s1, r)) (p : Nat) (hpq : p ≠ q) (b : Nat) :
    own s1 p b = own s p b := by
  obtain ⟨_, hn, _, hb, hne, hk, hp⟩ := pushbuf_flush_inv h
  unfold own derefKref
  rw [hk]
  by_cases hin : ∃ i, i < (s.push q).krec.nr_buffer ∧ ((s.push q).krec.buffer i).bo = b
  · rw [if_pos hin]
    obtain ⟨j, hj, hje⟩ := hin
    have := hw.2 q j hj
    rw [hje] at this
    simp [this, hpq.symm]
  · rw [if_neg hin]
    cases hkb : s.kref b with
    | none => rfl
    | some k =>
      simp only
      by_cases hkp : k.push = p
      · simp only [hkp, if_true]
        rw [hne p hpq]
      · simp only [hkp, if_false]

/-- After a flush of pushbuf `q` no buffer is owned by `q` in the table entries
of its former references, and the owner of any buffer is as before or null. -/
theorem flush_kpush {c : Consts} {s s1 : State} {q : Nat} {r : Int}
    (h : pushbuf_flush c s q = .ok (s1, r)) (b : Nat) :
    s1.kpush b = s.kpush b ∨ s1.kpush b = none := by
  obtain ⟨_, _, _, _, _, _, hp⟩ := pushbuf_flush_inv h
  rw [hp]
  split
  · exact Or.inr rfl
  · exact Or.inl rfl

/-- What the first half of pushbuf_kref leaves behind: table and records still
agree, the pushbuf `p` and its references are untouched, and the buffer is
without reference or referenced by `p`. -/
theorem kref_flush_other_spec {c : Consts} {s sf : State} {p bo : Nat} (hw : WF s)
    (h : kref_flush_other c s p bo = .ok sf) :
    WF sf ∧ (Bound c s → Bound c sf) ∧ sf.push p = s.push p ∧ (∀ b, own sf p b = own s p b) ∧
    (sf.kref bo = none ∨ ∃ i, sf.kref bo = some ⟨p, i⟩) ∧
    (∀ b, sf.kpush b = s.kpush b ∨ sf.kpush b = none) := by
  unfold kref_flush_other cli_push_get at h
  cases hkp : s.kpush bo with
  | none =>
    simp only [hkp, Except.ok.injEq] at h
    subst h
    refine ⟨hw, id, rfl, fun _ => rfl, Or.inl ?_, fun _ => Or.inl rfl⟩
    cases hk : s.kref bo with
    | none => rfl
    | some k => have := (hw.1 bo k hk).2.2; rw [hkp] at this; simp at this
  | some fpush =>
    simp only [hkp] at h
    by_cases hf : fpush = p
    · subst hf
      simp only [ne_eq, not_true_eq_false, if_false, Except.ok.injEq] at h
      subst h
      refine ⟨hw, id, rfl, fun _ => rfl, ?_, fun _ => Or.inl rfl⟩
      cases hk : s.kref bo with
      | none => exact Or.inl rfl
      | some k =>
        have := (hw.1 bo k hk).2.2
        rw [hkp] at this
        simp only [Option.some.injEq] at this
        obtain ⟨q, i⟩ := k
        simp only at this
        subst this
        exact Or.inr ⟨i, rfl⟩
    · simp only [ne_eq, hf, not_false_eq_true, if_true] at h
      split at h
      · simp at h
      · rename_i s1 r hfl
        simp only [Except.ok.injEq] at h
        subst h
        obtain ⟨_, _, _, _, hne, hk, _⟩ := pushbuf_flush_inv hfl
        refine ⟨flush_WF hw hfl, fun hb => flush_bound hb hfl, hne p (fun e => hf e.symm),
          fun b => flush_own hw hfl p (fun e => hf e.symm) b, Or.inl ?_, fun b => flush_kpush hfl b⟩
        rw [hk]
        by_cases hin : ∃ i, i < (s.push fpush).krec.nr_buffer ∧ ((s.push fpush).krec.buffer i).bo = bo
        · rw [if_pos hin]
        · rw [if_neg hin]
          cases hkb : s.kref bo with
          | none => rfl
          | some k =>
            obtain ⟨a1, a2, a3⟩ := hw.1 bo k hkb
            rw [hkp] at a3
            simp only [Option.some.injEq] at a3
            rw [← a3] at a1 a2
            exact absurd ⟨k.idx, a1, a2⟩ hin

/-- Appending a reference for a buffer without table entry: the state after
the `else` branch of pushbuf_kref. -/
theorem kref_new_spec (c : Consts) (s : State) (p bo : Nat) (v : drm_nouveau_gem_pushbuf_bo)
    (hw : WF s) (hnone : s.kref bo = none) (hv : v.bo = bo)
    (hfull : (s.push p).krec.nr_buffer ≠ c.NOUVEAU_GEM_MAX_BUFFERS) :
    let s2 := bo_incref (cli_kref_set (setKrec s p { (s.push p).krec with
        buffer := Function.update (s.push p).krec.buffer (s.push p).krec.nr_buffer v,
        nr_buffer := (s.push p).krec.nr_buffer + 1 }) bo
        (some ⟨p, (s.push p).krec.nr_buffer⟩) (some p)) bo
    WF s2 ∧ (Bound c s → Bound c s2) ∧
    (∀ b, own s2 p b = if b = bo then some v else own s p b) ∧
    (s2.push p).krec.nr_buffer = (s.push p).krec.nr_buffer + 1 ∧
    (∀ b, s2.kpush b = s.kpush b ∨ s2.kpush b = some p) ∧
    (∀ q, q ≠ p → s2.push q = s.push q) ∧
    (∀ b k, s.kref b = some k → s2.kref b = some k) := by
  intro s2
  have hkref : ∀ b, s2.kref b = if b = bo then some ⟨p, (s.push p).krec.nr_buffer⟩ else s.kref b := by
    intro b; simp [s2, bo_incref, cli_kref_set, setKrec, setPush, Function.update_apply]
  have hkpush : ∀ b, s2.kpush b = if b = bo then some p else s.kpush b := by
    intro b; simp [s2, bo_incref, cli_kref_set, setKrec, setPush, Function.update_apply]
  have hpush : ∀ q, q ≠ p → s2.push q = s.push q := by
    intro q hq; simp [s2, bo_incref, cli_kref_set, setKrec, setPush, Function.update_apply, hq]
  have hnr : (s2.push p).krec.nr_buffer = (s.push p).krec.nr_buffer + 1 := by
    simp [s2, bo_incref, cli_kref_set, setKrec, setPush]
  have hbuf : ∀ i, (s2.push p).krec.buffer i
      = if i = (s.push p).krec.nr_buffer then v else (s.push p).krec.buffer i := by
    intro i; simp [s2, bo_incref, cli_kref_set, setKrec, setPush, Function.update_apply]
  refine ⟨⟨fun b k hb => ?_, fun q i hi => ?_⟩, fun hbd q => ?_, fun b => ?_, hnr, fun b => ?_,
    hpush, fun b k hb => ?_⟩
  · rw [hkref] at hb
    by_cases hbo : b = bo
    · subst hbo
      simp only [if_true, Option.some.injEq] at hb
      subst hb
      simp only
      rw [hnr, hbuf, if_pos rfl, hkpush, if_pos rfl]
      exact ⟨Nat.lt_succ_self _, hv, rfl⟩
    · rw [if_neg hbo] at hb
      obtain ⟨a1, a2, a3⟩ := hw.1 b k hb
      rw [hkpush, if_neg hbo]
      by_cases hkp : k.push = p
      · rw [hkp] at a1 a2 ⊢
        rw [hnr, hbuf, if_neg (Nat.ne_of_lt a1)]
        exact ⟨Nat.lt_succ_of_lt a1, a2, by rw [a3, hkp]⟩
      · rw [hpush _ hkp]; exact ⟨a1, a2, a3⟩
  · by_cases hq : q = p
    · subst hq
      rw [hnr] at hi
      rw [hbuf, hkref]
      by_cases hin : i = (s.push q).krec.nr_buffer
      · subst hin; simp [hv]
      · rw [if_neg hin]
        have hlt : i < (s.push q).krec.nr_buffer := by omega
        have h0 := hw.2 q i hlt
        have hne : ((s.push q).krec.buffer i).bo ≠ bo := by
          intro e; rw [e, hnone] at h0; simp at h0
        rw [if_neg hne]; exact h0
    · rw [hpush _ hq] at hi ⊢
      have h0 := hw.2 q i hi
      have hne : ((s.push q).krec.buffer i).bo ≠ bo := by
        intro e; rw [e, hnone] at h0; simp at h0
      rw [hkref, if_neg hne]; exact h0
  · by_cases hq : q = p
    · subst hq
      rw [hnr]
      have := hbd q
      omega
    · rw [hpush _ hq]; exact hbd q
  · unfold own derefKref
    rw [hkref]
    by_cases hbo : b = bo
    · subst hbo
      simp only [if_true]
      rw [hbuf, if_pos rfl]
    · simp only [if_neg hbo]
      cases hk : s.kref b with
      | none => rfl
      | some k =>
        simp only
        by_cases hkp : k.push = p
        · simp only [hkp, if_true]
          have a1 := (hw.1 b k hk).1
          rw [hkp] at a1
          rw [hbuf, if_neg (Nat.ne_of_lt a1)]
        · simp only [hkp, if_false]
  · rw [hkpush]
    by_cases hbo : b = bo
    · rw [if_pos hbo]; exact Or.inr rfl
    · rw [if_neg hbo]; exact Or.inl rfl
  · rw [hkref]
    by_cases hbo : b = bo
    · subst hbo; rw [hnone] at hb; simp at hb
    · rw [if_neg hbo]; exact hb

/-- OR-ing domains into the reference `i` of pushbuf `p`: the state after the
`if (kref)` branch of pushbuf_kref. -/
theorem kref_acc_spec (c : Consts) (s : State) (p bo i : Nat) (v : drm_nouveau_gem_pushbuf_bo)
    (hw : WF s) (hk : s.kref bo = some ⟨p, i⟩) (hv : v.bo = bo) :
    let s2 := storeKref s ⟨p, i⟩ v
    WF s2 ∧ (Bound c s → Bound c s2) ∧
    (∀ b, own s2 p b = if b = bo then some v else own s p b) ∧
    (s2.push p).krec.nr_buffer = (s.push p).krec.nr_buffer ∧
    s2.kpush = s.kpush ∧
    (∀ q, q ≠ p → s2.push q = s.push q) ∧
    s2.kref = s.kref := by
  intro s2
  have hpush : ∀ q, q ≠ p → s2.push q = s.push q := by
    intro q hq; simp [s2, storeKref, setKrec, setPush, Function.update_apply, hq]
  have hnr : (s2.push p).krec.nr_buffer = (s.push p).krec.nr_buffer := by
    simp [s2, storeKref, setKrec, setPush]
  have hbuf : ∀ j, (s2.push p).krec.buffer j = if j = i then v else (s.push p).krec.buffer j := by
    intro j; simp [s2, storeKref, setKrec, setPush, Function.update_apply]
  have hkref : s2.kref = s.kref := rfl
  have hkpush : s2.kpush = s.kpush := rfl
  obtain ⟨b1, b2, b3⟩ := hw.1 bo _ hk
  simp only at b1 b2 b3
  have hbo : ∀ q j, ((s2.push q).krec.buffer j).bo = ((s.push q).krec.buffer j).bo := by
    intro q j
    by_cases hq : q = p
    · subst hq
      rw [hbuf]
      by_cases hj : j = i
      · subst hj; rw [if_pos rfl, hv, b2]
      · rw [if_neg hj]
    · rw [hpush _ hq]
  have hnrq : ∀ q, (s2.push q).krec.nr_buffer = (s.push q).krec.nr_buffer := by
    intro q
    by_cases hq : q = p
    · subst hq; exact hnr
    · rw [hpush _ hq]
  refine ⟨⟨fun b k hb => ?_, fun q j hj => ?_⟩, fun hbd q => ?_, fun b => ?_, hnr, hkpush, hpush,
    hkref⟩
  · rw [hkref] at hb
    rw [hnrq, hbo, hkpush]
    exact hw.1 b k hb
  · rw [hnrq] at hj
    rw [hbo, hkref]
    exact hw.2 q j hj
  · rw [hnrq]; exact hbd q
  · unfold own derefKref
    rw [hkref]
    by_cases hb : b = bo
    · subst hb
      simp only [hk, if_true]
      rw [hbuf, if_pos rfl]
    · simp only [if_neg hb]
      cases hkb : s.kref b with
      | none => rfl
      | some k =>
        simp only
        by_cases hkp : k.push = p
        · simp only [hkp, if_true]
          have a2 := (hw.1 b k hkb).2.1
          rw [hkp] at a2
          have hne : k.idx ≠ i := by
            intro e
            rw [e, b2] at a2
            exact hb a2.symm
          rw [hbuf, if_neg hne]
        · simp only [hkp, if_false]

theorem refFlags_of_own_eq {s s1 : State} {p b : Nat} (h : own s1 p b = own s p b) :
    refFlags s1 p b = refFlags s p b := by
  unfold refFlags; rw [h]

/-- The second half of pushbuf_kref on a state where table and records agree
and the buffer is without reference or referenced by `p`. -/
theorem kref_insert_spec (c : Consts) (s : State) (p bo flags : Nat) (hw : WF s)
    (hpre : s.kref bo = none ∨ ∃ i, s.kref bo = some ⟨p, i⟩) :
    WF (kref_insert c s p bo flags).1 ∧
    (Bound c s → Bound c (kref_insert c s p bo flags).1) ∧
    ((kref_insert c s p bo flags).2 = none →
      (kref_insert c s p bo flags).1 = s ∧ own s p bo = none ∧
      (s.push p).krec.nr_buffer = c.NOUVEAU_GEM_MAX_BUFFERS) ∧
    ((kref_insert c s p bo flags).2 ≠ none →
      (∃ i, (kref_insert c s p bo flags).2 = some ⟨p, i⟩) ∧
      (∀ b, refFlags (kref_insert c s p bo flags).1 p b
        = if b = bo then some (mergeFlags c flags (refFlags s p bo)) else refFlags s p b) ∧
      (∀ b, b ≠ bo → own (kref_insert c s p bo flags).1 p b = own s p b) ∧
      ((kref_insert c s p bo flags).1.push p).krec.nr_buffer
        = (s.push p).krec.nr_buffer + (if own s p bo = none then 1 else 0)) ∧
    (∀ b, (kref_insert c s p bo flags).1.kpush b = s.kpush b ∨
      (kref_insert c s p bo flags).1.kpush b = some p) ∧
    (∀ q, q ≠ p → (kref_insert c s p bo flags).1.push q = s.push q) ∧
    (∀ b k, s.kref b = some k → (kref_insert c s p bo flags).1.kref b = some k) := by
  rcases hpre with hnone | ⟨i, hk⟩
  · have hown : own s p bo = none := by unfold own; rw [hnone]
    by_cases hfull : (s.push p).krec.nr_buffer = c.NOUVEAU_GEM_MAX_BUFFERS
    · have e : kref_insert c s p bo flags = (s, none) := by
        unfold kref_insert; simp [cli_kref_get, hnone, hfull]
      rw [e]
      exact ⟨hw, id, fun _ => ⟨rfl, hown, hfull⟩, fun h => absurd rfl h, fun _ => Or.inl rfl,
        fun _ _ => rfl, fun _ _ h => h⟩
    · have hs := kref_new_spec c s p bo
        { bo := bo, handle := (s.bo bo).handle, write_domains := domains_wr c flags,
          read_domains := domains_rd c flags } hw hnone rfl hfull
      have e : kref_insert c s p bo flags
          = (bo_incref (cli_kref_set (setKrec s p { (s.push p).krec with
              buffer := Function.update (s.push p).krec.buffer (s.push p).krec.nr_buffer
                { bo := bo, handle := (s.bo bo).handle, write_domains := domains_wr c flags,
                  read_domains := domains_rd c flags },
              nr_buffer := (s.push p).krec.nr_buffer + 1 }) bo
              (some ⟨p, (s.push p).krec.nr_buffer⟩) (some p)) bo,
            some ⟨p, (s.push p).krec.nr_buffer⟩) := by
        unfold kref_insert
        simp only [cli_kref_get, hnone, hfull, pushbuf_kref_fits, or_self, if_false]
        rfl
      rw [e]
      obtain ⟨a1, a2, a3, a4, a5, a6, a7⟩ := hs
      refine ⟨a1, a2, fun h => by simp at h, fun _ => ⟨⟨_, rfl⟩, fun b => ?_, fun b hb => ?_, ?_⟩,
        a5, a6, a7⟩
      · unfold refFlags
        rw [a3]
        by_cases hb : b = bo
        · subst hb
          simp [hown, mergeFlags]
        · simp [hb]
      · rw [a3, if_neg hb]
      · rw [a4, if_pos hown]
  · obtain ⟨b1, b2, b3⟩ := hw.1 bo _ hk
    simp only at b1 b2 b3
    have hown : own s p bo = some ((s.push p).krec.buffer i) :=
      own_some_iff.mpr ⟨i, hk, rfl⟩
    have hs := kref_acc_spec c s p bo i
      { (s.push p).krec.buffer i with
        write_domains := ((s.push p).krec.buffer i).write_domains ||| domains_wr c flags,
        read_domains := ((s.push p).krec.buffer i).read_domains ||| domains_rd c flags } hw hk b2
    have e : kref_insert c s p bo flags
        = (storeKref s ⟨p, i⟩ { (s.push p).krec.buffer i with
            write_domains := ((s.push p).krec.buffer i).write_domains ||| domains_wr c flags,
            read_domains := ((s.push p).krec.buffer i).read_domains ||| domains_rd c flags },
          some ⟨p, i⟩) := by
      unfold kref_insert
      simp only [cli_kref_get, hk]
      rfl
    rw [e]
    obtain ⟨a1, a2, a3, a4, a5, a6, a7⟩ := hs
    refine ⟨a1, a2, fun h => by simp at h, fun _ => ⟨⟨_, rfl⟩, fun b => ?_, fun b hb => ?_, ?_⟩,
      fun b => Or.inl (by rw [a5]), a6, fun b k hb => by rw [a7]; exact hb⟩
    · unfold refFlags
      rw [a3]
      by_cases hb : b = bo
      · subst hb
        simp [hown, mergeFlags]
      · simp [hb]
    · rw [a3, if_neg hb]
    · rw [a4, hown]; simp

theorem flush_other_persist {c : Consts} {s sf : State} {p bo : Nat} (hw : WF s)
    (h : kref_flush_other c s p bo = .ok sf) (b i : Nat) (hk : s.kref b = some ⟨p, i⟩) :
    sf.kref b = some ⟨p, i⟩ := by
  unfold kref_flush_other cli_push_get at h
  split at h
  · simp only [Except.ok.injEq] at h; rw [← h]; exact hk
  · rename_i fpush hfp
    split at h
    · rename_i hne
      split at h
      · simp at h
      · rename_i s1 r hfl
        simp only [Except.ok.injEq] at h
        subst h
        obtain ⟨_, _, _, _, _, hkr, _⟩ := pushbuf_flush_inv hfl
        rw [hkr]
        by_cases hin : ∃ j, j < (s.push fpush).krec.nr_buffer ∧ ((s.push fpush).krec.buffer j).bo = b
        · obtain ⟨j, hj, hje⟩ := hin
          have := hw.2 fpush j hj
          rw [hje, hk] at this
          simp only [Option.some.injEq, KrefPtr.mk.injEq] at this
          exact absurd this.1.symm hne
        · rw [if_neg hin]; exact hk
    · simp only [Except.ok.injEq] at h; rw [← h]; exact hk

/-- One call of pushbuf_kref on a state where table and records agree. -/
theorem pushbuf_kref_spec {c : Consts} {s s1 : State} {p bo flags : Nat} {res : Option KrefPtr}
    (hw : WF s) (h : pushbuf_kref c s p bo flags = .ok (s1, res)) :
    WF s1 ∧ (Bound c s → Bound c s1) ∧
    (res = none → own s p bo = none ∧ (∀ b, own s1 p b = own s p b) ∧ s1.push p = s.push p ∧
      (s.push p).krec.nr_buffer = c.NOUVEAU_GEM_MAX_BUFFERS) ∧
    (res ≠ none →
      (∃ i, res = some ⟨p, i⟩) ∧
      (∀ b, refFlags s1 p b
        = if b = bo then some (mergeFlags c flags (refFlags s p bo)) else refFlags s p b) ∧
      (∀ b, b ≠ bo → own s1 p b = own s p b) ∧
      (s1.push p).krec.nr_buffer
        = (s.push p).krec.nr_buffer + (if own s p bo = none then 1 else 0)) ∧
    (∀ b, s1.kpush b = s.kpush b ∨ s1.kpush b = none ∨ s1.kpush b = some p) ∧
    (∀ b i, s.kref b = some ⟨p, i⟩ → s1.kref b = some ⟨p, i⟩) := by
  unfold pushbuf_kref at h
  split at h
  · simp at h
  · rename_i sf hf
    simp only [Except.ok.injEq] at h
    obtain ⟨f1, f2, f3, f4, f5, f6⟩ := kref_flush_other_spec hw hf
    obtain ⟨i1, i2, i3, i4, i5, i6, i7⟩ := kref_insert_spec c sf p bo flags f1 f5
    rw [h] at i1 i2 i3 i4 i5 i6 i7
    simp only at i1 i2 i3 i4 i5 i6 i7
    refine ⟨i1, fun hb => i2 (f2 hb), fun hr => ?_, fun hr => ?_, fun b => ?_, fun b i hk => ?_⟩
    · obtain ⟨e1, e2, e3⟩ := i3 hr
      rw [e1]
      exact ⟨by rw [← f4]; exact e2, f4, f3, by rw [← f3]; exact e3⟩
    · obtain ⟨e1, e2, e3, e4⟩ := i4 hr
      refine ⟨e1, fun b => ?_, fun b hb => ?_, ?_⟩
      · rw [e2, refFlags_of_own_eq (f4 bo), refFlags_of_own_eq (f4 b)]
      · rw [e3 b hb, f4]
      · rw [e4, f3, f4]
    · rcases i5 b with e | e
      · rcases f6 b with g | g
        · exact Or.inl (e.trans g)
        · exact Or.inr (Or.inl (e.trans g))
      · exact Or.inr (Or.inr e)
    · exact i7 b _ (flush_other_persist hw hf b i hk)

/-- A list of distinct buffers that pushbuf `p` owns is no longer than its
record. -/
theorem owned_length_le {s : State} {p : Nat} (hw : WF s) (L : List Nat) (hnd : L.Nodup)
    (hown : ∀ b ∈ L, ∃ i, s.kref b = some ⟨p, i⟩) : L.length ≤ (s.push p).krec.nr_buffer := by
  let f : Nat → Nat := fun b => ((s.kref b).map (fun k => k.idx)).getD 0
  have hinj : ∀ x ∈ L, ∀ y ∈ L, f x = f y → x = y := by
    intro x hx y hy hxy
    obtain ⟨i, hi⟩ := hown x hx
    obtain ⟨j, hj⟩ := hown y hy
    simp only [f, hi, hj, Option.map_some', Option.getD_some] at hxy
    subst hxy
    have h1 := (hw.1 x _ hi).2.1
    have h2 := (hw.1 y _ hj).2.1
    simp only at h1 h2
    rw [← h1, ← h2]
  have hnd2 : (L.map f).Nodup := hnd.map_on hinj
  have hsub : (L.map f).toFinset ⊆ Finset.range (s.push p).krec.nr_buffer := by
    intro x hx
    rw [List.mem_toFinset, List.mem_map] at hx
    obtain ⟨b, hb, rfl⟩ := hx
    obtain ⟨i, hi⟩ := hown b hb
    simp only [f, hi, Option.map_some', Option.getD_some, Finset.mem_range]
    exact (hw.1 b _ hi).1
  have := Finset.card_le_card hsub
  rw [List.toFinset_card_of_nodup hnd2, Finset.card_range, List.length_map] at this
  exact this

/-- Without a foreign owner of the buffer pushbuf_kref does not flush and
always returns. -/
theorem pushbuf_kref_total (c : Consts) (s : State) (p bo flags : Nat)
    (h : s.kpush bo = none ∨ s.kpush bo = some p) :
    pushbuf_kref c s p bo flags = .ok (kref_insert c s p bo flags) := by
  unfold pushbuf_kref kref_flush_other cli_push_get
  rcases h with h | h <;> simp [h]

/-- The insertion loop on a state where table and records agree. -/
theorem kref_loop_spec (c : Consts) (p : Nat) : ∀ (l : List (Nat × Nat)) (s s1 : State) (r : Int),
    WF s → kref_loop c p s l = .ok (s1, r) →
    WF s1 ∧ (Bound c s → Bound c s1) ∧ (r = 0 ∨ r = -(c.ENOSPC : Int)) ∧
    (s.push p).krec.nr_buffer ≤ (s1.push p).krec.nr_buffer ∧
    (∀ b i, s.kref b = some ⟨p, i⟩ → s1.kref b = some ⟨p, i⟩) ∧
    (∀ b f, refFlags s p b = some f →
      ∃ mr mw, refFlags s1 p b = some (f.1 ||| mr, f.2 ||| mw)) ∧
    (∀ b, s1.kpush b = s.kpush b ∨ s1.kpush b = none ∨ s1.kpush b = some p) ∧
    (c.ENOSPC ≠ 0 → r = 0 → ∀ x ∈ l, ∃ i, s1.kref x.1 = some ⟨p, i⟩) := by
  intro l
  induction l with
  | nil =>
    intro s s1 r hw h
    simp only [kref_loop, Except.ok.injEq, Prod.mk.injEq] at h
    obtain ⟨rfl, rfl⟩ := h
    exact ⟨hw, id, Or.inl rfl, le_refl _, fun _ _ h => h, fun b f hf => ⟨0, 0, by simpa using hf⟩,
      fun _ => Or.inl rfl, fun _ _ x hx => by simp at hx⟩
  | cons x xs ih =>
    intro s s1 r hw h
    unfold kref_loop at h
    split at h
    · simp at h
    · rename_i s2 hk
      simp only [Except.ok.injEq, Prod.mk.injEq] at h
      obtain ⟨rfl, rfl⟩ := h
      obtain ⟨k1, k2, k3, _, k5, k6⟩ := pushbuf_kref_spec hw hk
      obtain ⟨e1, e2, e3, _⟩ := k3 rfl
      refine ⟨k1, k2, Or.inr rfl, by rw [e3], k6, fun b f hf => ⟨0, 0, ?_⟩, k5, fun hE hr => ?_⟩
      · rw [refFlags_of_own_eq (e2 b)]; simpa using hf
      · exfalso
        have : (c.ENOSPC : Int) = 0 := by omega
        exact hE (by exact_mod_cast this)
    · rename_i s2 k hk
      obtain ⟨k1, k2, _, k4, k5, k6⟩ := pushbuf_kref_spec hw hk
      obtain ⟨⟨i, hi⟩, e2, e3, e4⟩ := k4 (by simp)
      obtain ⟨j1, j2, j3, j4, j5, j6, j7, j8⟩ := ih s2 s1 r k1 h
      refine ⟨j1, fun hb => j2 (k2 hb), j3, ?_, fun b i hb => j5 b i (k6 b i hb), fun b f hf => ?_,
        fun b => ?_, fun hE hr y hy => ?_⟩
      · rw [e4] at j4; omega
      · have h2 : ∃ mr mw, refFlags s2 p b = some (f.1 ||| mr, f.2 ||| mw) := by
          rw [e2]
          by_cases hb : b = x.1
          · subst hb
            rw [if_pos rfl, hf]
            exact ⟨domains_rd c x.2, domains_wr c x.2, rfl⟩
          · rw [if_neg hb, hf]
            exact ⟨0, 0, by simp⟩
        obtain ⟨mr, mw, h2⟩ := h2
        obtain ⟨mr2, mw2, h3⟩ := j6 b _ h2
        exact ⟨mr ||| mr2, mw ||| mw2, by rw [h3]; simp [Nat.or_assoc]⟩
      · rcases j7 b with e | e | e
        · rcases k5 b with g | g | g
          · exact Or.inl (e.trans g)
          · exact Or.inr (Or.inl (e.trans g))
          · exact Or.inr (Or.inr (e.trans g))
        · exact Or.inr (Or.inl e)
        · exact Or.inr (Or.inr e)
      · rcases List.mem_cons.mp hy with rfl | hy2
        · have hr2 : refFlags s2 p y.1 ≠ none := by rw [e2, if_pos rfl]; simp
          unfold refFlags at hr2
          cases ho : own s2 p y.1 with
          | none => rw [ho] at hr2; simp at hr2
          | some v =>
            obtain ⟨i2, hi2, _⟩ := own_some_iff.mp ho
            exact ⟨i2, j5 _ _ hi2⟩
        · exact j8 hE hr y hy2

theorem refn_fail_fold (p sref : Nat) (l : List Nat) : ∀ (s : State),
    (l.foldl (refn_fail_step p sref) s).push = s.push ∧
    ∀ bo, ((l.foldl (refn_fail_step p sref) s).kref bo
        = if ∃ j ∈ l, ((s.push p).krec.buffer (sref + j)).bo = bo then none else s.kref bo) ∧
      ((l.foldl (refn_fail_step p sref) s).kpush bo
        = if ∃ j ∈ l, ((s.push p).krec.buffer (sref + j)).bo = bo then none else s.kpush bo) := by
  have hstep : ∀ (st : State) (j : Nat), (refn_fail_step p sref st j).push = st.push ∧
      ∀ bo, ((refn_fail_step p sref st j).kref bo
          = if ((st.push p).krec.buffer (sref + j)).bo = bo then none else st.kref bo) ∧
        ((refn_fail_step p sref st j).kpush bo
          = if ((st.push p).krec.buffer (sref + j)).bo = bo then none else st.kpush bo) := by
    intro st j
    refine ⟨rfl, fun bo => ?_⟩
    simp [refn_fail_step, cli_kref_set, bo_unref, Function.update_apply, eq_comm]
  induction l with
  | nil => intro s; simp
  | cons x xs ih =>
    intro s
    rw [List.foldl_cons]
    obtain ⟨h1, h2⟩ := ih (refn_fail_step p sref s x)
    obtain ⟨g1, g2⟩ := hstep s x
    refine ⟨by rw [h1, g1], fun bo => ?_⟩
    obtain ⟨h3, h4⟩ := h2 bo
    obtain ⟨g3, g4⟩ := g2 bo
    rw [h3, h4, g1, g3, g4]
    by_cases hx : ((s.push p).krec.buffer (sref + x)).bo = bo
    · simp [hx]
    · simp [hx]

/-- The function pushbuf_refn_fail on a state where table and records agree:
the record of `p` is cut back to `sref` references, the buffers of the
references cut off lose their table entry, and table and records still agree. -/
theorem refn_fail_spec (s : State) (p sref : Nat) (hw : WF s)
    (hle : sref ≤ (s.push p).krec.nr_buffer) :
    WF (pushbuf_refn_fail s p sref) ∧
    ((pushbuf_refn_fail s p sref).push p).krec.nr_buffer = sref ∧
    ((pushbuf_refn_fail s p sref).push p).krec.buffer = (s.push p).krec.buffer ∧
    (∀ q, q ≠ p → (pushbuf_refn_fail s p sref).push q = s.push q) ∧
    (∀ b i, i < sref → s.kref b = some ⟨p, i⟩ → (pushbuf_refn_fail s p sref).kref b = some ⟨p, i⟩) ∧
    (∀ b, (pushbuf_refn_fail s p sref).kpush b = s.kpush b ∨
      (pushbuf_refn_fail s p sref).kpush b = none) := by
  obtain ⟨f1, f2⟩ := refn_fail_fold p sref (List.range ((s.push p).krec.nr_buffer - sref)) s
  have hin : ∀ b, (∃ j ∈ List.range ((s.push p).krec.nr_buffer - sref),
      ((s.push p).krec.buffer (sref + j)).bo = b)
      ↔ ∃ i, sref ≤ i ∧ i < (s.push p).krec.nr_buffer ∧ ((s.push p).krec.buffer i).bo = b := by
    intro b
    constructor
    · rintro ⟨j, hj, e⟩
      rw [List.mem_range] at hj
      exact ⟨sref + j, by omega, by omega, e⟩
    · rintro ⟨i, h1, h2, e⟩
      refine ⟨i - sref, List.mem_range.mpr (by omega), ?_⟩
      rw [show sref + (i - sref) = i by omega]; exact e
  have hk0 : ∀ b, (pushbuf_refn_fail s p sref).kref b
      = (List.foldl (refn_fail_step p sref) s
          (List.range ((s.push p).krec.nr_buffer - sref))).kref b := fun _ => rfl
  have hp0 : ∀ b, (pushbuf_refn_fail s p sref).kpush b
      = (List.foldl (refn_fail_step p sref) s
          (List.range ((s.push p).krec.nr_buffer - sref))).kpush b := fun _ => rfl
  have hkref1 : ∀ b, (∃ i, sref ≤ i ∧ i < (s.push p).krec.nr_buffer ∧
      ((s.push p).krec.buffer i).bo = b) → (pushbuf_refn_fail s p sref).kref b = none := by
    intro b hc
    rw [hk0, (f2 b).1, if_pos ((hin b).mpr hc)]
  have hkref2 : ∀ b, ¬ (∃ i, sref ≤ i ∧ i < (s.push p).krec.nr_buffer ∧
      ((s.push p).krec.buffer i).bo = b) → (pushbuf_refn_fail s p sref).kref b = s.kref b := by
    intro b hc
    rw [hk0, (f2 b).1, if_neg (fun h => hc ((hin b).mp h))]
  have hkpush1 : ∀ b, (∃ i, sref ≤ i ∧ i < (s.push p).krec.nr_buffer ∧
      ((s.push p).krec.buffer i).bo = b) → (pushbuf_refn_fail s p sref).kpush b = none := by
    intro b hc
    rw [hp0, (f2 b).2, if_pos ((hin b).mpr hc)]
  have hkpush2 : ∀ b, ¬ (∃ i, sref ≤ i ∧ i < (s.push p).krec.nr_buffer ∧
      ((s.push p).krec.buffer i).bo = b) → (pushbuf_refn_fail s p sref).kpush b = s.kpush b := by
    intro b hc
    rw [hp0, (f2 b).2, if_neg (fun h => hc ((hin b).mp h))]
  have hpush : ∀ q, q ≠ p → (pushbuf_refn_fail s p sref).push q = s.push q := by
    intro q hq
    simp [pushbuf_refn_fail, setKrec, setPush, Function.update_apply, hq, f1]
  have hnr : ((pushbuf_refn_fail s p sref).push p).krec.nr_buffer = sref := by
    simp [pushbuf_refn_fail, setKrec, setPush]
  have hbuf : ((pushbuf_refn_fail s p sref).push p).krec.buffer = (s.push p).krec.buffer := by
    simp [pushbuf_refn_fail, setKrec, setPush, f1]
  refine ⟨⟨fun b k hb => ?_, fun q i hi => ?_⟩, hnr, hbuf, hpush, fun b i hi hb => ?_, fun b => ?_⟩
  · by_cases hc : ∃ i, sref ≤ i ∧ i < (s.push p).krec.nr_buffer ∧ ((s.push p).krec.buffer i).bo = b
    · rw [hkref1 b hc] at hb; simp at hb
    · rw [hkref2 b hc] at hb
      obtain ⟨a1, a2, a3⟩ := hw.1 b k hb
      rw [hkpush2 b hc]
      by_cases hkp : k.push = p
      · rw [hkp] at a1 a2 ⊢
        rw [hnr, hbuf]
        refine ⟨?_, a2, by rw [a3, hkp]⟩
        by_contra hge
        exact hc ⟨k.idx, by omega, a1, a2⟩
      · rw [hpush _ hkp]; exact ⟨a1, a2, a3⟩
  · by_cases hq : q = p
    · subst hq
      rw [hnr] at hi
      rw [hbuf]
      have h0 := hw.2 q i (by omega)
      by_cases hc : ∃ j, sref ≤ j ∧ j < (s.push q).krec.nr_buffer ∧
          ((s.push q).krec.buffer j).bo = ((s.push q).krec.buffer i).bo
      · obtain ⟨j, j1, j2, j3⟩ := hc
        have := hw.2 q j j2
        rw [j3, h0] at this
        simp only [Option.some.injEq, KrefPtr.mk.injEq, true_and] at this
        omega
      · rw [hkref2 _ hc]; exact h0
    · rw [hpush _ hq] at hi ⊢
      have h0 := hw.2 q i hi
      by_cases hc : ∃ j, sref ≤ j ∧ j < (s.push p).krec.nr_buffer ∧
          ((s.push p).krec.buffer j).bo = ((s.push q).krec.buffer i).bo
      · obtain ⟨j, j1, j2, j3⟩ := hc
        have := hw.2 p j j2
        rw [j3, h0] at this
        simp only [Option.some.injEq, KrefPtr.mk.injEq] at this
        exact absurd this.1 hq
      · rw [hkref2 _ hc]; exact h0
  · by_cases hc : ∃ j, sref ≤ j ∧ j < (s.push p).krec.nr_buffer ∧ ((s.push p).krec.buffer j).bo = b
    · obtain ⟨j, j1, j2, j3⟩ := hc
      have := hw.2 p j j2
      rw [j3, hb] at this
      simp only [Option.some.injEq, KrefPtr.mk.injEq, true_and] at this
      omega
    · rw [hkref2 _ hc]; exact hb
  · by_cases hc : ∃ j, sref ≤ j ∧ j < (s.push p).krec.nr_buffer ∧ ((s.push p).krec.buffer j).bo = b
    · exact Or.inr (hkpush1 b hc)
    · exact Or.inl (hkpush2 b hc)

theorem kref_insert_kpush (c : Consts) (s : State) (p bo flags : Nat) (b : Nat) :
    (kref_insert c s p bo flags).1.kpush b = s.kpush b ∨
    (kref_insert c s p bo flags).1.kpush b = some p := by
  unfold kref_insert
  simp only
  split
  · exact Or.inl rfl
  · split
    · exact Or.inl rfl
    · by_cases hb : b = bo
      · right; simp [bo_incref, cli_kref_set, setKrec, setPush, hb]
      · left; simp [bo_incref, cli_kref_set, setKrec, setPush, Function.update_apply, hb]

/-- When no buffer of the list is owned by another pushbuf, the insertion loop
flushes nothing and returns. -/
theorem kref_loop_total (c : Consts) (p : Nat) : ∀ (l : List (Nat × Nat)) (s : State),
    (∀ x ∈ l, s.kpush x.1 = none ∨ s.kpush x.1 = some p) →
    ∃ s1 r, kref_loop c p s l = .ok (s1, r) := by
  intro l
  induction l with
  | nil => intro s _; exact ⟨s, 0, rfl⟩
  | cons x xs ih =>
    intro s h
    unfold kref_loop
    rw [pushbuf_kref_total c s p x.1 x.2 (h x (List.mem_cons_self _ _))]
    cases hres : kref_insert c s p x.1 x.2 with
    | mk s2 k =>
      cases k with
      | none => exact ⟨s2, _, rfl⟩
      | some k =>
        simp only
        apply ih
        intro y hy
        have := kref_insert_kpush c s p x.1 x.2 y.1
        rw [hres] at this
        simp only at this
        rcases this with e | e
        · rw [e]; exact h y (List.mem_cons_of_mem _ hy)
        · exact Or.inr e

theorem pushbuf_refn_false (c : Consts) (fuel : Nat) (s : State) (p : Nat)
    (refs : List struct_nouveau_pushbuf_refn) :
    pushbuf_refn c fuel s p false refs = pushbuf_refn_pass c s p refs := by
  unfold pushbuf_refn pushbuf_refn_pass
  simp

/-- With retry disabled and no buffer of the array owned by another pushbuf,
pushbuf_refn returns. -/
theorem pushbuf_refn_pass_total (c : Consts) (fuel : Nat) (s : State) (p : Nat)
    (refs : List struct_nouveau_pushbuf_refn)
    (hno : ∀ r ∈ refs, s.kpush r.bo = none ∨ s.kpush r.bo = some p) :
    ∃ s1 ret, pushbuf_refn c fuel s p false refs = .ok (s1, ret) := by
  rw [pushbuf_refn_false]
  unfold pushbuf_refn_pass
  obtain ⟨s2, r, h⟩ := kref_loop_total c p (refs.map (fun r => (r.bo, r.flags))) s (by
    intro x hx
    rw [List.mem_map] at hx
    obtain ⟨r, hr, rfl⟩ := hx
    exact hno r hr)
  simp only [h]
  split
  · exact ⟨_, _, rfl⟩
  · exact ⟨_, _, rfl⟩

/-- C4 (amended): on a state where ownership table and records agree,
pushbuf_refn with retry disabled returns whenever no buffer of the array is
owned by another pushbuf, and whenever it returns it either returns 0 with
every buffer of the array referenced in the current record, or returns -ENOSPC
with nr_buffer as before the call and every reference that existed before the
call still in its slot, for the same buffer, with the same table entry and
owner.  The domain flags of such a reference keep every bit they had; bits
requested by the failed batch stay OR-ed in. -/
theorem C4_batch_insertion (c : Consts) (fuel : Nat) (s : State) (p : Nat)
    (refs : List struct_nouveau_pushbuf_refn) (hw : WF s) (hE : c.ENOSPC ≠ 0) :
    ((∀ r ∈ refs, s.kpush r.bo = none ∨ s.kpush r.bo = some p) →
      ∃ s1 ret, pushbuf_refn c fuel s p false refs = .ok (s1, ret)) ∧
    ∀ s1 ret, pushbuf_refn c fuel s p false refs = .ok (s1, ret) →
      (ret = 0 ∧ ∀ r ∈ refs, ∃ i, cli_kref_get s1 r.bo = some ⟨p, i⟩ ∧
        i < (s1.push p).krec.nr_buffer ∧ ((s1.push p).krec.buffer i).bo = r.bo ∧
        cli_push_get s1 r.bo = some p) ∨
      (ret = -(c.ENOSPC : Int) ∧
        (s1.push p).krec.nr_buffer = (s.push p).krec.nr_buffer ∧
        ∀ i, i < (s.push p).krec.nr_buffer →
          cli_kref_get s1 ((s.push p).krec.buffer i).bo = some ⟨p, i⟩ ∧
          cli_push_get s1 ((s.push p).krec.buffer i).bo = some p ∧
          ((s1.push p).krec.buffer i).bo = ((s.push p).krec.buffer i).bo ∧
          ∃ mr mw,
            ((s1.push p).krec.buffer i).read_domains
              = ((s.push p).krec.buffer i).read_domains ||| mr ∧
            ((s1.push p).krec.buffer i).write_domains
              = ((s.push p).krec.buffer i).write_domains ||| mw) := by
  refine ⟨fun hno => pushbuf_refn_pass_total c fuel s p refs hno, fun s1 ret hrun => ?_⟩
  · rw [pushbuf_refn_false] at hrun
    unfold pushbuf_refn_pass at hrun
    simp only at hrun
    split at hrun
    · simp at hrun
    · rename_i s2 r hl
      obtain ⟨l1, _, l3, l4, l5, l6, _, l8⟩ := kref_loop_spec c p _ s s2 r hw hl
      split at hrun
      · rename_i hr
        simp only [Except.ok.injEq, Prod.mk.injEq] at hrun
        obtain ⟨rfl, rfl⟩ := hrun
        right
        obtain ⟨f1, f2, f3, _, f5, _⟩ := refn_fail_spec s2 p (s.push p).krec.nr_buffer l1 l4
        refine ⟨by rcases l3 with e | e; exact absurd e hr; exact e, f2, fun i hi => ?_⟩
        have hk := hw.2 p i hi
        have hk2 := l5 _ _ hk
        have hk3 := f5 _ i hi hk2
        obtain ⟨w1, w2, w3⟩ := f1.1 _ _ hk3
        simp only at w1 w2 w3
        refine ⟨hk3, w3, w2, ?_⟩
        have ho : refFlags s p ((s.push p).krec.buffer i).bo
            = some (((s.push p).krec.buffer i).read_domains,
                ((s.push p).krec.buffer i).write_domains) := by
          unfold refFlags
          rw [own_some_iff.mpr ⟨i, hk, rfl⟩]; rfl
        obtain ⟨mr, mw, hf⟩ := l6 _ _ ho
        have ho2 : own s2 p ((s.push p).krec.buffer i).bo = some ((s2.push p).krec.buffer i) :=
          own_some_iff.mpr ⟨i, hk2, rfl⟩
        unfold refFlags at hf
        rw [ho2] at hf
        simp only [Option.map_some', Option.some.injEq, Prod.mk.injEq] at hf
        rw [f3]
        exact ⟨mr, mw, hf.1, hf.2⟩
      · rename_i hr
        have hr0 : r = 0 := by simpa using hr
        simp only [Except.ok.injEq, Prod.mk.injEq] at hrun
        obtain ⟨rfl, rfl⟩ := hrun
        left
        refine ⟨hr0, fun x hx => ?_⟩
        obtain ⟨i, hi⟩ := l8 hE hr0 (x.bo, x.flags) (List.mem_map.mpr ⟨x, hx, rfl⟩)
        obtain ⟨w1, w2, w3⟩ := l1.1 _ _ hi
        exact ⟨i, hi, w1, w2, w3⟩

/-! ## The invariant through space reservation and validation -/

theorem sameRefs_inv {c : Consts} {s s1 : State} (h : SameRefs s s1) (hi : Inv c s) : Inv c s1 :=
  ⟨sameRefs_WF h hi.1, sameRefs_bound h hi.2⟩

theorem sameRefs_bo_incref (s : State) (b : Nat) : SameRefs s (bo_incref s b) :=
  ⟨rfl, rfl, fun _ => ⟨rfl, rfl⟩⟩

theorem sameRefs_bo_unref (s : State) (b : Nat) : SameRefs s (bo_unref s b) :=
  ⟨rfl, rfl, fun _ => ⟨rfl, rfl⟩⟩

theorem sameRefs_bo_new (s : State) (size : Nat) : SameRefs s (nouveau_bo_new s size).1 := by
  unfold nouveau_bo_new
  simp only
  split <;> exact ⟨rfl, rfl, fun _ => ⟨rfl, rfl⟩⟩

theorem sameRefs_space_select (s : State) (p dwords : Nat) :
    SameRefs s (space_select s p dwords).1 := by
  unfold space_select
  simp only
  split
  · split
    · exact sameRefs_trans (sameRefs_bo_incref _ _) (sameRefs_setPush _ _ _ rfl rfl)
    · split <;> exact sameRefs_bo_new _ _
  · exact sameRefs_refl s

theorem sameRefs_bo_ref_current (s : State) (p b : Nat) : SameRefs s (bo_ref_current s p b) := by
  unfold bo_ref_current
  simp only
  refine sameRefs_trans (sameRefs_bo_incref s b) (sameRefs_trans ?_ (sameRefs_setPush _ _ _ rfl rfl))
  split
  · exact sameRefs_bo_unref _ _
  · exact sameRefs_refl _

theorem sameRefs_space_switch {s s1 : State} {p : Nat} {bo : Option Nat} {r : Int}
    (h : space_switch s p bo = .ok (s1, r)) : SameRefs s s1 := by
  unfold space_switch at h
  cases bo with
  | none =>
    simp only [Except.ok.injEq, Prod.mk.injEq] at h
    rw [← h.1]; exact sameRefs_refl s
  | some b =>
    simp only at h
    have hm : SameRefs s (nouveau_bo_map s).1 := ⟨rfl, rfl, fun _ => ⟨rfl, rfl⟩⟩
    split at h
    · simp only [Except.ok.injEq, Prod.mk.injEq] at h
      rw [← h.1]; exact hm
    · split at h
      · simp at h
      · rename_i s4 hd
        simp only [Except.ok.injEq, Prod.mk.injEq] at h
        rw [← h.1]
        have h4 := sameRefs_of_submitFrame (nouveau_pushbuf_data_frame hd)
        have h5 := sameRefs_bo_ref_current s4 p b
        have h6 := sameRefs_bo_unref (bo_ref_current s4 p b) b
        exact sameRefs_trans (sameRefs_trans (sameRefs_trans (sameRefs_trans hm h4) h5) h6)
          (sameRefs_setPush _ _ _ rfl rfl)

theorem sameRefs_bufctx (s : State) (bc : Nat → nouveau_bufctx) :
    SameRefs s { s with bufctx := bc } := ⟨rfl, rfl, fun _ => ⟨rfl, rfl⟩⟩

theorem inv_kref {c : Consts} {s s1 : State} {p bo flags : Nat} {res : Option KrefPtr}
    (hi : Inv c s) (h : pushbuf_kref c s p bo flags = .ok (s1, res)) : Inv c s1 :=
  ⟨(pushbuf_kref_spec hi.1 h).1, (pushbuf_kref_spec hi.1 h).2.1 hi.2⟩

theorem inv_flush {c : Consts} {s s1 : State} {p : Nat} {r : Int}
    (hi : Inv c s) (h : pushbuf_flush c s p = .ok (s1, r)) : Inv c s1 :=
  ⟨flush_WF hi.1 h, flush_bound hi.2 h⟩

theorem inv_refn_fail {c : Consts} {s : State} {p sref : Nat} (hi : Inv c s)
    (hle : sref ≤ (s.push p).krec.nr_buffer) : Inv c (pushbuf_refn_fail s p sref) := by
  obtain ⟨f1, f2, _, f4, _, _⟩ := refn_fail_spec s p sref hi.1 hle
  refine ⟨f1, fun q => ?_⟩
  by_cases hq : q = p
  · subst hq; rw [f2]; exact le_trans hle (hi.2 q)
  · rw [f4 q hq]; exact hi.2 q

theorem inv_space_cond {c : Consts} {s s1 : State} {p : Nat} {bo : Option Nat} {pushes : Nat}
    {fl : Bool} (hi : Inv c s) (h : space_cond c s p bo pushes = .ok (s1, fl)) : Inv c s1 := by
  unfold space_cond at h
  simp only at h
  split at h
  · simp only [Except.ok.injEq, Prod.mk.injEq] at h
    rw [← h.1]; exact hi
  · split at h
    · simp only [Except.ok.injEq, Prod.mk.injEq] at h
      rw [← h.1]; exact hi
    · split at h
      · simp at h
      · rename_i s2 hk
        simp only [Except.ok.injEq, Prod.mk.injEq] at h
        rw [← h.1]; exact inv_kref hi hk
      · rename_i s2 k hk
        simp only [Except.ok.injEq, Prod.mk.injEq] at h
        rw [← h.1]; exact inv_kref hi hk

theorem inv_space_flush {c : Consts} {s s1 : State} {p : Nat} {fl : Bool}
    (hi : Inv c s) (h : space_flush c s p fl = .ok s1) : Inv c s1 := by
  unfold space_flush at h
  split at h
  · split at h
    · simp at h
    · rename_i s3 r hf
      simp only [Except.ok.injEq] at h
      rw [← h]; exact inv_flush hi hf
  · simp only [Except.ok.injEq] at h
    rw [← h]; exact hi

theorem sameRefs_bctx_move (s : State) (p b : Nat) : SameRefs s (bctx_move s p b) := by
  refine ⟨rfl, rfl, fun q => ?_⟩
  unfold bctx_move setPush
  by_cases hq : q = p
  · subst hq; simp
  · simp [Function.update_noteq hq]

theorem inv_validate_insert {c : Consts} {s s1 : State} {p b : Nat} {r : Int}
    (hi : Inv c s) (h : validate_insert c s p b = .ok (s1, r)) : Inv c s1 := by
  unfold validate_insert at h
  simp only at h
  split at h
  · simp at h
  · rename_i s3 ret hl
    have hm := sameRefs_bctx_move s p b
    have i2 := sameRefs_inv hm hi
    obtain ⟨l1, l2, _, l4, _⟩ := kref_loop_spec c p _ _ s3 ret i2.1 hl
    have i3 : Inv c s3 := ⟨l1, l2 i2.2⟩
    have i4 := fun bc => sameRefs_inv (sameRefs_bufctx s3 bc) i3
    split at h
    · simp only [Except.ok.injEq, Prod.mk.injEq] at h
      rw [← h.1]
      apply inv_refn_fail (i4 _)
      have : (s.push p).krec.nr_buffer = ((bctx_move s p b).push p).krec.nr_buffer :=
        ((hm.2.2 p).2).symm
      rw [this]
      exact l4
    · simp only [Except.ok.injEq, Prod.mk.injEq] at h
      rw [← h.1]
      exact i4 _

theorem inv_validate_pass (c : Consts)
    (space : State → Nat → Nat → Nat → Nat → Except Err (State × Int)) (p : Nat)
    (hsp : ∀ s s1 dw rl pu r, Inv c s → space s p dw rl pu = .ok (s1, r) → Inv c s1)
    {s s1 : State} {ret : Int} {failed : Bool} (hi : Inv c s)
    (h : validate_pass c space s p = .ok (s1, ret, failed)) : Inv c s1 := by
  unfold validate_pass at h
  simp only at h
  split at h
  · simp at h
  · rename_i sA retA hA
    have iA := hsp _ _ _ _ _ _ hi hA
    split at h
    · simp only [Except.ok.injEq, Prod.mk.injEq] at h
      rw [← h.1]; exact iA
    · split at h
      · simp only [Except.ok.injEq, Prod.mk.injEq] at h
        rw [← h.1]; exact iA
      · split at h
        · simp at h
        · rename_i s2 ret2 hins
          simp only [Except.ok.injEq, Prod.mk.injEq] at h
          rw [← h.1]; exact inv_validate_insert iA hins

theorem inv_validate_with (c : Consts)
    (space : State → Nat → Nat → Nat → Nat → Except Err (State × Int)) (p : Nat)
    (hsp : ∀ s s1 dw rl pu r, Inv c s → space s p dw rl pu = .ok (s1, r) → Inv c s1)
    {s s1 : State} {retry : Bool} {ret : Int} (hi : Inv c s)
    (h : pushbuf_validate_with c space s p retry = .ok (s1, ret)) : Inv c s1 := by
  unfold pushbuf_validate_with at h
  split at h
  · simp at h
  · rename_i sP r failed hP
    have iP := inv_validate_pass c space p hsp hi hP
    split at h
    · split at h
      · simp at h
      · rename_i s2 r2 hf
        have i2 := inv_flush iP hf
        split at h
        · simp at h
        · rename_i s3 ret3 f3 hP2
          simp only [Except.ok.injEq, Prod.mk.injEq] at h
          rw [← h.1]
          exact inv_validate_pass c space p hsp i2 hP2
    · simp only [Except.ok.injEq, Prod.mk.injEq] at h
      rw [← h.1]; exact iP

/-- The function nouveau_pushbuf_space keeps the invariant of the reference
tracker. -/
theorem inv_space (c : Consts) : ∀ (fuel : Nat) (s s1 : State) (p dwords relocs pushes : Nat)
    (r : Int), Inv c s → nouveau_pushbuf_space c fuel s p dwords relocs pushes = .ok (s1, r) →
    Inv c s1 := by
  intro fuel
  induction fuel with
  | zero => intro s s1 p dwords relocs pushes r _ h; simp [nouveau_pushbuf_space] at h
  | succ n ih =>
    intro s s1 p dwords relocs pushes r hi h
    unfold nouveau_pushbuf_space at h
    simp only at h
    have isel := sameRefs_inv (sameRefs_space_select s p dwords) hi
    split at h
    · simp only [Except.ok.injEq, Prod.mk.injEq] at h
      rw [← h.1]; exact isel
    · split at h
      · simp at h
      · rename_i s2 flushed hc
        have ic := inv_space_cond isel hc
        split at h
        · simp at h
        · rename_i s3 hf
          have jf := inv_space_flush ic hf
          split at h
          · simp at h
          · rename_i s8 ret hsw
            have i8 := sameRefs_inv (sameRefs_space_switch hsw) jf
            split at h
            · simp only [Except.ok.injEq, Prod.mk.injEq] at h
              rw [← h.1]; exact i8
            · split at h
              · simp at h
              · rename_i cur_bo hcb
                split at h
                · simp at h
                · rename_i s9 k hk
                  have i9 := inv_kref i8 hk
                  split at h
                  · exact inv_validate_with c _ p
                      (fun t t1 dw rl pu r2 ht hs => ih t t1 p dw rl pu r2 ht hs) i9 h
                  · simp only [Except.ok.injEq, Prod.mk.injEq] at h
                    rw [← h.1]; exact i9

/-- The insertion loop cannot run to its end over more distinct buffers than a
record holds. -/
theorem kref_loop_overfull {c : Consts} {p : Nat} {s s2 : State} {r : Int}
    {refs : List struct_nouveau_pushbuf_refn} {L : List Nat}
    (hi : Inv c s) (hE : c.ENOSPC ≠ 0) (hnd : L.Nodup) (hL : ∀ b ∈ L, ∃ x ∈ refs, x.bo = b)
    (hlen : c.NOUVEAU_GEM_MAX_BUFFERS < L.length)
    (hl : kref_loop c p s (refs.map (fun x => (x.bo, x.flags))) = .ok (s2, r)) :
    r = -(c.ENOSPC : Int) ∧ r ≠ 0 ∧ Inv c s2 ∧
    (s.push p).krec.nr_buffer ≤ (s2.push p).krec.nr_buffer := by
  obtain ⟨l1, l2, l3, l4, _, _, _, l8⟩ := kref_loop_spec c p _ s s2 r hi.1 hl
  have hne : r ≠ 0 := by
    intro hr
    have hown : ∀ b ∈ L, ∃ i, s2.kref b = some ⟨p, i⟩ := by
      intro b hb
      obtain ⟨x, hx, rfl⟩ := hL b hb
      exact l8 hE hr (x.bo, x.flags) (List.mem_map.mpr ⟨x, hx, rfl⟩)
    have h1 := owned_length_le l1 L hnd hown
    have h2 := l2 hi.2 p
    omega
  refine ⟨?_, hne, ⟨l1, l2 hi.2⟩, l4⟩
  rcases l3 with e | e
  · exact absurd e hne
  · exact e

/-- With retry disabled, a batch over capacity returns -ENOSPC and leaves the
count of references as it was. -/
theorem refn_pass_overfull {c : Consts} {p : Nat} {t t1 : State} {ret : Int}
    {refs : List struct_nouveau_pushbuf_refn} {L : List Nat}
    (ht : Inv c t) (hE : c.ENOSPC ≠ 0) (hnd : L.Nodup) (hL : ∀ b ∈ L, ∃ x ∈ refs, x.bo = b)
    (hlen : c.NOUVEAU_GEM_MAX_BUFFERS < L.length)
    (h : pushbuf_refn_pass c t p refs = .ok (t1, ret)) :
    ret = -(c.ENOSPC : Int) ∧ (t1.push p).krec.nr_buffer = (t.push p).krec.nr_buffer := by
  unfold pushbuf_refn_pass at h
  simp only at h
  split at h
  · simp at h
  · rename_i s2 r hl
    obtain ⟨o1, o2, _, _⟩ := kref_loop_overfull ht hE hnd hL hlen hl
    rw [if_pos o2] at h
    simp only [Except.ok.injEq, Prod.mk.injEq] at h
    obtain ⟨rfl, rfl⟩ := h
    exact ⟨o1, by simp [pushbuf_refn_fail, setKrec, setPush]⟩

/-! ## Concrete states satisfy the invariant -/

theorem stRec_push (n q : Nat) (hq : q ≠ 0) : (stRec n).push q = push0 q [] := by
  simp [stRec, st0, Function.update_apply, hq]

theorem stRec_WF (n : Nat) : WF (stRec n) := by
  refine ⟨fun bo k hk => ?_, fun q i hi => ?_⟩
  · simp only [stRec] at hk
    by_cases h10 : bo = 10
    · subst h10
      simp only [if_true, Option.some.injEq] at hk
      subst hk
      simp [stRec]
    · rw [if_neg h10] at hk
      by_cases hr : 2001 ≤ bo ∧ bo < 2001 + n
      · rw [if_pos hr] at hk
        simp only [Option.some.injEq] at hk
        subst hk
        have h1 : bo - 2000 ≠ 0 := by omega
        simp only [stRec, Function.update_same, h1, if_false, h10, false_or, hr, and_self, if_true,
          and_true]
        omega
      · rw [if_neg hr] at hk; simp at hk
  · by_cases hq : q = 0
    · subst hq
      simp only [stRec, Function.update_same] at hi ⊢
      by_cases h0 : i = 0
      · subst h0; simp
      · have h1 : 2000 + i ≠ 10 := by omega
        have h2 : 2001 ≤ 2000 + i ∧ 2000 + i < 2001 + n := by omega
        simp [h0, h1, h2]
    · rw [stRec_push n q hq] at hi
      simp [push0, krec0] at hi

theorem stRec_inv (n : Nat) (hn : n + 1 ≤ 1024) : Inv hdr (stRec n) := by
  refine ⟨stRec_WF n, fun q => ?_⟩
  by_cases hq : q = 0
  · subst hq; simp [stRec, hdr]; omega
  · rw [stRec_push n q hq]; simp [push0, krec0]

theorem st0_inv (ks : List Nat) : Inv hdr (st0 ks) := by
  refine ⟨⟨fun bo k hk => ?_, fun q i hi => ?_⟩, fun q => ?_⟩
  · simp [st0] at hk
  · simp [st0, push0, krec0] at hi
  · simp [st0, push0, krec0]

/-! ## A batch over capacity on an immediate pushbuf, with retry -/

theorem pframe_refl (s : State) (p : Nat) : PFrame s s p := rfl

theorem pframe_trans {s s1 s2 : State} {p : Nat} (h1 : PFrame s s1 p) (h2 : PFrame s1 s2 p) :
    PFrame s s2 p := by
  unfold PFrame at h1 h2 ⊢
  rw [h2, h1]

theorem pframe_of_eq {s s1 : State} {p : Nat} (h : s1.push p = s.push p) : PFrame s s1 p := by
  unfold PFrame
  rw [h]

theorem pframe_kref_insert (c : Consts) (s : State) (p bo flags : Nat)
    (hpre : s.kref bo = none ∨ ∃ i, s.kref bo = some ⟨p, i⟩) :
    PFrame s (kref_insert c s p bo flags).1 p := by
  unfold kref_insert
  simp only
  rcases hpre with h | ⟨i, h⟩
  · simp only [cli_kref_get, h]
    split
    · exact pframe_refl s p
    · simp [PFrame, bo_incref, cli_kref_set, setKrec, setPush]
  · simp only [cli_kref_get, h]
    simp [PFrame, storeKref, setKrec, setPush]

theorem pframe_kref {c : Consts} {s s1 : State} {p bo flags : Nat} {res : Option KrefPtr}
    (hw : WF s) (h : pushbuf_kref c s p bo flags = .ok (s1, res)) : PFrame s s1 p := by
  unfold pushbuf_kref at h
  split at h
  · simp at h
  · rename_i sf hf
    simp only [Except.ok.injEq] at h
    obtain ⟨_, _, f3, _, f5, _⟩ := kref_flush_other_spec hw hf
    have := pframe_kref_insert c sf p bo flags f5
    rw [h] at this
    exact pframe_trans (pframe_of_eq f3) this

theorem pframe_kref_loop (c : Consts) (p : Nat) : ∀ (l : List (Nat × Nat)) (s s1 : State) (r : Int),
    WF s → kref_loop c p s l = .ok (s1, r) → PFrame s s1 p := by
  intro l
  induction l with
  | nil =>
    intro s s1 r _ h
    simp only [kref_loop, Except.ok.injEq, Prod.mk.injEq] at h
    rw [← h.1]; exact pframe_refl s p
  | cons x xs ih =>
    intro s s1 r hw h
    unfold kref_loop at h
    split at h
    · simp at h
    · rename_i s2 hk
      simp only [Except.ok.injEq, Prod.mk.injEq] at h
      rw [← h.1]; exact pframe_kref hw hk
    · rename_i s2 k hk
      exact pframe_trans (pframe_kref hw hk) (ih _ _ _ (pushbuf_kref_spec hw hk).1 h)

theorem pframe_refn_fail (s : State) (p sref : Nat) : PFrame s (pushbuf_refn_fail s p sref) p := by
  obtain ⟨f1, _⟩ := refn_fail_fold p sref (List.range ((s.push p).krec.nr_buffer - sref)) s
  simp [PFrame, pushbuf_refn_fail, setKrec, setPush, f1]

/-- A pushbuf with a channel whose command buffer has a reference in its own
record can be flushed. -/
theorem pushbuf_flush_total (c : Consts) (s : State) (p : Nat) (ch : nouveau_object) (b i : Nat)
    (hch : (s.push p).channel = some ch) (hbo : (s.push p).bo = some b)
    (hk : s.kref b = some ⟨p, i⟩) : ∃ s1 r, pushbuf_flush c s p = .ok (s1, r) := by
  have hd : ∃ sd, nouveau_pushbuf_data s p none 0 0 = .ok sd := by
    unfold nouveau_pushbuf_data
    simp only [hbo]
    split
    · simp [push_data_append, cli_kref_get, hk]
    · exact ⟨s, rfl⟩
  obtain ⟨sd, hd⟩ := hd
  have hs : ∃ s1 r, pushbuf_submit c s p (s.push p).channel = .ok (s1, r) := by
    unfold pushbuf_submit
    rw [hch]
    simp only
    split
    · exact ⟨_, _, rfl⟩
    · rw [hd]; exact ⟨_, _, rfl⟩
  obtain ⟨s1, r, hs⟩ := hs
  obtain ⟨s2, h2, _⟩ := pushbuf_flush_spec hs
  exact ⟨s2, r, h2⟩

/-- With room in the current buffer and below the push limit,
nouveau_pushbuf_space only references the current buffer again. -/
theorem space_noswitch (c : Consts) (fuel : Nat) (s : State) (p dwords relocs pushes b : Nat)
    (hroom : (s.push p).cur + (dwords : Int) < (s.push p).end_)
    (hlim : ((s.push p).krec.nr_push + (pushes + 1) % 2 ^ 32) % 2 ^ 32 < c.NOUVEAU_GEM_MAX_PUSH)
    (hbo : (s.push p).bo = some b) (hown : s.kpush b = none ∨ s.kpush b = some p) :
    nouveau_pushbuf_space c (fuel + 1) s p dwords relocs pushes
      = .ok ((kref_insert c s p b (s.push p).flags).1, 0) := by
  have hsel : space_select s p dwords = (s, 0, none) := by
    unfold space_select
    simp only
    rw [if_neg (by omega)]
  have hcond : space_cond c s p none ((pushes + 1) % 2 ^ 32) = .ok (s, false) := by
    unfold space_cond
    simp only [Except.ok.injEq, Prod.mk.injEq, true_and, decide_eq_false_iff_not, ge_iff_le, not_le]
    exact hlim
  unfold nouveau_pushbuf_space
  simp only [hsel, ne_eq, not_true_eq_false, if_false, hcond, space_flush, Bool.false_eq_true,
    false_and, space_switch, hbo, pushbuf_kref_total c s p b _ hown]

/-- A batch over capacity on an immediate pushbuf in its usual state (its
command buffer referenced in its record, room left in it): with retry enabled
nouveau_pushbuf_refn returns -ENOSPC, and the record is left with at most the
one reference of the command buffer that the space reservation between the two
passes puts back. -/
theorem nouveau_pushbuf_refn_overfull (c : Consts) (fuel : Nat) (s : State) (p : Nat)
    (refs : List struct_nouveau_pushbuf_refn) (L : List Nat) (ch : nouveau_object) (b i0 : Nat)
    (hi : Inv c s) (hE : c.ENOSPC ≠ 0) (hnd : L.Nodup) (hL : ∀ b ∈ L, ∃ x ∈ refs, x.bo = b)
    (hlen : c.NOUVEAU_GEM_MAX_BUFFERS < L.length)
    (hno : ∀ x ∈ refs, s.kpush x.bo = none ∨ s.kpush x.bo = some p)
    (hch : (s.push p).channel = some ch) (hbo : (s.push p).bo = some b)
    (hk : s.kref b = some ⟨p, i0⟩) (hroom : (s.push p).cur < (s.push p).end_)
    (hP : 1 < c.NOUVEAU_GEM_MAX_PUSH) :
    ∃ s1, nouveau_pushbuf_refn c (fuel + 1) s p refs = .ok (s1, -(c.ENOSPC : Int)) ∧
      (s1.push p).krec.nr_buffer ≤ 1 := by
  -- first pass
  obtain ⟨s2, r, hl⟩ := kref_loop_total c p (refs.map (fun r => (r.bo, r.flags))) s (by
    intro x hx
    rw [List.mem_map] at hx
    obtain ⟨y, hy, rfl⟩ := hx
    exact hno y hy)
  obtain ⟨o1, o2, o3, o4⟩ := kref_loop_overfull hi hE hnd hL hlen hl
  obtain ⟨_, _, _, _, l5, _, l7, _⟩ := kref_loop_spec c p _ s s2 r hi.1 hl
  have pf2 := pframe_kref_loop c p _ s s2 r hi.1 hl
  -- rollback
  have hi0 : i0 < (s.push p).krec.nr_buffer := (hi.1.1 b _ hk).1
  obtain ⟨f1, f2, f3, _, f5, f6⟩ := refn_fail_spec s2 p (s.push p).krec.nr_buffer o3.1 o4
  have i2 := inv_refn_fail o3 o4
  have pf3 := pframe_trans pf2 (pframe_refn_fail s2 p (s.push p).krec.nr_buffer)
  have hk3 := f5 b i0 hi0 (l5 b i0 hk)
  have hch3 : ((pushbuf_refn_fail s2 p (s.push p).krec.nr_buffer).push p).channel = some ch := by
    rw [pf3]; exact hch
  have hbo3 : ((pushbuf_refn_fail s2 p (s.push p).krec.nr_buffer).push p).bo = some b := by
    rw [pf3]; exact hbo
  -- flush
  obtain ⟨s3, r3, hf⟩ := pushbuf_flush_total c _ p ch b i0 hch3 hbo3 hk3
  have i3 := inv_flush i2 hf
  obtain ⟨_, n1, n2, _, _, k1, k2⟩ := pushbuf_flush_inv hf
  have hin : ∃ i, i < ((pushbuf_refn_fail s2 p (s.push p).krec.nr_buffer).push p).krec.nr_buffer ∧
      (((pushbuf_refn_fail s2 p (s.push p).krec.nr_buffer).push p).krec.buffer i).bo = b :=
    ⟨i0, (f1.1 b _ hk3).1, (f1.1 b _ hk3).2.1⟩
  have hkb : s3.kref b = none := by rw [k1, if_pos hin]
  have hpb : s3.kpush b = none := by rw [k2, if_pos hin]
  have g := geom_flush hf
  obtain ⟨g1, g2, _, g4⟩ := g.1 p
  have hcur : (s3.push p).cur = (s.push p).cur := by rw [g1, pf3]
  have hend : (s3.push p).end_ = (s.push p).end_ := by rw [g2, pf3]
  -- space reservation
  have hsp := space_noswitch c fuel s3 p 0 0 0 b
    (by rw [hcur, hend]; simpa using hroom)
    (by
      rw [n2]
      have : (0 + 1) % 2 ^ 32 = 1 := by norm_num
      simp only [Nat.zero_add]
      norm_num
      exact hP)
    (by rw [g4, hbo3]) (Or.inl hpb)
  obtain ⟨j1, j2, j3, j4, _, _, _⟩ := kref_insert_spec c s3 p b (s3.push p).flags i3.1 (Or.inl hkb)
  have i4 : Inv c (kref_insert c s3 p b (s3.push p).flags).1 := ⟨j1, j2 i3.2⟩
  have hn4 : ((kref_insert c s3 p b (s3.push p).flags).1.push p).krec.nr_buffer ≤ 1 := by
    cases hres : (kref_insert c s3 p b (s3.push p).flags).2 with
    | none => rw [(j3 hres).1, n1]; exact Nat.zero_le _
    | some k =>
      obtain ⟨_, _, _, e⟩ := j4 (by rw [hres]; simp)
      rw [e, n1]
      split <;> simp
  -- second pass
  have hno4 : ∀ x ∈ refs, (kref_insert c s3 p b (s3.push p).flags).1.kpush x.bo = none ∨
      (kref_insert c s3 p b (s3.push p).flags).1.kpush x.bo = some p := by
    intro x hx
    rcases kref_insert_kpush c s3 p b (s3.push p).flags x.bo with e | e
    · rw [e]
      rcases flush_kpush hf x.bo with e2 | e2
      · rw [e2]
        rcases f6 x.bo with e3 | e3
        · rw [e3]
          rcases l7 x.bo with e4 | e4 | e4
          · rw [e4]; exact hno x hx
          · exact Or.inl e4
          · exact Or.inr e4
        · exact Or.inl e3
      · exact Or.inl e2
    · exact Or.inr e
  obtain ⟨s1, ret, h2⟩ := pushbuf_refn_pass_total c (fuel + 1) _ p refs hno4
  have h2p := h2
  rw [pushbuf_refn_false] at h2p
  obtain ⟨e1, e2⟩ := refn_pass_overfull i4 hE hnd hL hlen h2p
  refine ⟨s1, ?_, by rw [e2]; exact hn4⟩
  unfold nouveau_pushbuf_refn pushbuf_refn
  simp only [hl, o2, ne_eq, not_false_eq_true, if_true, hf, hsp]
  rw [h2p, e1]

theorem batch1025_facts :
    ((List.range 1025).map (fun i => 5000 + i)).Nodup ∧
    (∀ b ∈ (List.range 1025).map (fun i => 5000 + i), ∃ x ∈ batch1025, x.bo = b) ∧
    hdr.NOUVEAU_GEM_MAX_BUFFERS < ((List.range 1025).map (fun i => 5000 + i)).length ∧
    ∀ (n : Nat) (x : struct_nouveau_pushbuf_refn), n ≤ 1023 → x ∈ batch1025 →
      (stRec n).kpush x.bo = none ∨ (stRec n).kpush x.bo = some 0 := by
  refine ⟨?_, ?_, ?_, ?_⟩
  · exact (List.nodup_range 1025).map (fun a b h => by simpa using h)
  · intro b hb
    rw [List.mem_map] at hb
    obtain ⟨i, hi, rfl⟩ := hb
    exact ⟨⟨5000 + i, hdr.NOUVEAU_BO_RD⟩, List.mem_map.mpr ⟨i, hi, rfl⟩, rfl⟩
  · simp [hdr]
  · intro n x hn hx
    unfold batch1025 at hx
    rw [List.mem_map] at hx
    obtain ⟨i, _, rfl⟩ := hx
    left
    have h1 : ¬ (5000 + i = 10) := by omega
    have h2 : ¬ (2001 ≤ 5000 + i ∧ 5000 + i < 2001 + n) := by omega
    simp [stRec, h1, h2]

/-- C4 at the state `stRec 1023`, where the record of pushbuf 0 is full, and a
batch of one buffer that is referenced and one that is not: the call returns
-ENOSPC and the count of references is as before. -/
theorem C4_batch_insertion_witness :
    (WF (stRec 1023) ∧ hdr.ENOSPC ≠ 0) ∧
    ∃ s1, pushbuf_refn hdr 0 (stRec 1023) 0 false
        [⟨2001, hdr.NOUVEAU_BO_WR⟩, ⟨5000, hdr.NOUVEAU_BO_RD⟩] = .ok (s1, -28) ∧
      (s1.push 0).krec.nr_buffer = ((stRec 1023).push 0).krec.nr_buffer ∧
      cli_kref_get s1 2001 = some ⟨0, 1⟩ := by
  refine ⟨⟨stRec_WF 1023, by decide⟩, ?_⟩
  have h := (C4_batch_insertion hdr 0 (stRec 1023) 0
    [⟨2001, hdr.NOUVEAU_BO_WR⟩, ⟨5000, hdr.NOUVEAU_BO_RD⟩] (stRec_WF 1023) (by decide)).2
    (stateOf (stRec 1023) (pushbuf_refn hdr 0 (stRec 1023) 0 false
      [⟨2001, hdr.NOUVEAU_BO_WR⟩, ⟨5000, hdr.NOUVEAU_BO_RD⟩])) (-28) rfl
  rcases h with ⟨h0, _⟩ | ⟨_, hn, hall⟩
  · exact absurd h0 (by decide)
  · exact ⟨_, rfl, hn, (hall 1 (by decide)).1⟩

/-- C4 as stated fails: in `stRec 1023` the record of pushbuf 0 is full and
slot 1 holds a read-only reference of object 2001 (write_domains = 0).  The
batch [(2001, WR), (5000, RD)] fails with -ENOSPC on its second buffer, and the
write domain it OR-ed into the reference of object 2001 stays: write_domains
of a reference that existed before the call has changed from 0 to 4. -/
theorem C4_counterexample_flags_changed :
    ((stRec 1023).push 0).krec.nr_buffer = hdr.NOUVEAU_GEM_MAX_BUFFERS ∧
    cli_kref_get (stRec 1023) 2001 = some ⟨0, 1⟩ ∧
    (((stRec 1023).push 0).krec.buffer 1).write_domains = 0 ∧
    ∃ s1, pushbuf_refn hdr 0 (stRec 1023) 0 false
        [⟨2001, hdr.NOUVEAU_BO_WR⟩, ⟨5000, hdr.NOUVEAU_BO_RD⟩] = .ok (s1, -28) ∧
      ((s1.push 0).krec.buffer 1).write_domains = 4 ∧
      ((s1.push 0).krec.buffer 1).write_domains
        ≠ (((stRec 1023).push 0).krec.buffer 1).write_domains :=
  ⟨by decide, by decide, by decide, _, rfl, by decide, by decide⟩


/-! ## Flag accumulation -/

/-- The domains of the reference `p` holds for `b` after a run of insertions:
each insertion of `b` merges its masks, in turn. -/
theorem kref_seq_spec (c : Consts) (p : Nat) : ∀ (ins : List (Nat × Nat)) (s s1 : State),
    WF s → kref_seq c p s ins = some s1 →
    WF s1 ∧ ∀ b, refFlags s1 p b =
      ins.foldl (fun o r => if r.1 = b then some (mergeFlags c r.2 o) else o) (refFlags s p b) := by
  intro ins
  induction ins with
  | nil =>
    intro s s1 hw h
    simp only [kref_seq, Option.some.injEq] at h
    subst h
    exact ⟨hw, fun b => rfl⟩
  | cons r rest ih =>
    intro s s1 hw h
    unfold kref_seq at h
    cases hk : pushbuf_kref c s p r.1 r.2 with
    | error e => simp [hk] at h
    | ok v =>
      obtain ⟨s2, res⟩ := v
      cases res with
      | none => simp [hk] at h
      | some k =>
        simp only [hk] at h
        obtain ⟨hw2, _, _, hsome, _, _⟩ := pushbuf_kref_spec hw hk
        obtain ⟨_, hfl, _, _⟩ := hsome (by simp)
        obtain ⟨hw1, hrest⟩ := ih s2 s1 hw2 h
        refine ⟨hw1, fun b => ?_⟩
        rw [hrest b, hfl b, List.foldl_cons]
        by_cases hb : b = r.1
        · subst hb; simp
        · have hb2 : ¬ r.1 = b := fun e => hb e.symm
          simp [hb, hb2]

/-- The merged domains in closed form: the domains before the run OR-ed with
the masks of the insertions of `b`. -/
theorem foldl_mergeFlags (c : Consts) (b : Nat) : ∀ (ins : List (Nat × Nat)) (o : Option (Nat × Nat)),
    ins.foldl (fun o r => if r.1 = b then some (mergeFlags c r.2 o) else o) o =
      if ∃ r ∈ ins, r.1 = b then
        some ((o.getD (0, 0)).1 ||| or_masks (domains_rd c) b ins,
              (o.getD (0, 0)).2 ||| or_masks (domains_wr c) b ins)
      else o := by
  intro ins
  induction ins with
  | nil => intro o; simp
  | cons r rest ih =>
    intro o
    rw [List.foldl_cons, ih]
    by_cases hb : r.1 = b
    · by_cases hr : ∃ x ∈ rest, x.1 = b
      · have h2 : ∃ x ∈ r :: rest, x.1 = b := ⟨r, List.mem_cons_self _ _, hb⟩
        rw [if_pos hr, if_pos h2]
        simp [hb, mergeFlags, or_masks, Nat.lor_assoc]
      · have h2 : ∃ x ∈ r :: rest, x.1 = b := ⟨r, List.mem_cons_self _ _, hb⟩
        have hz : ∀ (m : Nat → Nat), or_masks m b rest = 0 := by
          intro m
          have : ∀ (l : List (Nat × Nat)), (¬ ∃ x ∈ l, x.1 = b) → or_masks m b l = 0 := by
            intro l
            induction l with
            | nil => intro _; rfl
            | cons y ys ihy =>
              intro hn
              have hy : ¬ y.1 = b := fun e => hn ⟨y, List.mem_cons_self _ _, e⟩
              have hys : ¬ ∃ x ∈ ys, x.1 = b := fun ⟨x, hx, e⟩ =>
                hn ⟨x, List.mem_cons_of_mem _ hx, e⟩
              simp [or_masks, hy, ihy hys]
          exact this rest hr
        rw [if_neg hr, if_pos h2]
        simp [hb, mergeFlags, or_masks, hz]
    · by_cases hr : ∃ x ∈ rest, x.1 = b
      · have h2 : ∃ x ∈ r :: rest, x.1 = b := by
          obtain ⟨x, hx, e⟩ := hr
          exact ⟨x, List.mem_cons_of_mem _ hx, e⟩
        rw [if_pos hr, if_pos h2]
        simp [hb, or_masks]
      · have h2 : ¬ ∃ x ∈ r :: rest, x.1 = b := by
          rintro ⟨x, hx, e⟩
          rcases List.mem_cons.mp hx with rfl | hx
          · exact hb e
          · exact hr ⟨x, hx, e⟩
        rw [if_neg hr, if_neg h2]
        simp [hb]

/-- The OR of the masks of one access bit is the domain if some insertion of
the buffer requested the bit, and zero otherwise. -/
theorem or_masks_requested (g bit b : Nat) : ∀ (ins : List (Nat × Nat)),
    or_masks (fun f => g * (if f &&& bit ≠ 0 then 1 else 0)) b ins =
      if requested bit b ins = true then g else 0 := by
  intro ins
  induction ins with
  | nil => simp [or_masks, requested]
  | cons r rest ih =>
    have e : requested bit b (r :: rest) =
        (decide (r.1 = b) && decide (r.2 &&& bit ≠ 0) || requested bit b rest) := rfl
    rw [e]
    simp only [or_masks]
    rw [ih]
    cases requested bit b rest <;> by_cases h1 : r.1 = b <;> by_cases h2 : r.2 &&& bit = 0 <;>
      simp [h1, h2]

/-- C2: after a run of pushbuf_kref calls on pushbuf `p` in which every call
returns a reference (the run stays within the capacity of the record, and
pushbuf_kref flushes other pushbufs only, never `p`), started in a state where
table and records agree, the
table holds for every inserted buffer `b` a reference owned by `p` whose
read_domains and write_domains are the OR of the read and write masks of the
insertions of `b`, on top of the domains the record of `p` held for `b` before
the run (none if it held no reference).  If it held none and the domain
constant is not zero, nouveau_pushbuf_refd reports NOUVEAU_BO_RD exactly if
some insertion of `b` requested RD and NOUVEAU_BO_WR exactly if some requested
WR. -/
theorem C2_flag_accumulation (c : Consts) (s s1 : State) (p : Nat) (ins : List (Nat × Nat))
    (b : Nat) (hw : WF s) (hrun : kref_seq c p s ins = some s1) (hb : ∃ r ∈ ins, r.1 = b) :
    ∃ kref, cli_kref_get s1 b = some kref ∧ kref.push = p ∧ cli_push_get s1 b = some p ∧
      (derefKref s1 kref).bo = b ∧
      (derefKref s1 kref).read_domains =
        ((refFlags s p b).getD (0, 0)).1 ||| or_masks (domains_rd c) b ins ∧
      (derefKref s1 kref).write_domains =
        ((refFlags s p b).getD (0, 0)).2 ||| or_masks (domains_wr c) b ins ∧
      (c.NOUVEAU_GEM_DOMAIN_GART ≠ 0 → refFlags s p b = none →
        nouveau_pushbuf_refd c s1 p b = .ok
          ((if requested c.NOUVEAU_BO_RD b ins = true then c.NOUVEAU_BO_RD else 0) |||
           (if requested c.NOUVEAU_BO_WR b ins = true then c.NOUVEAU_BO_WR else 0))) := by
  obtain ⟨hw1, hfl⟩ := kref_seq_spec c p ins s s1 hw hrun
  have h := hfl b
  rw [foldl_mergeFlags, if_pos hb] at h
  unfold refFlags at h
  cases ho : own s1 p b with
  | none => rw [ho] at h; simp at h
  | some r =>
    rw [ho] at h
    simp only [Option.map_some', Option.some.injEq, Prod.mk.injEq] at h
    obtain ⟨i, hk, hr⟩ := own_some_iff.mp ho
    obtain ⟨_, hbo, hkp0⟩ := hw1.1 b ⟨p, i⟩ hk
    have hkp : cli_push_get s1 b = some p := hkp0
    have hd : derefKref s1 ⟨p, i⟩ = r := hr
    refine ⟨⟨p, i⟩, hk, rfl, hkp, ?_, ?_, ?_, ?_⟩
    · exact hbo
    · rw [hd]; exact h.1
    · rw [hd]; exact h.2
    · intro hg hnone
      have hn2 : own s p b = none := by simpa [refFlags] using hnone
      have hrd : r.read_domains =
          if requested c.NOUVEAU_BO_RD b ins = true then c.NOUVEAU_GEM_DOMAIN_GART else 0 := by
        have e := or_masks_requested c.NOUVEAU_GEM_DOMAIN_GART c.NOUVEAU_BO_RD b ins
        have e2 : or_masks (domains_rd c) b ins = _ := e
        rw [h.1, e2]; simp [hn2]
      have hwr : r.write_domains =
          if requested c.NOUVEAU_BO_WR b ins = true then c.NOUVEAU_GEM_DOMAIN_GART else 0 := by
        have e := or_masks_requested c.NOUVEAU_GEM_DOMAIN_GART c.NOUVEAU_BO_WR b ins
        have e2 : or_masks (domains_wr c) b ins = _ := e
        rw [h.2, e2]; simp [hn2]
      unfold nouveau_pushbuf_refd
      rw [hkp, if_pos rfl, show cli_kref_get s1 b = some ⟨p, i⟩ from hk]
      simp only [hd, hrd, hwr]
      by_cases h1 : requested c.NOUVEAU_BO_RD b ins = true <;>
        by_cases h2 : requested c.NOUVEAU_BO_WR b ins = true <;>
        simp [h1, h2, hg]


/-- C2 on the fresh state `st0 []`: pushbuf 0 inserts buffer 7 for reading,
buffer 8 for writing and buffer 7 again for writing; the reference of buffer 7
then has both domains set and nouveau_pushbuf_refd reports RD and WR. -/
theorem C2_flag_accumulation_witness :
    (WF (st0 []) ∧ ∃ r ∈ [(7, 0x100), (8, 0x200), (7, 0x200)], r.1 = 7) ∧
    ∃ s1, kref_seq hdr 0 (st0 []) [(7, 0x100), (8, 0x200), (7, 0x200)] = some s1 ∧
      ∃ kref, cli_kref_get s1 7 = some kref ∧ (derefKref s1 kref).read_domains = 4 ∧
        (derefKref s1 kref).write_domains = 4 ∧ nouveau_pushbuf_refd hdr s1 0 7 = .ok 0x300 := by
  have hb : ∃ r ∈ [(7, 0x100), (8, 0x200), (7, 0x200)], r.1 = 7 := ⟨(7, 0x100), by simp, rfl⟩
  have hrun : kref_seq hdr 0 (st0 []) [(7, 0x100), (8, 0x200), (7, 0x200)] =
      some ((kref_seq hdr 0 (st0 []) [(7, 0x100), (8, 0x200), (7, 0x200)]).getD (st0 [])) := rfl
  obtain ⟨k, h1, _, _, _, h5, h6, h7⟩ := C2_flag_accumulation hdr (st0 []) _ 0
    [(7, 0x100), (8, 0x200), (7, 0x200)] 7 (st0_inv []).1 hrun hb
  refine ⟨⟨(st0_inv []).1, hb⟩, _, hrun, k, h1, ?_, ?_, ?_⟩
  · rw [h5]; rfl
  · rw [h6]; rfl
  · rw [h7 (by decide) rfl]; rfl

/-! ## Layout of the built-in command buffer -/

theorem generate_fence_cmdlist_spec (mem : Nat → Nat) (st syncpt_id : Nat) (hs : syncpt_id < 2 ^ 32) :
    (generate_fence_cmdlist mem st syncpt_id).2 = 3 ∧
    (generate_fence_cmdlist mem st syncpt_id).1 st = 0x80000451 ∧
    (generate_fence_cmdlist mem st syncpt_id).1 (st + 1) = 0x200100B2 ∧
    (generate_fence_cmdlist mem st syncpt_id).1 (st + 2) = syncpt_id ||| 0x110000 ∧
    ∀ a, a < st ∨ st + 3 ≤ a → (generate_fence_cmdlist mem st syncpt_id).1 a = mem a := by
  have hw : (syncpt_id % 2 ^ 32 ||| (1 <<< 20) ||| (1 <<< 16)) % 2 ^ 32 = syncpt_id ||| 0x110000 := by
    rw [Nat.mod_eq_of_lt hs, Nat.lor_assoc]
    have h2 : ((1 : Nat) <<< 20 ||| 1 <<< 16) = 0x110000 := by decide
    rw [h2]
    exact Nat.mod_eq_of_lt (Nat.or_lt_two_pow hs (by decide))
  refine ⟨?_, ?_, ?_, ?_, ?_⟩
  · simp only [generate_fence_cmdlist]; omega
  · simp [generate_fence_cmdlist, Function.update, Nat.add_assoc]
  · simp [generate_fence_cmdlist, Function.update, Nat.add_assoc]
  · simp only [generate_fence_cmdlist, Function.update_same]
    exact hw
  · intro a ha
    have h0 : a ≠ st := by omega
    have h1 : a ≠ st + 1 := by omega
    have h2 : a ≠ st + 1 + 1 := by omega
    simp [generate_fence_cmdlist, Function.update, h0, h1, h2]

theorem generate_flush_cmdlist_spec (mem : Nat → Nat) (st : Nat) :
    (generate_flush_cmdlist mem st).2 = 8 ∧
    (List.range 9).map (fun i => (generate_flush_cmdlist mem st).1 (st + i))
      = [0x2001C00B, 0x80000000, 0x2001C00B, 0x70000000, 0x800004A2, 0x90110369, 0x8000050A,
         0x80000509, 0] ∧
    ∀ a, a < st ∨ st + 9 ≤ a → (generate_flush_cmdlist mem st).1 a = mem a := by
  refine ⟨?_, ?_, ?_⟩
  · simp only [generate_flush_cmdlist]; omega
  · simp [generate_flush_cmdlist, Function.update, List.range, List.range.loop, Nat.add_assoc]
  · intro a ha
    have h0 : a ≠ st := by omega
    have h1 : a ≠ st + 1 := by omega
    have h2 : a ≠ st + 1 + 1 := by omega
    have h3 : a ≠ st + 1 + 1 + 1 := by omega
    have h4 : a ≠ st + 1 + 1 + 1 + 1 := by omega
    have h5 : a ≠ st + 1 + 1 + 1 + 1 + 1 := by omega
    have h6 : a ≠ st + 1 + 1 + 1 + 1 + 1 + 1 := by omega
    have h7 : a ≠ st + 1 + 1 + 1 + 1 + 1 + 1 + 1 := by omega
    have h8 : a ≠ st + 1 + 1 + 1 + 1 + 1 + 1 + 1 + 1 := by omega
    simp [generate_flush_cmdlist, Function.update, h0, h1, h2, h3, h4, h5, h6, h7, h8]

/-- C18: generate_fence_cmdlist writes exactly the three words 0x80000451,
0x200100B2 and syncpt_id | 0x110000 and returns 3; generate_flush_cmdlist
writes eight command words and one zero word behind them and returns 8.  With
the lists written back to back as nouveau_pushbuf_new does, fence_num_cmds is
3, flush_num_cmds is 8, the fence words are words 0 to 2 of the buffer, the
flush words are words 3 to 10 and word 11 is the zero word.  On a pushbuf with
these counts the three blocks pushbuf_submit appends behind a batch address the
bytes [0, 12), [12, 44) and [44, 48) of the built-in buffer: the one-word
barrier entry starts at byte 4 * 11, the zero word, and the blocks are disjoint
and inside the first 0x1000 bytes. -/
theorem C18_builtin_cmdbuf_layout (c : Consts) (mem : Nat → Nat) (map syncpt_id : Nat)
    (s : State) (p : Nat) (hs : syncpt_id < 2 ^ 32)
    (hf : (s.push p).fence_num_cmds = (builtin_cmdbuf_init mem map syncpt_id).2.1)
    (hl : (s.push p).flush_num_cmds = (builtin_cmdbuf_init mem map syncpt_id).2.2) :
    ((generate_fence_cmdlist mem map syncpt_id).2 = 3 ∧
      (generate_fence_cmdlist mem map syncpt_id).1 map = 0x80000451 ∧
      (generate_fence_cmdlist mem map syncpt_id).1 (map + 1) = 0x200100B2 ∧
      (generate_fence_cmdlist mem map syncpt_id).1 (map + 2) = syncpt_id ||| 0x110000 ∧
      ∀ a, a < map ∨ map + 3 ≤ a → (generate_fence_cmdlist mem map syncpt_id).1 a = mem a) ∧
    ((generate_flush_cmdlist mem map).2 = 8 ∧
      (List.range 9).map (fun i => (generate_flush_cmdlist mem map).1 (map + i))
        = [0x2001C00B, 0x80000000, 0x2001C00B, 0x70000000, 0x800004A2, 0x90110369, 0x8000050A,
           0x80000509, 0] ∧
      ∀ a, a < map ∨ map + 9 ≤ a → (generate_flush_cmdlist mem map).1 a = mem a) ∧
    ((builtin_cmdbuf_init mem map syncpt_id).2.1 = 3 ∧
      (builtin_cmdbuf_init mem map syncpt_id).2.2 = 8 ∧
      (List.range 12).map (fun i => (builtin_cmdbuf_init mem map syncpt_id).1 (map + i))
        = [0x80000451, 0x200100B2, syncpt_id ||| 0x110000,
           0x2001C00B, 0x80000000, 0x2001C00B, 0x70000000, 0x800004A2, 0x90110369, 0x8000050A,
           0x80000509, 0] ∧
      ∀ a, a < map ∨ map + 12 ≤ a → (builtin_cmdbuf_init mem map syncpt_id).1 a = mem a) ∧
    ((fence_entry c s p).start = (s.bo (s.push p).bo_builtin_cmdbuf).offset ∧
      (fence_entry c s p).stop = (s.bo (s.push p).bo_builtin_cmdbuf).offset + 12 ∧
      (flush_entry c s p).start = (s.bo (s.push p).bo_builtin_cmdbuf).offset + 12 ∧
      (flush_entry c s p).stop = (s.bo (s.push p).bo_builtin_cmdbuf).offset + 44 ∧
      (barrier_entry c s p).start = (s.bo (s.push p).bo_builtin_cmdbuf).offset + 4 * 11 ∧
      (barrier_entry c s p).num_cmds = 1 ∧
      (barrier_entry c s p).stop = (s.bo (s.push p).bo_builtin_cmdbuf).offset + 48 ∧
      (barrier_entry c s p).stop ≤ (s.bo (s.push p).bo_builtin_cmdbuf).offset + 0x1000) ∧
    ∀ krec : nouveau_pushbuf_krec, krec.nr_push ≠ 0 →
      (s.push p).gpu_channel.kickoff.headD 0 = 0 →
      ((submit_chain c p s [krec]).1.push p).gpu_channel.appended
        = (s.push p).gpu_channel.appended
          ++ (List.range krec.nr_push).map (batch_entry c s krec)
          ++ [fence_entry c s p, flush_entry c s p, barrier_entry c s p] := by
  obtain ⟨f1, f2, f3, f4, f5⟩ := generate_fence_cmdlist_spec mem map syncpt_id hs
  obtain ⟨g1, g2, g3⟩ := generate_flush_cmdlist_spec (generate_fence_cmdlist mem map syncpt_id).1
    (map + 3)
  have hfn : (builtin_cmdbuf_init mem map syncpt_id).2.1 = 3 := by
    simp only [builtin_cmdbuf_init, f1]; rfl
  have hmem : (builtin_cmdbuf_init mem map syncpt_id).1
      = (generate_flush_cmdlist (generate_fence_cmdlist mem map syncpt_id).1 (map + 3)).1 := by
    simp only [builtin_cmdbuf_init, f1]; rfl
  have hln : (builtin_cmdbuf_init mem map syncpt_id).2.2 = 8 := by
    have : (builtin_cmdbuf_init mem map syncpt_id).2.2
        = (generate_flush_cmdlist (generate_fence_cmdlist mem map syncpt_id).1 (map + 3)).2
            % 2 ^ 32 := by
      simp only [builtin_cmdbuf_init, f1]; rfl
    rw [this, g1]; rfl
  rw [hfn] at hf
  rw [hln] at hl
  refine ⟨⟨f1, f2, f3, f4, f5⟩, generate_flush_cmdlist_spec mem map, ⟨hfn, hln, ?_, ?_⟩, ?_, ?_⟩
  · rw [hmem]
    have e0 := g3 map (by omega)
    have e1 := g3 (map + 1) (by omega)
    have e2 := g3 (map + 2) (by omega)
    simp only [List.range, List.range.loop, List.map, List.cons.injEq, and_true] at g2 ⊢
    simp only [Nat.add_assoc, Nat.add_zero] at g2
    obtain ⟨k0, k1, k2, k3, k4, k5, k6, k7, k8⟩ := g2
    simp only [Nat.add_zero]
    refine ⟨?_, ?_, ?_, ?_, ?_, ?_, ?_, ?_, ?_, ?_, ?_, ?_⟩
    · rw [e0, f2]
    · rw [e1, f3]
    · rw [e2, f4]
    · exact k0
    · exact k1
    · exact k2
    · exact k3
    · exact k4
    · exact k5
    · exact k6
    · exact k7
    · exact k8
  · intro a ha
    rw [hmem, g3 a (by omega), f5 a (by omega)]
  · refine ⟨rfl, ?_, ?_, ?_, ?_, rfl, ?_, ?_⟩
    all_goals simp only [fence_entry, flush_entry, barrier_entry, GpfifoEntry.stop, hf, hl]
    all_goals omega
  · intro krec hne hacc
    exact ((submit_chain_single c p s krec).2.2 hne hacc).2

/-- C18 for the built-in buffer 100 of pushbuf 0 of `st0 []`, mapped at word
102400, and syncpoint 5: the twelve words of the buffer and the start of the
barrier entry. -/
theorem C18_builtin_cmdbuf_layout_witness :
    ((5 : Nat) < 2 ^ 32 ∧
      ((st0 []).push 0).fence_num_cmds = (builtin_cmdbuf_init (fun _ => 0xFFFFFFFF) 102400 5).2.1 ∧
      ((st0 []).push 0).flush_num_cmds = (builtin_cmdbuf_init (fun _ => 0xFFFFFFFF) 102400 5).2.2) ∧
    (List.range 12).map (fun i => (builtin_cmdbuf_init (fun _ => 0xFFFFFFFF) 102400 5).1 (102400 + i))
      = [0x80000451, 0x200100B2, 0x110005,
         0x2001C00B, 0x80000000, 0x2001C00B, 0x70000000, 0x800004A2, 0x90110369, 0x8000050A,
         0x80000509, 0] ∧
    (barrier_entry hdr (st0 []) 0).start = ((st0 []).bo 100).offset + 4 * 11 :=
  ⟨⟨by decide, by decide, by decide⟩,
    (C18_builtin_cmdbuf_layout hdr (fun _ => 0xFFFFFFFF) 102400 5 (st0 []) 0 (by decide)
      (by decide) (by decide)).2.2.1.2.2.1,
    (C18_builtin_cmdbuf_layout hdr (fun _ => 0xFFFFFFFF) 102400 5 (st0 []) 0 (by decide)
      (by decide) (by decide)).2.2.2.1.2.2.2.2.1⟩

/-! ## Write spans -/

/-- The first half of nouveau_pushbuf_data on a pushbuf whose current buffer is
referenced in its own record: nothing if `bgn` is at the cursor or the call is
for the current buffer, else the span from `bgn` to the cursor is appended and
`bgn` moves to the cursor. -/
theorem data_self_span (s : State) (p : Nat) (bo : Option Nat) (offset length cb idx : Nat)
    (hbo : (s.push p).bo = some cb) (hk : s.kref cb = some ⟨p, idx⟩) :
    nouveau_pushbuf_data s p bo offset length =
      if bo ≠ some cb ∧ (s.push p).bgn ≠ (s.push p).cur then
        push_data_append (setPush s p { s.push p with
          krec := { (s.push p).krec with
            push := Function.update (s.push p).krec.push (s.push p).krec.nr_push (self_span s p idx),
            nr_push := (s.push p).krec.nr_push + 1 },
          bgn := (s.push p).cur }) p bo offset length
      else push_data_append s p bo offset length := by
  unfold nouveau_pushbuf_data
  simp only []
  by_cases h : bo ≠ some cb ∧ (s.push p).bgn ≠ (s.push p).cur
  · have h2 : bo ≠ (s.push p).bo ∧ (s.push p).bgn ≠ (s.push p).cur := by rw [hbo]; exact h
    rw [if_pos h, if_pos h2]
    have e : ∀ x y, push_data_append s p (s.push p).bo x y
        = .ok (setKrec s p { (s.push p).krec with
            push := Function.update (s.push p).krec.push (s.push p).krec.nr_push ⟨idx, x, y⟩,
            nr_push := (s.push p).krec.nr_push + 1 }) := by
      intro x y
      rw [hbo]
      simp [push_data_append, cli_kref_get, hk]
    rw [e]
    simp only []
    congr 1
    simp [setPush, setKrec, self_span]
  · have h2 : ¬ (bo ≠ (s.push p).bo ∧ (s.push p).bgn ≠ (s.push p).cur) := by rw [hbo]; exact h
    rw [if_neg h, if_neg h2]

/-- What the `if (bo)` part of nouveau_pushbuf_data leaves alone. -/
theorem push_data_append_spec {s s1 : State} {p : Nat} {bo : Option Nat} {off len : Nat}
    (h : push_data_append s p bo off len = .ok s1) :
    (s1.push p).bgn = (s.push p).bgn ∧ (s1.push p).cur = (s.push p).cur ∧
    (s1.push p).ptr = (s.push p).ptr ∧ (s1.push p).bo = (s.push p).bo ∧ s1.kref = s.kref ∧
    (s1.push p).krec.nr_push = (s.push p).krec.nr_push + (if bo.isSome then 1 else 0) ∧
    ∀ i, i < (s.push p).krec.nr_push → (s1.push p).krec.push i = (s.push p).krec.push i := by
  unfold push_data_append at h
  cases bo with
  | none =>
    simp only [Except.ok.injEq] at h
    subst h
    simp
  | some b =>
    simp only [] at h
    cases hk : cli_kref_get s b with
    | none => simp [hk] at h
    | some k =>
      simp only [hk] at h
      by_cases hp : k.push ≠ p
      · simp [hp] at h
      · rw [if_neg hp] at h
        simp only [Except.ok.injEq] at h
        subst h
        refine ⟨?_, ?_, ?_, ?_, ?_, ?_, ?_⟩
        · simp [setKrec, setPush]
        · simp [setKrec, setPush]
        · simp [setKrec, setPush]
        · simp [setKrec, setPush]
        · simp [setKrec, setPush]
        · simp [setKrec, setPush]
        · intro i hi
          have : i ≠ (s.push p).krec.nr_push := by omega
          simp [setKrec, setPush, Function.update, this]

/-- One round of a finalisation run on a pushbuf whose current buffer is
referenced in its own record and whose `bgn` stands at the cursor. -/
theorem finalise_step (s : State) (p cb idx n : Nat)
    (hbo : (s.push p).bo = some cb) (hk : s.kref cb = some ⟨p, idx⟩)
    (hbgn : (s.push p).bgn = (s.push p).cur) :
    nouveau_pushbuf_data (client_write s p n) p none 0 0 =
      .ok (if n = 0 then client_write s p n
        else setPush s p { s.push p with
          krec := { (s.push p).krec with
            push := Function.update (s.push p).krec.push (s.push p).krec.nr_push
              (self_span (client_write s p n) p idx),
            nr_push := (s.push p).krec.nr_push + 1 },
          cur := (s.push p).cur + (n : Int),
          bgn := (s.push p).cur + (n : Int) }) := by
  have hbo2 : ((client_write s p n).push p).bo = some cb := by simp [client_write, setPush, hbo]
  have hk2 : (client_write s p n).kref cb = some ⟨p, idx⟩ := by simp [client_write, setPush, hk]
  rw [data_self_span (client_write s p n) p none 0 0 cb idx hbo2 hk2]
  by_cases hn : n = 0
  · subst hn
    have : ¬ ((none : Option Nat) ≠ some cb ∧
        ((client_write s p 0).push p).bgn ≠ ((client_write s p 0).push p).cur) := by
      simp [client_write, setPush, hbgn]
    rw [if_neg this]
    simp [push_data_append]
  · have : (none : Option Nat) ≠ some cb ∧
        ((client_write s p n).push p).bgn ≠ ((client_write s p n).push p).cur := by
      refine ⟨by simp, ?_⟩
      simp only [client_write, setPush, Function.update_same, hbgn]
      omega
    rw [if_pos this, if_neg hn]
    simp [push_data_append, client_write, setPush]

/-- A finalisation run records exactly the expected spans. -/
theorem finalise_run_spec (p cb idx : Nat) : ∀ (ns : List Nat) (s : State) (k : Nat),
    (s.push p).bo = some cb → s.kref cb = some ⟨p, idx⟩ →
    (s.push p).bgn = (s.push p).cur → (s.push p).bgn = (s.push p).ptr + (k : Int) →
    4 * (k + ns.sum) < 2 ^ 64 →
    ∃ s1, finalise_run p s ns = .ok s1 ∧
      (s1.push p).krec.nr_push = (s.push p).krec.nr_push + (spans_expected idx k ns).length ∧
      (∀ j, j < (spans_expected idx k ns).length →
        (spans_expected idx k ns)[j]? = some ((s1.push p).krec.push ((s.push p).krec.nr_push + j))) ∧
      (∀ i, i < (s.push p).krec.nr_push → (s1.push p).krec.push i = (s.push p).krec.push i) ∧
      (s1.push p).bgn = (s1.push p).cur ∧
      (s1.push p).cur = (s.push p).cur + (ns.sum : Int) ∧
      (s1.push p).ptr = (s.push p).ptr := by
  intro ns
  induction ns with
  | nil =>
    intro s k _ _ hbgn _ _
    exact ⟨s, rfl, by simp [spans_expected], by simp [spans_expected], fun _ _ => rfl, hbgn,
      by simp, rfl⟩
  | cons n rest ih =>
    intro s k hbo hk hbgn hptr hsum
    unfold finalise_run
    rw [finalise_step s p cb idx n hbo hk hbgn]
    simp only [List.sum_cons] at hsum
    by_cases hn : n = 0
    · subst hn
      simp only [if_true]
      obtain ⟨s1, h1, h2, h3, h4, h5, h6, h7⟩ := ih (client_write s p 0) k
        (by simp [client_write, setPush, hbo]) (by simp [client_write, setPush, hk])
        (by simp [client_write, setPush, hbgn]) (by simp [client_write, setPush, hptr])
        (by omega)
      have e : ((client_write s p 0).push p).krec = (s.push p).krec := by
        simp [client_write, setPush]
      rw [e] at h2 h3 h4
      refine ⟨s1, h1, ?_, ?_, h4, h5, ?_, ?_⟩
      · simpa [spans_expected] using h2
      · simpa [spans_expected] using h3
      · rw [h6]; simp [client_write, setPush]
      · rw [h7]; simp [client_write, setPush]
    · rw [if_neg hn]
      have hspan : self_span (client_write s p n) p idx = ⟨idx, 4 * k, 4 * n⟩ := by
        simp only [self_span, client_write, setPush, Function.update_same, hbgn.symm, hptr]
        congr 1 <;> omega
      rw [hspan]
      obtain ⟨s1, h1, h2, h3, h4, h5, h6, h7⟩ := ih (setPush s p { s.push p with
          krec := { (s.push p).krec with
            push := Function.update (s.push p).krec.push (s.push p).krec.nr_push ⟨idx, 4 * k, 4 * n⟩,
            nr_push := (s.push p).krec.nr_push + 1 },
          cur := (s.push p).cur + (n : Int),
          bgn := (s.push p).cur + (n : Int) }) (k + n)
        (by simp [setPush, hbo]) (by simp [setPush, hk]) (by simp [setPush])
        (by simp only [setPush, Function.update_same]; rw [← hbgn, hptr]; push_cast; omega)
        (by omega)
      simp only [setPush, Function.update_same] at h2 h3 h4 h6 h7
      refine ⟨s1, h1, ?_, ?_, ?_, h5, ?_, h7⟩
      · rw [h2]; simp [spans_expected, hn]; omega
      · intro j hj
        simp only [spans_expected, if_neg hn, List.length_cons] at hj
        simp only [spans_expected, if_neg hn]
        cases j with
        | zero =>
          rw [Nat.add_zero, h4 _ (by omega)]
          simp
        | succ j =>
          have := h3 j (by omega)
          rw [List.getElem?_cons_succ, this]
          congr 2
          omega
      · intro i hi
        rw [h4 i (by omega)]
        have : i ≠ (s.push p).krec.nr_push := by omega
        simp [Function.update, this]
      · rw [h6]; simp only [List.sum_cons]; push_cast; omega

/-- The expected spans tile the written words: every span has a non-zero
length, each starts where the one before it ends, the first starts at word
`k` and the last ends at the last word written. -/
theorem spans_expected_tile (idx : Nat) : ∀ (ns : List Nat) (k : Nat),
    (∀ d ∈ spans_expected idx k ns, d.bo_index = idx ∧ d.length ≠ 0) ∧
    List.Chain' (fun a b => b.offset = a.offset + a.length) (spans_expected idx k ns) ∧
    (∀ d ∈ (spans_expected idx k ns).head?, d.offset = 4 * k) ∧
    (∀ d ∈ (spans_expected idx k ns).getLast?, d.offset + d.length = 4 * (k + ns.sum)) ∧
    (spans_expected idx k ns = [] → ns.sum = 0) := by
  intro ns
  induction ns with
  | nil => intro k; simp [spans_expected]
  | cons n rest ih =>
    intro k
    by_cases hn : n = 0
    · subst hn
      simpa [spans_expected] using ih k
    · obtain ⟨h1, h2, h3, h4, h5⟩ := ih (k + n)
      simp only [spans_expected, if_neg hn]
      refine ⟨?_, ?_, ?_, ?_, ?_⟩
      · intro d hd
        rcases List.mem_cons.mp hd with rfl | hd
        · exact ⟨rfl, by simp; exact hn⟩
        · exact h1 d hd
      · rw [List.chain'_cons']
        refine ⟨fun y hy => ?_, h2⟩
        rw [h3 y hy]
        simp only []
        omega
      · intro d hd
        simp only [List.head?_cons, Option.mem_def, Option.some.injEq] at hd
        subst hd
        rfl
      · intro d hd
        rw [List.getLast?_cons] at hd
        cases hl : (spans_expected idx (k + n) rest).getLast? with
        | none =>
          rw [hl] at hd
          simp only [Option.getD_none, Option.mem_def, Option.some.injEq] at hd
          subst hd
          have := h5 (List.getLast?_eq_none_iff.mp hl)
          simp only [List.sum_cons]
          omega
        | some e =>
          rw [hl] at hd
          simp only [Option.getD_some, Option.mem_def, Option.some.injEq] at hd
          subst hd
          have := h4 e hl
          simp only [List.sum_cons]
          omega
      · intro h
        simp at h

/-- C20: on a pushbuf whose current command buffer `cb` is referenced at index
`idx` of its own record.  A call of nouveau_pushbuf_data for another buffer
with `bgn` not at the cursor first appends one descriptor for the current
buffer, with byte offset 4 * (bgn - ptr) and byte length 4 * (cur - bgn), and
sets `bgn` to the cursor; the finalisation call returns.  With `bgn` at the
cursor no span is appended.  A repeated finalisation changes nothing, the
length of a span is not zero, and in a run of writes and finalisations that
starts with `bgn` at the cursor, `k` words behind `ptr`, the spans recorded are
contiguous, start at word `k` and end at the cursor: they are the expected
spans, one of 4 * n bytes for each non-empty write of n words. -/
theorem C20_write_spans (s : State) (p cb idx : Nat)
    (hbo : (s.push p).bo = some cb) (hk : s.kref cb = some ⟨p, idx⟩) :
    (∀ bo off len s1, bo ≠ some cb → (s.push p).bgn ≠ (s.push p).cur →
      nouveau_pushbuf_data s p bo off len = .ok s1 →
      (s1.push p).krec.push (s.push p).krec.nr_push = self_span s p idx ∧
      (self_span s p idx).bo_index = idx ∧
      (self_span s p idx).offset = ((((s.push p).bgn - (s.push p).ptr) * 4) % 2 ^ 64).toNat ∧
      (self_span s p idx).length = ((((s.push p).cur - (s.push p).bgn) * 4) % 2 ^ 64).toNat ∧
      (s1.push p).bgn = (s.push p).cur ∧
      (s1.push p).krec.nr_push = (s.push p).krec.nr_push + 1 + (if bo.isSome then 1 else 0) ∧
      ∀ i, i < (s.push p).krec.nr_push → (s1.push p).krec.push i = (s.push p).krec.push i) ∧
    ((s.push p).bgn ≠ (s.push p).cur →
      ∃ s1, nouveau_pushbuf_data s p none 0 0 = .ok s1 ∧
        (s1.push p).krec.nr_push = (s.push p).krec.nr_push + 1) ∧
    ((s.push p).bgn = (s.push p).cur →
      nouveau_pushbuf_data s p none 0 0 = .ok s ∧
      ∀ bo off len, nouveau_pushbuf_data s p bo off len = push_data_append s p bo off len) ∧
    (∃ s1, nouveau_pushbuf_data s p none 0 0 = .ok s1 ∧
      nouveau_pushbuf_data s1 p none 0 0 = .ok s1) ∧
    ((s.push p).bgn ≠ (s.push p).cur →
      -(2 : Int) ^ 61 < (s.push p).cur - (s.push p).bgn →
      (s.push p).cur - (s.push p).bgn < (2 : Int) ^ 61 → (self_span s p idx).length ≠ 0) ∧
    ∀ (ns : List Nat) (k : Nat), (s.push p).bgn = (s.push p).cur →
      (s.push p).bgn = (s.push p).ptr + (k : Int) → 4 * (k + ns.sum) < 2 ^ 64 →
      ∃ s1, finalise_run p s ns = .ok s1 ∧
        (s1.push p).krec.nr_push = (s.push p).krec.nr_push + (spans_expected idx k ns).length ∧
        (∀ j, j < (spans_expected idx k ns).length →
          (spans_expected idx k ns)[j]?
            = some ((s1.push p).krec.push ((s.push p).krec.nr_push + j))) ∧
        (∀ i, i < (s.push p).krec.nr_push → (s1.push p).krec.push i = (s.push p).krec.push i) ∧
        (s1.push p).bgn = (s1.push p).cur ∧
        (s1.push p).cur = (s.push p).cur + (ns.sum : Int) ∧
        (∀ d ∈ spans_expected idx k ns, d.bo_index = idx ∧ d.length ≠ 0) ∧
        List.Chain' (fun a b => b.offset = a.offset + a.length) (spans_expected idx k ns) ∧
        (∀ d ∈ (spans_expected idx k ns).head?, d.offset = 4 * k) ∧
        (∀ d ∈ (spans_expected idx k ns).getLast?, d.offset + d.length = 4 * (k + ns.sum)) := by
  have hd := fun bo off len => data_self_span s p bo off len cb idx hbo hk
  refine ⟨?_, ?_, ?_, ?_, ?_, ?_⟩
  · intro bo off len s1 hne hb h
    rw [hd, if_pos ⟨hne, hb⟩] at h
    obtain ⟨a1, _, _, _, _, a6, a7⟩ := push_data_append_spec h
    simp only [setPush, Function.update_same] at a1 a6 a7
    refine ⟨?_, rfl, rfl, rfl, a1, a6, ?_⟩
    · rw [a7 _ (by omega)]; simp
    · intro i hi
      rw [a7 i (by omega)]
      have : i ≠ (s.push p).krec.nr_push := by omega
      simp [Function.update, this]
  · intro hb
    rw [hd, if_pos ⟨by simp, hb⟩]
    exact ⟨_, rfl, by simp [setPush]⟩
  · intro hb
    refine ⟨?_, fun bo off len => ?_⟩
    · rw [hd, if_neg (by simp [hb])]; rfl
    · rw [hd, if_neg (by simp [hb])]
  · by_cases hb : (s.push p).bgn = (s.push p).cur
    · refine ⟨s, ?_, ?_⟩ <;> (rw [hd, if_neg (by simp [hb])]; rfl)
    · rw [hd, if_pos ⟨by simp, hb⟩]
      refine ⟨_, rfl, ?_⟩
      rw [data_self_span _ p none 0 0 cb idx (by simp [setPush, hbo]) (by simp [setPush, hk]),
        if_neg (by simp [setPush])]
      rfl
  · intro hb h1 h2
    simp only [self_span]
    omega
  · intro ns k hb hp hs
    obtain ⟨s1, h1, h2, h3, h4, h5, h6, _⟩ := finalise_run_spec p cb idx ns s k hbo hk hb hp hs
    obtain ⟨t1, t2, t3, t4, _⟩ := spans_expected_tile idx ns k
    exact ⟨s1, h1, h2, h3, h4, h5, h6, t1, t2, t3, t4⟩

/-- C20 on `st1 []`, where pushbuf 0 has written 4 words to its command buffer
10: the finalisation records the span of 16 bytes at offset 0, and a run of
writes of 3, 0 and 5 words behind it records two more spans that continue it. -/
theorem C20_write_spans_witness :
    (((st1 []).push 0).bo = some 10 ∧ (st1 []).kref 10 = some ⟨0, 0⟩) ∧
    ∃ s1, nouveau_pushbuf_data (st1 []) 0 none 0 0 = .ok s1 ∧
      (s1.push 0).krec.nr_push = 1 ∧ (s1.push 0).krec.push 0 = ⟨0, 0, 16⟩ ∧
      ∃ s2, finalise_run 0 s1 [3, 0, 5] = .ok s2 ∧ (s2.push 0).krec.nr_push = 3 ∧
        (s2.push 0).krec.push 1 = ⟨0, 16, 12⟩ ∧ (s2.push 0).krec.push 2 = ⟨0, 28, 20⟩ := by
  have hb : ((st1 []).push 0).bo = some 10 := by decide
  have hk : (st1 []).kref 10 = some ⟨0, 0⟩ := by decide
  have hne : ((st1 []).push 0).bgn ≠ ((st1 []).push 0).cur := by decide
  obtain ⟨a, b, _⟩ := C20_write_spans (st1 []) 0 10 0 hb hk
  obtain ⟨s1, h1, h2⟩ := b hne
  obtain ⟨a1, _, _, _, a5, _, _⟩ := a none 0 0 s1 (by simp) hne h1
  have hs1 : s1 = stateOf (st1 []) ((nouveau_pushbuf_data (st1 []) 0 none 0 0).map
      (fun x => (x, ()))) := by
    rw [h1]; rfl
  refine ⟨⟨hb, hk⟩, s1, h1, ?_, ?_, ?_⟩
  · rw [h2]; rfl
  · rw [show ((st1 []).push 0).krec.nr_push = 0 from by decide] at a1
    rw [a1]; decide
  · subst hs1
    exact ⟨_, rfl, by decide, by decide, by decide⟩

/-! ## External reference counts -/

theorem dropped_zero (x : nouveau_bo) : x.dropped 0 = x := by
  simp [nouveau_bo.dropped]

theorem dropped_dropped (x : nouveau_bo) (n m : Nat) : (x.dropped n).dropped m = x.dropped (n + m) := by
  simp only [nouveau_bo.dropped]
  congr 1
  push_cast
  omega

theorem bo_unref_bo (s : State) (x b : Nat) :
    (bo_unref s x).bo b = (s.bo b).dropped (if x = b then 1 else 0) := by
  by_cases h : x = b
  · subst h; simp [bo_unref, nouveau_bo.dropped]
  · have h2 : ¬ b = x := fun e => h e.symm
    simp [bo_unref, nouveau_bo.dropped, h, h2, Function.update]

/-- A loop that drops one external reference of buffer `f i` in round `i`
lowers the count of every buffer by the number of rounds that name it and
leaves the rest of the buffer object alone. -/
theorem unref_fold_bo (f : Nat → Nat) (step : State → Nat → State) (I : State → Prop)
    (hI : ∀ st i, I st → I (step st i))
    (hs : ∀ st i, I st → (step st i).bo = (bo_unref st (f i)).bo) :
    ∀ (l : List Nat) (s : State), I s → ∀ b,
      (l.foldl step s).bo b = (s.bo b).dropped ((l.map f).count b) := by
  intro l
  induction l with
  | nil => intro s _ b; simp [dropped_zero]
  | cons x xs ih =>
    intro s hi b
    rw [List.foldl_cons, ih (step s x) (hI s x hi) b, hs s x hi, bo_unref_bo, dropped_dropped]
    congr 1
    by_cases hb : f x = b
    · simp [List.count_cons, hb]; omega
    · simp [List.count_cons, hb]

/-- A loop that clears the ownership entry of buffer `f i` in round `i` clears
the entries of the buffers it names and no other. -/
theorem clear_fold_table (f : Nat → Nat) (step : State → Nat → State) (I : State → Prop)
    (hI : ∀ st i, I st → I (step st i))
    (hs : ∀ st i, I st → (step st i).kref = Function.update st.kref (f i) none ∧
      (step st i).kpush = Function.update st.kpush (f i) none) :
    ∀ (l : List Nat) (s : State), I s → ∀ b,
      (l.foldl step s).kref b = (if b ∈ l.map f then none else s.kref b) ∧
      (l.foldl step s).kpush b = (if b ∈ l.map f then none else s.kpush b) := by
  intro l
  induction l with
  | nil => intro s _ b; simp
  | cons x xs ih =>
    intro s hi b
    rw [List.foldl_cons]
    obtain ⟨h1, h2⟩ := ih (step s x) (hI s x hi) b
    obtain ⟨k1, k2⟩ := hs s x hi
    rw [h1, h2, k1, k2]
    by_cases hb : b = f x
    · subst hb; simp
    · by_cases hm : b ∈ xs.map f
      · simp [hm]
      · simp [hm, hb, Function.update]

theorem del_release_spec (s : State) (krec : nouveau_pushbuf_krec) :
    (del_release s krec).push = s.push ∧
    (∀ b, (del_release s krec).bo b = (s.bo b).dropped ((krec_refs krec).count b)) ∧
    ∀ b, (del_release s krec).kref b = (if b ∈ krec_refs krec then none else s.kref b) ∧
      (del_release s krec).kpush b = (if b ∈ krec_refs krec then none else s.kpush b) := by
  refine ⟨?_, ?_, ?_⟩
  · exact foldl_keeps (del_release_step krec) State.push (fun a b => rfl) _ _
  · exact unref_fold_bo (fun i => (krec.buffer i).bo) (del_release_step krec) (fun _ => True)
      (fun _ _ _ => trivial) (fun st i _ => rfl) _ s trivial
  · exact clear_fold_table (fun i => (krec.buffer i).bo) (del_release_step krec) (fun _ => True)
      (fun _ _ _ => trivial) (fun st i _ => ⟨rfl, rfl⟩) _ s trivial

theorem del_chain_spec : ∀ (l : List nouveau_pushbuf_krec) (s : State),
    (del_chain s l).2.1 = [] ∧ (del_chain s l).2.2 = l.length ∧
    (del_chain s l).1.push = s.push ∧
    (∀ b, (del_chain s l).1.bo b = (s.bo b).dropped (((l.map krec_refs).flatten).count b)) ∧
    ∀ b, (del_chain s l).1.kref b = (if b ∈ (l.map krec_refs).flatten then none else s.kref b) ∧
      (del_chain s l).1.kpush b = (if b ∈ (l.map krec_refs).flatten then none else s.kpush b) := by
  intro l
  induction l with
  | nil => intro s; simp [del_chain, dropped_zero]
  | cons k rest ih =>
    intro s
    obtain ⟨h1, h2, h3, h5, h6⟩ := ih (del_release s k)
    obtain ⟨r1, r3, r4⟩ := del_release_spec s k
    simp only [del_chain]
    refine ⟨h1, by rw [h2]; simp, by rw [h3, r1], ?_, ?_⟩
    · intro b
      rw [h5 b, r3 b, dropped_dropped]
      simp only [List.map_cons, List.flatten_cons, List.count_append]
    · intro b
      rw [(h6 b).1, (h6 b).2, (r4 b).1, (r4 b).2]
      simp only [List.map_cons, List.flatten_cons, List.mem_append]
      by_cases m1 : b ∈ (rest.map krec_refs).flatten <;> by_cases m2 : b ∈ krec_refs k <;>
        simp [m1, m2]

theorem del_pool_spec (s : State) (p : Nat) :
    (del_pool s p).push = s.push ∧ (del_pool s p).kref = s.kref ∧ (del_pool s p).kpush = s.kpush ∧
    ∀ b, (del_pool s p).bo b
      = (s.bo b).dropped (((List.range (s.push p).bo_nr).map (s.push p).bos).count b) := by
  refine ⟨?_, ?_, ?_, ?_⟩
  · exact foldl_keeps (fun st i => bo_unref st ((s.push p).bos i)) State.push (fun a b => rfl) _ _
  · exact foldl_keeps (fun st i => bo_unref st ((s.push p).bos i)) State.kref (fun a b => rfl) _ _
  · exact foldl_keeps (fun st i => bo_unref st ((s.push p).bos i)) State.kpush (fun a b => rfl) _ _
  · intro b
    have h := unref_fold_bo (s.push p).bos (fun st i => bo_unref st ((s.push p).bos i))
      (fun _ => True) (fun _ _ _ => trivial) (fun st i _ => rfl)
      (List.range (s.push p).bo_nr).reverse s trivial b
    unfold del_pool
    rw [h, List.map_reverse, List.count_reverse]

theorem bo_unref_opt_spec (s : State) (o : Option Nat) :
    (bo_unref_opt s o).push = s.push ∧ (bo_unref_opt s o).kref = s.kref ∧
    (bo_unref_opt s o).kpush = s.kpush ∧
    ∀ b, (bo_unref_opt s o).bo b = (s.bo b).dropped (if o = some b then 1 else 0) := by
  cases o with
  | none => simp [bo_unref_opt, dropped_zero]
  | some x =>
    refine ⟨rfl, rfl, rfl, fun b => ?_⟩
    simp only [bo_unref_opt, bo_unref_bo, Option.some.injEq]

/-- What nouveau_pushbuf_del does to the state. -/
theorem nouveau_pushbuf_del_spec (s : State) (p : Nat) :
    (nouveau_pushbuf_del s (some p)).2.1 = none ∧
    (nouveau_pushbuf_del s (some p)).2.2.1 = [] ∧
    (nouveau_pushbuf_del s (some p)).2.2.2 = 1 + (s.push p).next.length ∧
    (nouveau_pushbuf_del s (some p)).1.push = s.push ∧
    (∀ b, (nouveau_pushbuf_del s (some p)).1.bo b = (s.bo b).dropped (del_drops s p b)) ∧
    ∀ b, (nouveau_pushbuf_del s (some p)).1.kref b
        = (if b ∈ queue_refs s p then none else s.kref b) ∧
      (nouveau_pushbuf_del s (some p)).1.kpush b
        = (if b ∈ queue_refs s p then none else s.kpush b) := by
  have hs1 : setPush s p { s.push p with gpu_channel := nvGpuChannelClose (s.push p).gpu_channel }
      = s := by
    simp [nvGpuChannelClose, setPush]
  have hdef : nouveau_pushbuf_del s (some p)
      = (bo_unref_opt (del_pool (del_chain
            (bo_unref (bo_unref s (s.push p).bo_zcullctx) (s.push p).bo_builtin_cmdbuf)
            ((s.push p).krec :: (s.push p).next)).1 p)
          ((del_pool (del_chain
            (bo_unref (bo_unref s (s.push p).bo_zcullctx) (s.push p).bo_builtin_cmdbuf)
            ((s.push p).krec :: (s.push p).next)).1 p).push p).bo, none,
         (del_chain (bo_unref (bo_unref s (s.push p).bo_zcullctx) (s.push p).bo_builtin_cmdbuf)
            ((s.push p).krec :: (s.push p).next)).2.1,
         (del_chain (bo_unref (bo_unref s (s.push p).bo_zcullctx) (s.push p).bo_builtin_cmdbuf)
            ((s.push p).krec :: (s.push p).next)).2.2) := by
    unfold nouveau_pushbuf_del
    dsimp only
    rw [hs1]
  rw [hdef]
  generalize hs2 : bo_unref (bo_unref s (s.push p).bo_zcullctx) (s.push p).bo_builtin_cmdbuf = s2
  have e2p : s2.push = s.push := by rw [← hs2]; rfl
  have e2k : s2.kref = s.kref := by rw [← hs2]; rfl
  have e2q : s2.kpush = s.kpush := by rw [← hs2]; rfl
  have e2b : ∀ b, s2.bo b = (s.bo b).dropped ((if (s.push p).bo_zcullctx = b then 1 else 0)
      + (if (s.push p).bo_builtin_cmdbuf = b then 1 else 0)) := by
    intro b
    rw [← hs2, bo_unref_bo, bo_unref_bo, dropped_dropped]
  obtain ⟨c1, c2, c3, c5, c6⟩ := del_chain_spec ((s.push p).krec :: (s.push p).next) s2
  generalize (del_chain s2 ((s.push p).krec :: (s.push p).next)) = r at c1 c2 c3 c5 c6 ⊢
  obtain ⟨p1, p2, p3, p4⟩ := del_pool_spec r.1 p
  generalize del_pool r.1 p = s4 at p1 p2 p3 p4 ⊢
  obtain ⟨o1, o2, o3, o4⟩ := bo_unref_opt_spec s4 (s4.push p).bo
  have e4p : s4.push = s.push := by rw [p1, c3, e2p]
  refine ⟨rfl, c1, by rw [c2, List.length_cons]; omega, by rw [o1, e4p], ?_, ?_⟩
  · intro b
    show (bo_unref_opt s4 (s4.push p).bo).bo b = _
    rw [o4 b, p4 b, c5 b, e2b b, dropped_dropped, dropped_dropped, dropped_dropped, c3, e2p, e4p]
    have hn : ((if (s.push p).bo_zcullctx = b then 1 else 0)
          + (if (s.push p).bo_builtin_cmdbuf = b then 1 else 0)
          + ((((s.push p).krec :: (s.push p).next).map krec_refs).flatten).count b
          + ((List.range (s.push p).bo_nr).map (s.push p).bos).count b
          + (if (s.push p).bo = some b then 1 else 0)) = del_drops s p b := by
      simp only [del_drops, queue_refs]
      omega
    rw [← hn]
    congr 1
    omega
  · intro b
    show (bo_unref_opt s4 (s4.push p).bo).kref b = _ ∧ (bo_unref_opt s4 (s4.push p).bo).kpush b = _
    rw [o2, o3, p2, p3, (c6 b).1, (c6 b).2, e2k, e2q]
    exact ⟨rfl, rfl⟩

theorem mem_queue_refs (s : State) (p : Nat) (krec : nouveau_pushbuf_krec) (i : Nat)
    (hk : krec ∈ (s.push p).krec :: (s.push p).next) (hi : i < krec.nr_buffer) :
    (krec.buffer i).bo ∈ queue_refs s p := by
  unfold queue_refs
  rw [List.mem_flatten]
  exact ⟨krec_refs krec, List.mem_map.mpr ⟨krec, hk, rfl⟩,
    List.mem_map.mpr ⟨i, List.mem_range.mpr hi, rfl⟩⟩

/-- C15: nouveau_pushbuf_del on a pushbuf whose queue holds the records
`krec :: next` sets the handle of the caller to null, leaves the queue empty
and frees every record of it; for every reference of every record the ownership
entry of its buffer is cleared and the external count of the buffer is lowered,
by one for each reference of the queue that names it (and by one more for each
pool slot and for the auxiliary, built-in and current buffer it is); the
hardware queue of the pushbuf is as it was: no entry is appended and no kickoff
is made.  A null handle stays null and nothing changes. -/
theorem C15_del_unwinds (s : State) (p : Nat) :
    (nouveau_pushbuf_del s (some p)).2.1 = none ∧
    (nouveau_pushbuf_del s (some p)).2.2.1 = [] ∧
    (nouveau_pushbuf_del s (some p)).2.2.2 = ((s.push p).krec :: (s.push p).next).length ∧
    (∀ krec ∈ (s.push p).krec :: (s.push p).next, ∀ i, i < krec.nr_buffer →
      cli_kref_get (nouveau_pushbuf_del s (some p)).1 (krec.buffer i).bo = none ∧
      cli_push_get (nouveau_pushbuf_del s (some p)).1 (krec.buffer i).bo = none ∧
      ((nouveau_pushbuf_del s (some p)).1.bo (krec.buffer i).bo).refcnt
        ≤ (s.bo (krec.buffer i).bo).refcnt - 1) ∧
    (∀ b, (nouveau_pushbuf_del s (some p)).1.bo b = (s.bo b).dropped (del_drops s p b) ∧
      (queue_refs s p).count b ≤ del_drops s p b) ∧
    (∀ b, b ∉ queue_refs s p →
      cli_kref_get (nouveau_pushbuf_del s (some p)).1 b = cli_kref_get s b ∧
      cli_push_get (nouveau_pushbuf_del s (some p)).1 b = cli_push_get s b) ∧
    (∀ q, ((nouveau_pushbuf_del s (some p)).1.push q).gpu_channel = (s.push q).gpu_channel) ∧
    nouveau_pushbuf_del s none = (s, none, [], 0) := by
  obtain ⟨h1, h2, h3, h4, h5, h6⟩ := nouveau_pushbuf_del_spec s p
  refine ⟨h1, h2, by rw [h3, List.length_cons]; omega, ?_, ?_, ?_, ?_, rfl⟩
  · intro krec hk i hi
    have hm := mem_queue_refs s p krec i hk hi
    refine ⟨?_, ?_, ?_⟩
    · show (nouveau_pushbuf_del s (some p)).1.kref _ = none
      rw [(h6 _).1, if_pos hm]
    · show (nouveau_pushbuf_del s (some p)).1.kpush _ = none
      rw [(h6 _).2, if_pos hm]
    · rw [h5]
      have hc : 1 ≤ (queue_refs s p).count (krec.buffer i).bo := List.one_le_count_iff.mpr hm
      have hd : (queue_refs s p).count (krec.buffer i).bo ≤ del_drops s p (krec.buffer i).bo := by
        unfold del_drops; omega
      simp only [nouveau_bo.dropped]
      omega
  · intro b
    exact ⟨h5 b, by unfold del_drops; omega⟩
  · intro b hb
    exact ⟨by show (nouveau_pushbuf_del s (some p)).1.kref _ = _; rw [(h6 b).1, if_neg hb]; rfl,
      by show (nouveau_pushbuf_del s (some p)).1.kpush _ = _; rw [(h6 b).2, if_neg hb]; rfl⟩
  · intro q
    rw [h4]

/-- pushbuf_flush on a pushbuf without a channel reads `chan->data` through the
null channel: it ends in a fault. -/
theorem pushbuf_flush_deferred (c : Consts) (s : State) (p : Nat)
    (hch : (s.push p).channel = none) : pushbuf_flush c s p = .error .fault := by
  simp [pushbuf_flush, pushbuf_submit, hch]

theorem pool_refl (s : State) : Pool s s :=
  ⟨rfl, rfl, fun _ => rfl, fun _ => ⟨rfl, rfl⟩, fun _ => ⟨rfl, rfl, rfl, rfl, rfl, rfl, rfl⟩⟩

theorem pool_trans {s s1 s2 : State} (h1 : Pool s s1) (h2 : Pool s1 s2) : Pool s s2 := by
  obtain ⟨a1, a2, a3, a4, a5⟩ := h1
  obtain ⟨b1, b2, b3, b4, b5⟩ := h2
  refine ⟨b1.trans a1, b2.trans a2, fun b => (b3 b).trans (a3 b),
    fun b => ⟨(b4 b).1.trans (a4 b).1, (b4 b).2.trans (a4 b).2⟩, fun q => ?_⟩
  obtain ⟨x1, x2, x3, x4, x5, x6, x7⟩ := a5 q
  obtain ⟨y1, y2, y3, y4, y5, y6, y7⟩ := b5 q
  exact ⟨y1.trans x1, y2.trans x2, y3.trans x3, y4.trans x4, y5.trans x5, y6.trans x6,
    y7.trans x7⟩

theorem pool_cli_kref_set (s : State) (bo : Nat) (k : Option KrefPtr) (q : Option Nat) :
    Pool s (cli_kref_set s bo k q) := pool_refl s

theorem pool_bo_unref (s : State) (bo : Nat) : Pool s (bo_unref s bo) := by
  refine ⟨rfl, rfl, fun _ => rfl, fun b => ?_, fun _ => ⟨rfl, rfl, rfl, rfl, rfl, rfl, rfl⟩⟩
  unfold bo_unref
  by_cases hb : b = bo
  · subst hb; simp
  · simp [Function.update_noteq hb]

theorem pool_bo_incref (s : State) (bo : Nat) : Pool s (bo_incref s bo) := by
  refine ⟨rfl, rfl, fun _ => rfl, fun b => ?_, fun _ => ⟨rfl, rfl, rfl, rfl, rfl, rfl, rfl⟩⟩
  unfold bo_incref
  by_cases hb : b = bo
  · subst hb; simp
  · simp [Function.update_noteq hb]

/-- Replacing pushbuf `p` by a value with the same static fields. -/
theorem pool_setPush (s : State) (p : Nat) (v : nouveau_pushbuf_priv)
    (h : v.channel = (s.push p).channel ∧ v.bo_nr = (s.push p).bo_nr ∧ v.bos = (s.push p).bos ∧
      v.bo_next = (s.push p).bo_next ∧ v.rsvd_kick = (s.push p).rsvd_kick ∧
      v.bufctx = (s.push p).bufctx ∧ v.flags = (s.push p).flags) : Pool s (setPush s p v) := by
  refine ⟨rfl, rfl, fun _ => rfl, fun _ => ⟨rfl, rfl⟩, fun q => ?_⟩
  unfold setPush
  by_cases hq : q = p
  · subst hq; simpa using h
  · simp [Function.update_noteq hq]

theorem pool_setKrec (s : State) (p : Nat) (k : nouveau_pushbuf_krec) : Pool s (setKrec s p k) :=
  pool_setPush s p _ ⟨rfl, rfl, rfl, rfl, rfl, rfl, rfl⟩

theorem pool_of_submitFrame {s s1 : State} {p : Nat} (h : SubmitFrame s s1 p) : Pool s s1 := by
  obtain ⟨pu, n, bg, g, bo1, rfl, hbo⟩ := h
  refine ⟨rfl, rfl, fun _ => rfl, fun b => ?_, fun q => ?_⟩
  · obtain ⟨f, a, e⟩ := hbo b
    simp [e]
  · exact (pool_setPush s p { s.push p with
      krec := { (s.push p).krec with push := pu, nr_push := n },
      bgn := bg, gpu_channel := g } ⟨rfl, rfl, rfl, rfl, rfl, rfl, rfl⟩).2.2.2.2 q

theorem pool_flush_release (s : State) (p : Nat) : Pool s (flush_release s p) := by
  unfold flush_release
  apply foldl_rel _ Pool pool_refl (fun _ _ _ h1 h2 => pool_trans h1 h2)
  intro a i
  unfold flush_release_step
  simp only
  split
  · exact pool_trans (pool_cli_kref_set _ _ _ _) (pool_bo_unref _ _)
  · exact pool_cli_kref_set _ _ _ _

/-- Changing the lists of the contexts, not their relocation counters. -/
theorem pool_of_bufctx (s : State) (bc : Nat → nouveau_bufctx)
    (h : ∀ b, (bc b).relocs = (s.bufctx b).relocs) : Pool s { s with bufctx := bc } :=
  ⟨rfl, rfl, h, fun _ => ⟨rfl, rfl⟩, fun _ => ⟨rfl, rfl, rfl, rfl, rfl, rfl, rfl⟩⟩

theorem pool_bufctx_update (s : State) (b : Nat) (v : nouveau_bufctx)
    (h : v.relocs = (s.bufctx b).relocs) :
    Pool s { s with bufctx := Function.update s.bufctx b v } := by
  refine pool_of_bufctx s _ (fun x => ?_)
  by_cases hx : x = b
  · subst hx; simpa using h
  · simp [Function.update_noteq hx]

theorem pool_flush_bufctx (s : State) (p : Nat) : Pool s (flush_bufctx s p) := by
  unfold flush_bufctx
  have h1 : Pool s ((s.push p).bctx_list.foldl flush_bufctx_step s) := by
    apply foldl_rel flush_bufctx_step Pool pool_refl (fun _ _ _ h1 h2 => pool_trans h1 h2)
    intro a b
    exact pool_bufctx_update a b _ rfl
  exact pool_trans h1 (pool_setPush _ p _ ⟨rfl, rfl, rfl, rfl, rfl, rfl, rfl⟩)

theorem pool_flush {c : Consts} {s s1 : State} {p : Nat} {r : Int}
    (h : pushbuf_flush c s p = .ok (s1, r)) : Pool s s1 := by
  unfold pushbuf_flush at h
  split at h
  · simp at h
  · rename_i s2 ret hsub
    simp only [Except.ok.injEq, Prod.mk.injEq] at h
    rw [← h.1]
    exact pool_trans (pool_trans (pool_trans (pool_of_submitFrame (pushbuf_submit_frame hsub))
      (pool_flush_release _ _)) (pool_setKrec _ _ _)) (pool_flush_bufctx _ _)

theorem pool_flush_other {c : Consts} {s sf : State} {p bo : Nat}
    (h : kref_flush_other c s p bo = .ok sf) : Pool s sf := by
  unfold kref_flush_other at h
  split at h
  · simp only [Except.ok.injEq] at h; rw [← h]; exact pool_refl s
  · split at h
    · split at h
      · simp at h
      · rename_i s2 r2 hfl
        simp only [Except.ok.injEq] at h
        rw [← h]; exact pool_flush hfl
    · simp only [Except.ok.injEq] at h; rw [← h]; exact pool_refl s

theorem pool_kref_insert (c : Consts) (s : State) (p bo flags : Nat) :
    Pool s (kref_insert c s p bo flags).1 := by
  unfold kref_insert
  simp only
  split
  · exact pool_setKrec _ _ _
  · split
    · exact pool_refl s
    · exact pool_trans (pool_trans (pool_setKrec _ _ _) (pool_cli_kref_set _ _ _ _))
        (pool_bo_incref _ _)

theorem pool_kref {c : Consts} {s s1 : State} {p bo flags : Nat} {k : Option KrefPtr}
    (h : pushbuf_kref c s p bo flags = .ok (s1, k)) : Pool s s1 := by
  unfold pushbuf_kref at h
  split at h
  · simp at h
  · rename_i sf hf
    simp only [Except.ok.injEq] at h
    have := pool_kref_insert c sf p bo flags
    rw [h] at this
    exact pool_trans (pool_flush_other hf) this

theorem pool_space_cond {c : Consts} {s s1 : State} {p : Nat} {bo : Option Nat} {pushes : Nat}
    {fl : Bool} (h : space_cond c s p bo pushes = .ok (s1, fl)) : Pool s s1 := by
  unfold space_cond at h
  simp only at h
  split at h
  · simp only [Except.ok.injEq, Prod.mk.injEq] at h
    rw [← h.1]; exact pool_refl s
  · split at h
    · simp only [Except.ok.injEq, Prod.mk.injEq] at h
      rw [← h.1]; exact pool_refl s
    · split at h
      · simp at h
      · rename_i s2 hk
        simp only [Except.ok.injEq, Prod.mk.injEq] at h
        rw [← h.1]; exact pool_kref hk
      · rename_i s2 k hk
        simp only [Except.ok.injEq, Prod.mk.injEq] at h
        rw [← h.1]; exact pool_kref hk

theorem pool_space_flush {c : Consts} {s s1 : State} {p : Nat} {fl : Bool}
    (h : space_flush c s p fl = .ok s1) : Pool s s1 := by
  unfold space_flush at h
  split at h
  · split at h
    · simp at h
    · rename_i s3 r hf
      simp only [Except.ok.injEq] at h
      rw [← h]; exact pool_flush hf
  · simp only [Except.ok.injEq] at h
    rw [← h]; exact pool_refl s

/-! ## Invariants of the space allocator, in general -/

theorem pool_space_switch {s s1 : State} {p : Nat} {bo : Option Nat} {r : Int}
    (h : space_switch s p bo = .ok (s1, r)) : Pool s s1 := by
  unfold space_switch at h
  cases bo with
  | none =>
    simp only [Except.ok.injEq, Prod.mk.injEq] at h
    rw [← h.1]; exact pool_refl s
  | some b =>
    simp only at h
    have hm : Pool s (nouveau_bo_map s).1 :=
      ⟨rfl, rfl, fun _ => rfl, fun _ => ⟨rfl, rfl⟩, fun _ => ⟨rfl, rfl, rfl, rfl, rfl, rfl, rfl⟩⟩
    split at h
    · simp only [Except.ok.injEq, Prod.mk.injEq] at h
      rw [← h.1]; exact hm
    · split at h
      · simp at h
      · rename_i s4 hd
        simp only [Except.ok.injEq, Prod.mk.injEq] at h
        rw [← h.1]
        have h4 := pool_of_submitFrame (nouveau_pushbuf_data_frame hd)
        have h5 : Pool s4 (bo_ref_current s4 p b) := by
          unfold bo_ref_current
          simp only
          refine pool_trans (pool_bo_incref s4 b) (pool_trans ?_
            (pool_setPush _ p _ ⟨rfl, rfl, rfl, rfl, rfl, rfl, rfl⟩))
          split
          · exact pool_bo_unref _ _
          · exact pool_refl _
        have h6 := pool_bo_unref (bo_ref_current s4 p b) b
        exact pool_trans (pool_trans (pool_trans (pool_trans hm h4) h5) h6)
          (pool_setPush _ p _ ⟨rfl, rfl, rfl, rfl, rfl, rfl, rfl⟩)

theorem rot_refl (s : State) (p : Nat) : Rot s s p :=
  ⟨rfl, rfl, fun _ => rfl, fun _ => ⟨rfl, rfl⟩, fun _ => ⟨rfl, rfl, rfl, fun _ => rfl, rfl, rfl, rfl⟩,
    fun h => h⟩

theorem rot_trans {s s1 s2 : State} {p : Nat} (h1 : Rot s s1 p) (h2 : Rot s1 s2 p) :
    Rot s s2 p := by
  obtain ⟨a1, a2, a3, a4, a5, a6⟩ := h1
  obtain ⟨b1, b2, b3, b4, b5, b6⟩ := h2
  refine ⟨b1.trans a1, b2.trans a2, fun b => (b3 b).trans (a3 b),
    fun b => ⟨(b4 b).1.trans (a4 b).1, (b4 b).2.trans (a4 b).2⟩, fun q => ?_, fun h => b6 (a6 h)⟩
  obtain ⟨x1, x2, x3, x4, x5, x6, x7⟩ := a5 q
  obtain ⟨y1, y2, y3, y4, y5, y6, y7⟩ := b5 q
  exact ⟨y1.trans x1, y2.trans x2, y3.trans x3, fun hq => (y4 hq).trans (x4 hq), y5.trans x5,
    y6.trans x6, y7.trans x7⟩

theorem rot_of_pool {s s1 : State} (h : Pool s s1) (p : Nat) : Rot s s1 p := by
  obtain ⟨a1, a2, a3, a4, a5⟩ := h
  refine ⟨a1, a2, a3, a4, fun q => ?_, fun hn => ?_⟩
  · obtain ⟨x1, x2, x3, x4, x5, x6, x7⟩ := a5 q
    exact ⟨x1, x2, x3, fun _ => x4, x5, x6, x7⟩
  · obtain ⟨_, x2, _, x4, _⟩ := a5 p
    rw [x2, x4]; exact hn

/-- The buffer selection of nouveau_pushbuf_space, case by case. -/
theorem space_select_cases (s : State) (p dwords : Nat) :
    ((s.push p).cur + (dwords : Int) < (s.push p).end_ → space_select s p dwords = (s, 0, none)) ∧
    ((s.push p).cur + (dwords : Int) ≥ (s.push p).end_ → (s.push p).bo_next < (s.push p).bo_nr →
      (space_select s p dwords).2 = (0, some ((s.push p).bos (s.push p).bo_next)) ∧
      (space_select s p dwords).1 = setPush (bo_incref s ((s.push p).bos (s.push p).bo_next)) p
        { s.push p with bo_next :=
            if (s.push p).bo_next + 1 = (s.push p).bo_nr ∧ (s.push p).channel.isSome then 0
            else (s.push p).bo_next + 1 }) ∧
    ((s.push p).cur + (dwords : Int) ≥ (s.push p).end_ → (s.push p).bo_nr ≤ (s.push p).bo_next →
      (space_select s p dwords).1 = (nouveau_bo_new s (s.bo ((s.push p).bos 0)).size).1 ∧
      (s.bo_new.headD 0 = 0 → (space_select s p dwords).2 = (0, some s.bo_fresh)) ∧
      (s.bo_new.headD 0 ≠ 0 → (space_select s p dwords).2 = (s.bo_new.headD 0, none))) := by
  refine ⟨fun h => ?_, fun h hn => ?_, fun h hn => ?_⟩
  · unfold space_select
    simp only []
    rw [if_neg (by omega)]
  · unfold space_select
    simp only []
    rw [if_pos h, if_pos hn]
    refine ⟨rfl, ?_⟩
    simp [bo_incref, setPush]
  · unfold space_select
    simp only []
    rw [if_pos h, if_neg (by omega)]
    refine ⟨?_, fun h0 => ?_, fun h0 => ?_⟩
    · split <;> rfl
    · have h1 : s.bo_new.head?.getD 0 = 0 := by simpa using h0
      have : ¬ (nouveau_bo_new s (s.bo ((s.push p).bos 0)).size).2.1 ≠ 0 := by
        simp [nouveau_bo_new, h1]
      rw [if_neg this]
      simp [nouveau_bo_new, h1]
    · have h1 : ¬ s.bo_new.head?.getD 0 = 0 := by simpa using h0
      have : (nouveau_bo_new s (s.bo ((s.push p).bos 0)).size).2.1 ≠ 0 := by
        simp [nouveau_bo_new, h1]
      rw [if_pos this]
      simp [nouveau_bo_new, h1]

/-- On a pushbuf with a channel whose position is inside the pool, the buffer
selection moves the position inside the pool and allocates nothing. -/
theorem rot_space_select (s : State) (p dwords : Nat) (ch : nouveau_object)
    (hch : (s.push p).channel = some ch) (hn : (s.push p).bo_next < (s.push p).bo_nr) :
    Rot s (space_select s p dwords).1 p := by
  obtain ⟨c1, c2, _⟩ := space_select_cases s p dwords
  by_cases h : (s.push p).cur + (dwords : Int) < (s.push p).end_
  · rw [c1 h]; exact rot_refl s p
  · obtain ⟨_, e⟩ := c2 (by omega) hn
    rw [e]
    refine rot_trans (rot_of_pool (pool_bo_incref s ((s.push p).bos (s.push p).bo_next)) p) ?_
    refine ⟨rfl, rfl, fun _ => rfl, fun _ => ⟨rfl, rfl⟩, fun q => ?_, fun hn2 => ?_⟩
    · unfold setPush
      by_cases hq : q = p
      · subst hq; simp [bo_incref]
      · simp [Function.update_noteq hq]
    · simp only [setPush, Function.update_same, bo_incref, hch, Option.isSome_some, and_true]
        at hn2 ⊢
      split <;> omega

/-- One pass of pushbuf_refn without retry: it returns 0 or -ENOSPC, touches
nothing of its pushbuf but the references of the record, and after -ENOSPC the
count of references is the one at entry. -/
theorem refn_pass_spec {c : Consts} {s s1 : State} {p : Nat}
    {refs : List struct_nouveau_pushbuf_refn} {ret : Int} (hw : WF s)
    (h : pushbuf_refn_pass c s p refs = .ok (s1, ret)) :
    WF s1 ∧ (Bound c s → Bound c s1) ∧ (ret = 0 ∨ ret = -(c.ENOSPC : Int)) ∧
    (ret ≠ 0 → (s1.push p).krec.nr_buffer = (s.push p).krec.nr_buffer) ∧
    (s.push p).krec.nr_buffer ≤ (s1.push p).krec.nr_buffer ∧ PFrame s s1 p := by
  unfold pushbuf_refn_pass at h
  simp only at h
  split at h
  · simp at h
  · rename_i s2 r hl
    obtain ⟨l1, l2, l3, l4, _⟩ := kref_loop_spec c p _ _ s2 r hw hl
    have pf := pframe_kref_loop c p _ _ _ _ hw hl
    split at h
    · rename_i hr
      simp only [Except.ok.injEq, Prod.mk.injEq] at h
      obtain ⟨rfl, rfl⟩ := h
      obtain ⟨f1, f2, _⟩ := refn_fail_spec s2 p (s.push p).krec.nr_buffer l1 l4
      refine ⟨f1, fun hb => (inv_refn_fail ⟨l1, l2 hb⟩ l4).2, l3, fun _ => f2, by rw [f2],
        pframe_trans pf (pframe_refn_fail _ _ _)⟩
    · rename_i hr
      simp only [Except.ok.injEq, Prod.mk.injEq] at h
      obtain ⟨rfl, rfl⟩ := h
      exact ⟨l1, l2, l3, fun hne => absurd hne hr, l4, pf⟩

/-- The function nouveau_pushbuf_refn in terms of passes: one pass; if it
fails, a flush, a reservation of space and one more pass, which is the last. -/
theorem nouveau_pushbuf_refn_eq (c : Consts) (fuel : Nat) (s : State) (p : Nat)
    (refs : List struct_nouveau_pushbuf_refn) :
    nouveau_pushbuf_refn c fuel s p refs =
      match pushbuf_refn_pass c s p refs with
      | .error e => .error e
      | .ok (s2, ret) =>
        if ret ≠ 0 then
          match pushbuf_flush c s2 p with
          | .error e => .error e
          | .ok (s3, _) =>
            match nouveau_pushbuf_space c fuel s3 p 0 0 0 with
            | .error e => .error e
            | .ok (s4, _) => pushbuf_refn_pass c s4 p refs
        else .ok (s2, ret) := by
  unfold nouveau_pushbuf_refn pushbuf_refn pushbuf_refn_pass
  simp only []
  cases kref_loop c p s (refs.map (fun r => (r.bo, r.flags))) with
  | error e => rfl
  | ok v =>
    obtain ⟨s1, ret⟩ := v
    simp only []
    by_cases hr : ret ≠ 0
    · simp only [if_pos hr, if_true]
    · simp only [if_neg hr]

/-- The insertion pass of pushbuf_validate: it returns 0 or -ENOSPC, and after
-ENOSPC the count of references is the one at entry. -/
theorem validate_insert_spec {c : Consts} {s s1 : State} {p b : Nat} {r : Int} (hw : WF s)
    (h : validate_insert c s p b = .ok (s1, r)) :
    (r = 0 ∨ r = -(c.ENOSPC : Int)) ∧
    (r ≠ 0 → (s1.push p).krec.nr_buffer = (s.push p).krec.nr_buffer) := by
  unfold validate_insert at h
  simp only at h
  split at h
  · simp at h
  · rename_i s3 ret hl
    have hm := sameRefs_bctx_move s p b
    obtain ⟨l1, _, l3, l4, _⟩ := kref_loop_spec c p _ _ s3 ret (sameRefs_WF hm hw) hl
    split at h
    · simp only [Except.ok.injEq, Prod.mk.injEq] at h
      obtain ⟨rfl, rfl⟩ := h
      refine ⟨l3, fun _ => ?_⟩
      simp [pushbuf_refn_fail, setKrec, setPush]
    · rename_i hr
      simp only [Except.ok.injEq, Prod.mk.injEq] at h
      obtain ⟨rfl, rfl⟩ := h
      exact ⟨l3, fun hne => absurd hne hr⟩

/-- What the flag of a validation pass tells: the pass ended in the branch
behind the rollback of a failed insertion loop. -/
theorem validate_pass_failed {c : Consts}
    {space : State → Nat → Nat → Nat → Nat → Except Err (State × Int)} {s s1 : State} {p : Nat}
    {ret : Int} (hinv : ∀ t t1 dw rl pu r, Inv c t → space t p dw rl pu = .ok (t1, r) → Inv c t1)
    (hw : Inv c s) (h : validate_pass c space s p = .ok (s1, ret, true)) :
    ∃ b sA dw, (s.push p).bufctx = some b ∧ space s p dw dw 0 = .ok (sA, 0) ∧
      validate_insert c sA p b = .ok (s1, ret) ∧ ret = -(c.ENOSPC : Int) ∧ ret ≠ 0 ∧
      (s1.push p).krec.nr_buffer = (sA.push p).krec.nr_buffer := by
  unfold validate_pass at h
  simp only at h
  split at h
  · simp at h
  · rename_i sA retA hA
    cases hb : (s.push p).bufctx with
    | none => simp [hb] at h
    | some b =>
      simp only [hb] at h hA
      by_cases hr : retA ≠ 0
      · simp [hr] at h
      · rw [if_neg hr] at h
        have hr0 : retA = 0 := by simpa using hr
        subst hr0
        split at h
        · simp at h
        · rename_i s2 ret2 hins
          simp only [Except.ok.injEq, Prod.mk.injEq, decide_eq_true_eq] at h
          obtain ⟨rfl, rfl, hne⟩ := h
          obtain ⟨v1, v2⟩ := validate_insert_spec (hinv _ _ _ _ _ _ hw hA).1 hins
          refine ⟨b, sA, _, rfl, hA, hins, ?_, hne, v2 hne⟩
          rcases v1 with v | v
          · exact absurd v hne
          · exact v

/-- The shape of a returning call, on a state that satisfies the invariant of
the reference tracker.  When nouveau_pushbuf_refn returns, either its first pass returned 0, or the
first pass returned -ENOSPC with the count of references rolled back to the
one at entry and was followed by one flush, one reservation of space and one
more pass, run without retry: that pass returns 0 or -ENOSPC, after -ENOSPC
its references are rolled back too, and it touches nothing of the pushbuf but
the references of the record, so there is no further flush.  When
nouveau_pushbuf_validate returns, either its first pass did not end in a
failed insertion, or that insertion returned -ENOSPC and was rolled back, and
was followed by one flush and one run of pushbuf_validate without retry, which
is one more pass; if the insertion of that pass fails too, -ENOSPC is
returned with the pass rolled back. -/
theorem retry_once_spec (c : Consts) (fuel : Nat) (s : State) (p : Nat)
    (refs : List struct_nouveau_pushbuf_refn) (hi : Inv c s) :
    (∀ s1 ret, nouveau_pushbuf_refn c fuel s p refs = .ok (s1, ret) →
      (ret = 0 ∧ pushbuf_refn_pass c s p refs = .ok (s1, 0)) ∨
      (∃ s2 s3 r3 s4 r4,
        pushbuf_refn_pass c s p refs = .ok (s2, -(c.ENOSPC : Int)) ∧ c.ENOSPC ≠ 0 ∧
        (s2.push p).krec.nr_buffer = (s.push p).krec.nr_buffer ∧
        pushbuf_flush c s2 p = .ok (s3, r3) ∧
        nouveau_pushbuf_space c fuel s3 p 0 0 0 = .ok (s4, r4) ∧
        pushbuf_refn c fuel s4 p false refs = .ok (s1, ret) ∧
        pushbuf_refn_pass c s4 p refs = .ok (s1, ret) ∧
        (ret = 0 ∨ ret = -(c.ENOSPC : Int)) ∧
        (ret ≠ 0 → (s1.push p).krec.nr_buffer = (s4.push p).krec.nr_buffer) ∧
        PFrame s4 s1 p)) ∧
    (∀ s1 ret, nouveau_pushbuf_validate c fuel s p = .ok (s1, ret) →
      validate_pass c (nouveau_pushbuf_space c fuel) s p = .ok (s1, ret, false) ∨
      (∃ s2 s3 r3 f3,
        validate_pass c (nouveau_pushbuf_space c fuel) s p = .ok (s2, -(c.ENOSPC : Int), true) ∧
        c.ENOSPC ≠ 0 ∧
        (∃ b sA dw, nouveau_pushbuf_space c fuel s p dw dw 0 = .ok (sA, 0) ∧
          validate_insert c sA p b = .ok (s2, -(c.ENOSPC : Int)) ∧
          (s2.push p).krec.nr_buffer = (sA.push p).krec.nr_buffer) ∧
        pushbuf_flush c s2 p = .ok (s3, r3) ∧
        pushbuf_validate c fuel s3 p false = .ok (s1, ret) ∧
        validate_pass c (nouveau_pushbuf_space c fuel) s3 p = .ok (s1, ret, f3) ∧
        (f3 = true → ret = -(c.ENOSPC : Int) ∧
          ∃ b sB dw, nouveau_pushbuf_space c fuel s3 p dw dw 0 = .ok (sB, 0) ∧
            validate_insert c sB p b = .ok (s1, ret) ∧
            (s1.push p).krec.nr_buffer = (sB.push p).krec.nr_buffer))) := by
  have hsp : ∀ t t1 dw rl pu r, WF t → Bound c t →
      nouveau_pushbuf_space c fuel t p dw rl pu = .ok (t1, r) → Inv c t1 :=
    fun t t1 dw rl pu r hw hb h => inv_space c fuel t t1 p dw rl pu r ⟨hw, hb⟩ h
  refine ⟨fun s1 ret h => ?_, fun s1 ret h => ?_⟩
  · rw [nouveau_pushbuf_refn_eq] at h
    cases hp : pushbuf_refn_pass c s p refs with
    | error e => simp [hp] at h
    | ok v =>
      obtain ⟨s2, ret2⟩ := v
      simp only [hp] at h
      obtain ⟨w2, b2, e2, n2, _, _⟩ := refn_pass_spec hi.1 hp
      by_cases hr : ret2 ≠ 0
      · rw [if_pos hr] at h
        right
        have e3 : ret2 = -(c.ENOSPC : Int) := by
          rcases e2 with e | e
          · exact absurd e hr
          · exact e
        have hE : c.ENOSPC ≠ 0 := by
          intro h0; rw [e3, h0] at hr; simp at hr
        cases hf : pushbuf_flush c s2 p with
        | error e => simp [hf] at h
        | ok v3 =>
          obtain ⟨s3, r3⟩ := v3
          simp only [hf] at h
          have i3 := inv_flush ⟨w2, b2 hi.2⟩ hf
          cases hs : nouveau_pushbuf_space c fuel s3 p 0 0 0 with
          | error e => simp [hs] at h
          | ok v4 =>
            obtain ⟨s4, r4⟩ := v4
            simp only [hs] at h
            have i4 := hsp _ _ _ _ _ _ i3.1 i3.2 hs
            obtain ⟨_, _, e5, n5, _, pf⟩ := refn_pass_spec i4.1 h
            subst e3
            exact ⟨s2, s3, r3, s4, r4, rfl, hE, n2 hr, hf, hs,
              by rw [pushbuf_refn_false]; exact h, h, e5, n5, pf⟩
      · rw [if_neg hr] at h
        simp only [Except.ok.injEq, Prod.mk.injEq] at h
        obtain ⟨rfl, rfl⟩ := h
        have : ret2 = 0 := by simpa using hr
        subst this
        exact Or.inl ⟨rfl, rfl⟩
  · have hwf : ∀ t t1 dw rl pu r, Inv c t →
        nouveau_pushbuf_space c fuel t p dw rl pu = .ok (t1, r) → Inv c t1 :=
      fun t t1 dw rl pu r ht hs => inv_space c fuel t t1 p dw rl pu r ht hs
    unfold nouveau_pushbuf_validate pushbuf_validate pushbuf_validate_with at h
    cases hp : validate_pass c (nouveau_pushbuf_space c fuel) s p with
    | error e => simp [hp] at h
    | ok v =>
      obtain ⟨s2, ret2, failed⟩ := v
      simp only [hp] at h
      cases failed with
      | false =>
        simp only [Bool.false_eq_true, false_and, if_false, Except.ok.injEq, Prod.mk.injEq] at h
        obtain ⟨rfl, rfl⟩ := h
        exact Or.inl rfl
      | true =>
        simp only [and_self, if_true] at h
        right
        obtain ⟨b, sA, dw, _, hA, hins, e1, e2, e3⟩ := validate_pass_failed hwf hi hp
        have hE : c.ENOSPC ≠ 0 := by
          intro h0; rw [e1, h0] at e2; simp at e2
        have i2 : Inv c s2 := inv_validate_pass c _ p hwf hi hp
        cases hf : pushbuf_flush c s2 p with
        | error e => simp [hf] at h
        | ok v3 =>
          obtain ⟨s3, r3⟩ := v3
          simp only [hf] at h
          have i3 := inv_flush i2 hf
          cases hp2 : validate_pass c (nouveau_pushbuf_space c fuel) s3 p with
          | error e => simp [hp2] at h
          | ok v4 =>
            obtain ⟨s4, ret4, f4⟩ := v4
            simp only [hp2, Except.ok.injEq, Prod.mk.injEq] at h
            obtain ⟨rfl, rfl⟩ := h
            subst e1
            refine ⟨s2, s3, r3, f4, rfl, hE, ⟨b, sA, dw, hA, hins, e3⟩, hf, ?_, hp2, fun hf4 => ?_⟩
            · unfold pushbuf_validate pushbuf_validate_with
              simp [hp2]
            · subst hf4
              obtain ⟨b2, sB, dw2, _, hB, hins2, g1, _, g3⟩ := validate_pass_failed hwf i3 hp2
              exact ⟨g1, b2, sB, dw2, hB, hins2, g3⟩

/-- The same at the immediate pushbuf 0 of `stRec 1` and the batch of 1025
distinct buffers, which no pass can hold: nouveau_pushbuf_refn returns -ENOSPC after a failed first
pass, one flush, one reservation of space and one more failed pass, whose
references are rolled back. -/
theorem retry_once_spec_stRec :
    Inv hdr (stRec 1) ∧
    ∃ s1 s2 s3 r3 s4 r4,
      nouveau_pushbuf_refn hdr 1 (stRec 1) 0 batch1025 = .ok (s1, -28) ∧
      pushbuf_refn_pass hdr (stRec 1) 0 batch1025 = .ok (s2, -28) ∧
      pushbuf_flush hdr s2 0 = .ok (s3, r3) ∧
      nouveau_pushbuf_space hdr 1 s3 0 0 0 0 = .ok (s4, r4) ∧
      pushbuf_refn_pass hdr s4 0 batch1025 = .ok (s1, -28) ∧
      (s1.push 0).krec.nr_buffer = (s4.push 0).krec.nr_buffer := by
  obtain ⟨b1, b2, b3, b4⟩ := batch1025_facts
  obtain ⟨s1, h1, _⟩ := nouveau_pushbuf_refn_overfull hdr 0 (stRec 1) 0 batch1025 _ chan0 10 0
    (stRec_inv 1 (by decide)) (by decide) b1 b2 b3 (fun x hx => b4 1 x (by decide) hx)
    (by decide) (by decide) (by decide) (by decide) (by decide)
  refine ⟨stRec_inv 1 (by decide), ?_⟩
  rcases (retry_once_spec hdr 1 (stRec 1) 0 batch1025 (stRec_inv 1 (by decide))).1 s1 _ h1 with
    h | ⟨s2, s3, r3, s4, r4, g1, _, _, g4, g5, _, g7, _, g9, _⟩
  · exact absurd h.1 (by decide)
  · exact ⟨s1, s2, s3, r3, s4, r4, h1, g1, g4, g5, g7, g9 (by decide)⟩

/-! ## The invariant over the operations of a client -/

theorem fresh_inv (c : Consts) {s : State} (h : Fresh s) : Inv c s := by
  obtain ⟨h1, _, h3⟩ := h
  refine ⟨⟨fun bo k hk => ?_, fun q i hi => ?_⟩, fun q => ?_⟩
  · rw [h1] at hk; simp at hk
  · rw [(h3 q).1] at hi; omega
  · rw [(h3 q).1]; omega

theorem inv_refn (c : Consts) {fuel : Nat} {s s1 : State} {p : Nat}
    {refs : List struct_nouveau_pushbuf_refn} {r : Int} (hi : Inv c s)
    (h : nouveau_pushbuf_refn c fuel s p refs = .ok (s1, r)) : Inv c s1 := by
  rw [nouveau_pushbuf_refn_eq] at h
  cases hp : pushbuf_refn_pass c s p refs with
  | error e => simp [hp] at h
  | ok v =>
    obtain ⟨s2, ret2⟩ := v
    simp only [hp] at h
    obtain ⟨w2, b2, _⟩ := refn_pass_spec hi.1 hp
    split at h
    · cases hf : pushbuf_flush c s2 p with
      | error e => simp [hf] at h
      | ok v3 =>
        obtain ⟨s3, r3⟩ := v3
        simp only [hf] at h
        have i3 := inv_flush ⟨w2, b2 hi.2⟩ hf
        cases hs : nouveau_pushbuf_space c fuel s3 p 0 0 0 with
        | error e => simp [hs] at h
        | ok v4 =>
          obtain ⟨s4, r4⟩ := v4
          simp only [hs] at h
          have i4 := inv_space c fuel _ _ p 0 0 0 r4 i3 hs
          obtain ⟨w5, b5, _⟩ := refn_pass_spec i4.1 h
          exact ⟨w5, b5 i4.2⟩
    · simp only [Except.ok.injEq, Prod.mk.injEq] at h
      rw [← h.1]; exact ⟨w2, b2 hi.2⟩

theorem inv_kick (c : Consts) {fuel : Nat} {s s1 : State} {p : Nat}
    {chan : Option nouveau_object} {r : Int} (hi : Inv c s)
    (h : nouveau_pushbuf_kick c fuel s p chan = .ok (s1, r)) : Inv c s1 := by
  unfold nouveau_pushbuf_kick at h
  split at h
  · exact sameRefs_inv (sameRefs_of_submitFrame (pushbuf_submit_frame h)) hi
  · split at h
    · simp at h
    · rename_i t r2 hf
      exact inv_validate_with c _ p
        (fun t t1 dw rl pu r ht hs => inv_space c fuel t t1 p dw rl pu r ht hs) (inv_flush hi hf) h

theorem step_inv (c : Consts) {s s1 : State} (hi : Inv c s) (h : Step c s s1) : Inv c s1 := by
  cases h with
  | space fuel _ _ p dw rl pu r h => exact inv_space c fuel _ _ p dw rl pu r hi h
  | data _ _ p bo off len h =>
    exact sameRefs_inv (sameRefs_of_submitFrame (nouveau_pushbuf_data_frame h)) hi
  | refn fuel _ _ p refs r h => exact inv_refn c hi h
  | validate fuel _ _ p r h =>
    exact inv_validate_with c _ p
      (fun t t1 dw rl pu r ht hs => inv_space c fuel t t1 p dw rl pu r ht hs) hi h
  | kick fuel _ _ p chan r h => exact inv_kick c hi h
  | flush _ _ p r h => exact inv_flush hi h
  | kref _ _ p bo fl k h => exact inv_kref hi h
  | refn_pass _ _ p refs r h =>
    obtain ⟨w, b, _⟩ := refn_pass_spec hi.1 h
    exact ⟨w, b hi.2⟩
  | validate_pass fuel _ _ p r h =>
    exact inv_validate_with c _ p
      (fun t t1 dw rl pu r ht hs => inv_space c fuel t t1 p dw rl pu r ht hs) hi h
  | bufctx _ p ctx => exact sameRefs_inv (sameRefs_setPush s p _ rfl rfl) hi
  | write _ p n => exact sameRefs_inv (sameRefs_setPush s p _ rfl rfl) hi
  | reserve _ p n => exact sameRefs_inv (sameRefs_setPush s p _ rfl rfl) hi
  | declare _ bc => exact sameRefs_inv (sameRefs_bufctx s bc) hi

theorem reach_inv (c : Consts) {s0 s : State} (hi : Inv c s0) (h : Reach c s0 s) : Inv c s := by
  induction h with
  | refl => exact hi
  | tail _ hstep ih => exact step_inv c ih hstep

/-! ## One reference per buffer -/

theorem fresh_st0 (ks : List Nat) : Fresh (st0 ks) :=
  ⟨fun _ => rfl, fun _ => rfl, fun _ => ⟨rfl, rfl⟩⟩

theorem reach_st1 : Reach hdr (st0 []) (st1 []) :=
  (Relation.ReflTransGen.single
    (show Step hdr (st0 []) st0s from Step.space 3 (st0 []) st0s 0 16 0 0 0 rfl)).tail
    (Step.write st0s 0 4)

theorem reach_st2 : Reach hdr (st0 []) (st2 []) :=
  reach_st1.tail (Step.kref (st1 []) (st2 []) 0 7 hdr.NOUVEAU_BO_RD (some ⟨0, 1⟩) rfl)

/-- A repeated use of a buffer that has a live reference in the record of
pushbuf `q`: pushbuf_kref returns that reference, with the requested domains
ORed in, and changes no other reference and no count. -/
theorem kref_repeated (c : Consts) {s : State} (hw : WF s) (q i flags : Nat)
    (hi : i < (s.push q).krec.nr_buffer) :
    ∃ s1, pushbuf_kref c s q ((s.push q).krec.buffer i).bo flags = .ok (s1, some ⟨q, i⟩) ∧
      (s1.push q).krec.nr_buffer = (s.push q).krec.nr_buffer ∧
      (s1.push q).krec.nr_push = (s.push q).krec.nr_push ∧
      (s1.push q).krec.buffer i = { (s.push q).krec.buffer i with
        write_domains := ((s.push q).krec.buffer i).write_domains ||| domains_wr c flags,
        read_domains := ((s.push q).krec.buffer i).read_domains ||| domains_rd c flags } ∧
      (∀ j, j ≠ i → (s1.push q).krec.buffer j = (s.push q).krec.buffer j) ∧
      (∀ q1, q1 ≠ q → s1.push q1 = s.push q1) ∧ s1.kref = s.kref ∧ s1.kpush = s.kpush := by
  have hk := hw.2 q i hi
  have hp := (hw.1 _ _ hk).2.2
  have e : kref_insert c s q ((s.push q).krec.buffer i).bo flags =
      (storeKref s ⟨q, i⟩ { derefKref s ⟨q, i⟩ with
        write_domains := (derefKref s ⟨q, i⟩).write_domains ||| domains_wr c flags,
        read_domains := (derefKref s ⟨q, i⟩).read_domains ||| domains_rd c flags },
        some ⟨q, i⟩) := by
    unfold kref_insert cli_kref_get
    simp only [hk]
    rfl
  rw [pushbuf_kref_total c s q _ flags (Or.inr hp), e]
  refine ⟨_, rfl, ?_⟩
  · simp only [storeKref, setKrec, setPush, derefKref, Function.update_same, domains_wr,
      domains_rd, true_and]
    refine ⟨fun j hj => ?_, fun q1 hq => ?_, trivial⟩
    · rw [Function.update_noteq hj]
    · rw [Function.update_noteq hq]

/-- C14: in every state a client reaches from freshly constructed pushbufs by
the operations of pushbuf.c (reference insertion, batch insertion with
rollback, validation, flush and the others) no two live references, of the
same record or of two records, are for the same buffer object; the ownership
table maps the buffer of every live reference to exactly that reference and to
its pushbuf; and a repeated use of such a buffer returns that reference with
the requested domains ORed into it and leaves every other reference and the
count of references as they were. -/
theorem C14_one_reference (c : Consts) (s0 s : State) (h0 : Fresh s0) (hr : Reach c s0 s) :
    (∀ q1 q2 i j, i < (s.push q1).krec.nr_buffer → j < (s.push q2).krec.nr_buffer →
      ((s.push q1).krec.buffer i).bo = ((s.push q2).krec.buffer j).bo → q1 = q2 ∧ i = j) ∧
    (∀ q i, i < (s.push q).krec.nr_buffer →
      cli_kref_get s ((s.push q).krec.buffer i).bo = some ⟨q, i⟩ ∧
      cli_push_get s ((s.push q).krec.buffer i).bo = some q) ∧
    (∀ q i flags, i < (s.push q).krec.nr_buffer →
      ∃ s1, pushbuf_kref c s q ((s.push q).krec.buffer i).bo flags = .ok (s1, some ⟨q, i⟩) ∧
        (s1.push q).krec.nr_buffer = (s.push q).krec.nr_buffer ∧
        (s1.push q).krec.buffer i = { (s.push q).krec.buffer i with
          write_domains := ((s.push q).krec.buffer i).write_domains ||| domains_wr c flags,
          read_domains := ((s.push q).krec.buffer i).read_domains ||| domains_rd c flags } ∧
        (∀ j, j ≠ i → (s1.push q).krec.buffer j = (s.push q).krec.buffer j)) := by
  have hw := (reach_inv c (fresh_inv c h0) hr).1
  refine ⟨fun q1 q2 i j hi hj hb => ?_, fun q i hi => ?_, fun q i flags hi => ?_⟩
  · have h1 := hw.2 q1 i hi
    have h2 := hw.2 q2 j hj
    rw [hb, h2] at h1
    simp only [Option.some.injEq, KrefPtr.mk.injEq] at h1
    exact ⟨h1.1.symm, h1.2.symm⟩
  · have hk := hw.2 q i hi
    exact ⟨hk, (hw.1 _ _ hk).2.2⟩
  · obtain ⟨s1, a1, a2, _, a4, a5, _⟩ := kref_repeated c hw q i flags hi
    exact ⟨s1, a1, a2, a4, a5⟩

/-- C14 at `st2 []`, which the client reaches from `st0 []` by a reservation
of space, a write of four words and the insertion of object 7: the two live
references of pushbuf 0 are for different buffers, and a second insertion of
object 7 returns the reference at index 1 and leaves the count at 2. -/
theorem C14_one_reference_witness :
    Fresh (st0 []) ∧ Reach hdr (st0 []) (st2 []) ∧
    ((st2 []).push 0).krec.nr_buffer = 2 ∧
    (∀ i j, i < 2 → j < 2 →
      (((st2 []).push 0).krec.buffer i).bo = (((st2 []).push 0).krec.buffer j).bo → i = j) ∧
    ∃ s1, pushbuf_kref hdr (st2 []) 0 7 hdr.NOUVEAU_BO_WR = .ok (s1, some ⟨0, 1⟩) ∧
      (s1.push 0).krec.nr_buffer = 2 := by
  obtain ⟨t1, _, t3⟩ := C14_one_reference hdr (st0 []) (st2 []) (fresh_st0 []) reach_st2
  have hn : ((st2 []).push 0).krec.nr_buffer = 2 := by decide
  refine ⟨fresh_st0 [], reach_st2, hn, fun i j hi hj hb => ?_, ?_⟩
  · exact (t1 0 0 i j (by rw [hn]; exact hi) (by rw [hn]; exact hj) hb).2
  · obtain ⟨s1, a1, a2, _⟩ := t3 0 1 hdr.NOUVEAU_BO_WR (by rw [hn]; decide)
    exact ⟨s1, a1, by rw [a2, hn]⟩

/-! ## Push descriptors and the references they index -/

theorem dkeep_refl (s : State) (q : Nat) : DKeep s s q :=
  ⟨le_refl _, le_refl _, fun _ _ => rfl, fun _ _ => rfl, fun _ h1 h2 => absurd h2 (by omega)⟩

theorem dkeep_trans {s s1 s2 : State} {q : Nat} (h1 : DKeep s s1 q) (h2 : DKeep s1 s2 q) :
    DKeep s s2 q := by
  obtain ⟨a1, a2, a3, a4, a5⟩ := h1
  obtain ⟨b1, b2, b3, b4, b5⟩ := h2
  refine ⟨le_trans a1 b1, le_trans a2 b2, fun i hi => ?_, fun j hj => ?_, fun i hi1 hi2 => ?_⟩
  · rw [b3 i (lt_of_lt_of_le hi a1), a3 i hi]
  · rw [b4 j (lt_of_lt_of_le hj a2), a4 j hj]
  · by_cases h : i < (s1.push q).krec.nr_push
    · rw [b3 i h]; exact lt_of_lt_of_le (a5 i hi1 h) b2
    · exact b5 i (by omega) hi2

theorem growAt_refl (s : State) (q : Nat) : GrowAt s s q :=
  ⟨rfl, rfl, rfl, le_refl _, fun _ _ => rfl⟩

theorem growAt_trans {s s1 s2 : State} {q : Nat} (h1 : GrowAt s s1 q) (h2 : GrowAt s1 s2 q) :
    GrowAt s s2 q := by
  obtain ⟨a1, a2, a3, a4, a5⟩ := h1
  obtain ⟨b1, b2, b3, b4, b5⟩ := h2
  exact ⟨b1.trans a1, b2.trans a2, b3.trans a3, le_trans a4 b4,
    fun j hj => (b5 j (lt_of_lt_of_le hj a4)).trans (a5 j hj)⟩

theorem dkeep_of_growAt {s s1 : State} {q : Nat} (h : GrowAt s s1 q) : DKeep s s1 q := by
  obtain ⟨_, a2, a3, a4, a5⟩ := h
  exact ⟨le_of_eq a3.symm, a4, fun i _ => by rw [a2], a5, fun i h1 h2 => by omega⟩

theorem grow_refl (s : State) : RefsGrow s s := fun q => growAt_refl s q

theorem grow_trans {s s1 s2 : State} (h1 : RefsGrow s s1) (h2 : RefsGrow s1 s2) :
    RefsGrow s s2 := fun q => growAt_trans (h1 q) (h2 q)

theorem quiet_refl (s : State) : Quiet s s :=
  fun q => ⟨rfl, fun _ => le_refl _, Or.inr (dkeep_refl s q)⟩

theorem quiet_trans {s s1 s2 : State} (h1 : Quiet s s1) (h2 : Quiet s1 s2) : Quiet s s2 := by
  intro q
  obtain ⟨a1, a2, a3⟩ := h1 q
  obtain ⟨b1, b2, b3⟩ := h2 q
  refine ⟨b1.trans a1, fun hc => le_trans (b2 (by rw [a1]; exact hc)) (a2 hc), ?_⟩
  rcases b3 with b3 | b3
  · exact Or.inl b3
  · rcases a3 with a3 | a3
    · left
      have := b2 a3.1
      exact ⟨by rw [b1]; exact a3.1, by omega⟩
    · exact Or.inr (dkeep_trans a3 b3)

theorem quiet_of_grow {s s1 : State} (h : RefsGrow s s1) : Quiet s s1 :=
  fun q => ⟨(h q).1, fun _ => le_of_eq (h q).2.2.1, Or.inr (dkeep_of_growAt (h q))⟩

theorem grow_of_krec {s s1 : State}
    (h : ∀ q, (s1.push q).channel = (s.push q).channel ∧ (s1.push q).krec = (s.push q).krec) :
    RefsGrow s s1 := by
  intro q
  obtain ⟨a, b⟩ := h q
  unfold GrowAt
  rw [a, b]
  exact ⟨rfl, rfl, rfl, le_refl _, fun _ _ => rfl⟩

theorem grow_of_push {s s1 : State} (h : s1.push = s.push) : RefsGrow s s1 :=
  grow_of_krec (fun q => by rw [h]; exact ⟨rfl, rfl⟩)

theorem grow_setPush (s : State) (p : Nat) (v : nouveau_pushbuf_priv)
    (h1 : v.channel = (s.push p).channel) (h2 : v.krec = (s.push p).krec) :
    RefsGrow s (setPush s p v) := by
  apply grow_of_krec
  intro q
  by_cases hq : q = p
  · subst hq; simp [setPush, h1, h2]
  · simp [setPush, hq]

theorem bo_new_push (s : State) (size : Nat) : (nouveau_bo_new s size).1.push = s.push := by
  unfold nouveau_bo_new
  simp only
  split <;> rfl

theorem grow_space_select (s : State) (p dwords : Nat) :
    RefsGrow s (space_select s p dwords).1 := by
  unfold space_select
  simp only
  split
  · split
    · exact grow_trans (show RefsGrow s (bo_incref s _) from grow_of_push rfl)
        (grow_setPush _ p _ rfl rfl)
    · split
      · exact grow_of_push (bo_new_push s _)
      · exact grow_of_push (bo_new_push s _)
  · exact grow_refl s

theorem grow_kref_insert (c : Consts) (s : State) (p bo flags : Nat) :
    RefsGrow s (kref_insert c s p bo flags).1 := by
  unfold kref_insert
  simp only
  split
  · rename_i kref hk
    intro q
    by_cases hq : q = kref.push
    · subst hq
      refine ⟨?_, ?_, ?_, ?_, fun j hj => ?_⟩ <;>
        simp only [storeKref, setKrec, setPush, derefKref, Function.update_same, le_refl]
      by_cases hj2 : j = kref.idx
      · subst hj2; simp
      · rw [Function.update_noteq hj2]
    · simp [GrowAt, storeKref, setKrec, setPush, Function.update_noteq hq]
  · split
    · exact grow_refl s
    · intro q
      by_cases hq : q = p
      · subst hq
        refine ⟨?_, ?_, ?_, ?_, fun j hj => ?_⟩ <;>
          simp only [bo_incref, cli_kref_set, setKrec, setPush, Function.update_same]
        · omega
        · rw [Function.update_noteq (by omega)]
      · simp [GrowAt, bo_incref, cli_kref_set, setKrec, setPush, Function.update_noteq hq]

theorem quiet_flush {c : Consts} {s s1 : State} {p : Nat} {r : Int}
    (h : pushbuf_flush c s p = .ok (s1, r)) : Quiet s s1 := by
  obtain ⟨_, _, a3, _, a5, _⟩ := pushbuf_flush_inv h
  have hp := pool_flush h
  have hc : (s.push p).channel.isSome := by
    cases hch : (s.push p).channel with
    | none => rw [pushbuf_flush_deferred c s p hch] at h; simp at h
    | some ch => rfl
  intro q
  by_cases hq : q = p
  · subst hq
    have hc1 := (hp.2.2.2.2 q).1
    exact ⟨hc1, fun _ => by rw [a3]; omega, Or.inl ⟨by rw [hc1]; exact hc, a3⟩⟩
  · have e := a5 q hq
    exact ⟨by rw [e], fun _ => by rw [e], Or.inr (by unfold DKeep; rw [e]; exact dkeep_refl s q)⟩

theorem flush_growAt {c : Consts} {s s1 : State} {p q : Nat} {r : Int}
    (h : pushbuf_flush c s p = .ok (s1, r)) (hq : q ≠ p) : GrowAt s s1 q := by
  obtain ⟨_, _, _, _, a5, _⟩ := pushbuf_flush_inv h
  unfold GrowAt
  rw [a5 q hq]
  exact ⟨rfl, rfl, rfl, le_refl _, fun _ _ => rfl⟩

theorem quiet_kref {c : Consts} {s s1 : State} {p bo flags : Nat} {k : Option KrefPtr}
    (h : pushbuf_kref c s p bo flags = .ok (s1, k)) : Quiet s s1 ∧ GrowAt s s1 p := by
  unfold pushbuf_kref at h
  split at h
  · simp at h
  · rename_i sf hf
    simp only [Except.ok.injEq] at h
    have h1 : (kref_insert c sf p bo flags).1 = s1 := by rw [h]
    rw [← h1]
    have g := grow_kref_insert c sf p bo flags
    have hfo : Quiet s sf ∧ GrowAt s sf p := by
      unfold kref_flush_other at hf
      split at hf
      · simp only [Except.ok.injEq] at hf; rw [← hf]; exact ⟨quiet_refl s, growAt_refl s p⟩
      · split at hf
        · rename_i fpush _ hne
          split at hf
          · simp at hf
          · rename_i s2 r2 hfl
            simp only [Except.ok.injEq] at hf
            rw [← hf]; exact ⟨quiet_flush hfl, flush_growAt hfl (fun e => hne e.symm)⟩
        · simp only [Except.ok.injEq] at hf; rw [← hf]; exact ⟨quiet_refl s, growAt_refl s p⟩
    exact ⟨quiet_trans hfo.1 (quiet_of_grow g), growAt_trans hfo.2 (g p)⟩

/-- What the `if (bo)` part of nouveau_pushbuf_data does to the records, on a
state where table and records agree: the descriptor it adds indexes a live
reference of the record of `p`. -/
theorem append_keep {s s1 : State} {p : Nat} {bo : Option Nat} {off len : Nat} (hw : WF s)
    (h : push_data_append s p bo off len = .ok s1) :
    ∀ q, (s1.push q).channel = (s.push q).channel ∧ DKeep s s1 q := by
  unfold push_data_append at h
  cases bo with
  | none =>
    simp only [Except.ok.injEq] at h
    subst h
    exact fun q => ⟨rfl, dkeep_refl _ q⟩
  | some b =>
    simp only [] at h
    cases hk : cli_kref_get s b with
    | none => simp [hk] at h
    | some k =>
      simp only [hk] at h
      by_cases hp : k.push ≠ p
      · simp [hp] at h
      · rw [if_neg hp] at h
        simp only [Except.ok.injEq] at h
        subst h
        have hp2 : k.push = p := by simpa using hp
        have hidx := (hw.1 b k hk).1
        rw [hp2] at hidx
        intro q
        by_cases hq : q = p
        · subst hq
          refine ⟨?_, ?_, ?_, ?_, ?_, ?_⟩ <;>
            simp only [setKrec, setPush, Function.update_same, le_refl]
          · omega
          · intro i hi
            rw [Function.update_noteq (by omega)]
          · intro j _; trivial
          · intro i h1 h2
            have : i = (s.push q).krec.nr_push := by omega
            subst this
            simpa using hidx
        · simp only [DKeep, setKrec, setPush, Function.update_noteq hq]
          exact ⟨trivial, le_refl _, le_refl _, fun _ _ => trivial, fun _ _ => trivial,
            fun _ h1 h2 => absurd h2 (by omega)⟩

theorem append_WF {s s1 : State} {p : Nat} {bo : Option Nat} {off len : Nat} (hw : WF s)
    (h : push_data_append s p bo off len = .ok s1) : WF s1 :=
  sameRefs_WF (sameRefs_of_submitFrame (push_data_append_frame h)) hw

theorem data_keep {s s1 : State} {p : Nat} {bo : Option Nat} {off len : Nat} (hw : WF s)
    (h : nouveau_pushbuf_data s p bo off len = .ok s1) :
    ∀ q, (s1.push q).channel = (s.push q).channel ∧ DKeep s s1 q := by
  unfold nouveau_pushbuf_data at h
  simp only at h
  split at h
  · split at h
    · simp at h
    · rename_i s2 h2
      have k1 := append_keep hw h2
      have w2 := append_WF hw h2
      have g := grow_setPush s2 p { s2.push p with bgn := (s2.push p).cur } rfl rfl
      have w3 : WF (setPush s2 p { s2.push p with bgn := (s2.push p).cur }) :=
        sameRefs_WF (sameRefs_setPush s2 p _ rfl rfl) w2
      have k3 := append_keep w3 h
      intro q
      exact ⟨((k3 q).1.trans (g q).1).trans (k1 q).1,
        dkeep_trans (k1 q).2 (dkeep_trans (dkeep_of_growAt (g q)) (k3 q).2)⟩
  · exact append_keep hw h

/-- The call nouveau_pushbuf_data(push, NULL, 0, 0) on a pushbuf that has no
current buffer or no reference adds no descriptor. -/
theorem data_null_same {s s1 : State} {p : Nat} (hw : WF s)
    (hpre : (s.push p).bo = none ∨ (s.push p).krec.nr_buffer = 0)
    (h : nouveau_pushbuf_data s p none 0 0 = .ok s1) : s1 = s := by
  unfold nouveau_pushbuf_data at h
  simp only at h
  split at h
  · rename_i hc
    split at h
    · simp at h
    · rename_i s2 h2
      exfalso
      cases hb : (s.push p).bo with
      | none => rw [hb] at hc; exact hc.1 rfl
      | some b0 =>
        have hn : (s.push p).krec.nr_buffer = 0 := by
          rcases hpre with h0 | h0
          · rw [hb] at h0; simp at h0
          · exact h0
        rw [hb] at h2
        unfold push_data_append at h2
        simp only at h2
        cases hk : cli_kref_get s b0 with
        | none => simp [hk] at h2
        | some k =>
          simp only [hk] at h2
          by_cases hp : k.push ≠ p
          · simp [hp] at h2
          · have hp2 : k.push = p := by simpa using hp
            have hidx := (hw.1 b0 k hk).1
            rw [hp2, hn] at hidx
            omega
  · simp only [push_data_append, Except.ok.injEq] at h
    exact h.symm

theorem quiet_space_switch {s s1 : State} {p : Nat} {bo : Option Nat} {r : Int} (hw : WF s)
    (hpre : ∀ b, bo = some b → (s.push p).channel.isSome →
      (s.push p).bo = none ∨ (s.push p).krec.nr_buffer = 0)
    (h : space_switch s p bo = .ok (s1, r)) : Quiet s s1 := by
  unfold space_switch at h
  cases bo with
  | none =>
    simp only [Except.ok.injEq, Prod.mk.injEq] at h
    rw [← h.1]; exact quiet_refl s
  | some b =>
    simp only at h
    have hm : RefsGrow s (nouveau_bo_map s).1 := grow_of_push rfl
    split at h
    · simp only [Except.ok.injEq, Prod.mk.injEq] at h
      rw [← h.1]; exact quiet_of_grow hm
    · split at h
      · simp at h
      · rename_i s4 hd
        simp only [Except.ok.injEq, Prod.mk.injEq] at h
        rw [← h.1]
        have wm : WF (nouveau_bo_map s).1 := hw
        have h4 : Quiet (nouveau_bo_map s).1 s4 := by
          by_cases hch : (s.push p).channel.isSome
          · have := data_null_same wm (hpre b rfl hch) hd
            rw [this]; exact quiet_refl _
          · intro q
            obtain ⟨k1, k2⟩ := data_keep wm hd q
            refine ⟨k1, fun hc => ?_, Or.inr k2⟩
            by_cases hq : q = p
            · subst hq; exact absurd hc hch
            · obtain ⟨pu, n, bg, e⟩ := nouveau_pushbuf_data_form hd
              rw [e]
              simp [setPush, hq]
        have h5 : RefsGrow s4 (bo_ref_current s4 p b) := by
          unfold bo_ref_current
          simp only
          refine grow_trans (show RefsGrow s4 (bo_incref s4 b) from grow_of_push rfl) (grow_trans ?_
            (grow_setPush _ p _ rfl rfl))
          split
          · exact grow_of_push rfl
          · exact grow_refl _
        have h6 : RefsGrow (bo_ref_current s4 p b) (bo_unref (bo_ref_current s4 p b) b) :=
          grow_of_push rfl
        exact quiet_trans (quiet_trans (quiet_of_grow hm) h4)
          (quiet_of_grow (grow_trans (grow_trans h5 h6) (grow_setPush _ p _ rfl rfl)))

/-- When nouveau_pushbuf_space has selected a buffer for a pushbuf with a
channel, the pushbuf has no current buffer or no reference by the time the
buffer is switched: the flush condition held, and the flush ran unless one of
the two was the case. -/
theorem switch_pre {c : Consts} {s s2 s3 : State} {p b pu : Nat} {flushed : Bool}
    (hc : space_cond c s p (some b) pu = .ok (s2, flushed))
    (hf : space_flush c s2 p flushed = .ok s3) (hch : (s3.push p).channel.isSome) :
    (s3.push p).bo = none ∨ (s3.push p).krec.nr_buffer = 0 := by
  unfold space_flush at hf
  split at hf
  · split at hf
    · simp at hf
    · rename_i t r2 hf2
      simp only [Except.ok.injEq] at hf
      rw [← hf]
      exact Or.inr (pushbuf_flush_inv hf2).2.1
  · rename_i hg
    simp only [Except.ok.injEq] at hf
    subst hf
    have hfl : flushed = true := by
      unfold space_cond at hc
      simp only at hc
      split at hc
      · simp only [Except.ok.injEq, Prod.mk.injEq] at hc
        exact hc.2.symm
      · rename_i hn
        exfalso
        have hp : Pool s s2 := by
          split at hc
          · simp at hc
          · rename_i t hk
            simp only [Except.ok.injEq, Prod.mk.injEq] at hc
            rw [← hc.1]; exact pool_kref hk
          · rename_i t k hk
            simp only [Except.ok.injEq, Prod.mk.injEq] at hc
            rw [← hc.1]; exact pool_kref hk
        rw [(hp.2.2.2.2 p).1] at hch
        exact hn hch
    subst hfl
    simp only [true_and, not_and, not_not] at hg
    cases hb : (s2.push p).bo with
    | none => exact Or.inl rfl
    | some b0 =>
      right
      exact hg (by rw [hb]; rfl)

theorem reach_st1f : Reach hdr (st0 []) st1f :=
  reach_st1.tail (Step.data (st1 []) st1f 0 none 0 0 rfl)

/-! ## The bounds of a record -/

theorem noGrow_of_quiet {s s1 : State} (h : Quiet s s1) : NoGrow s s1 :=
  fun q hc => (h q).2.1 hc

theorem reach_stEnd : Reach hdr (st0 []) stEnd :=
  (((Relation.ReflTransGen.single
    (show Step hdr (st0 []) st0s from Step.space 3 (st0 []) st0s 0 16 0 0 0 rfl)).tail
    (Step.write st0s 0 1021)).tail
    (Step.bufctx (client_write st0s 0 1021) 0 (some 5))).tail
    (Step.declare _ _)

/-- C19 as stated fails: in `stEnd`, which the client reaches from the fresh
state `st0 []`, the immediate pushbuf 0 has one word left in its command buffer
of 1022 usable words and a context with one relocation attached, so twice the
relocation count, 2, is smaller than the usable words of a pool buffer, and
NOUVEAU_GEM_MAX_PUSH = 512 > 1.  The call nouveau_pushbuf_space(push, 0, 0, 511)
reaches the push limit and flushes without replacing the buffer; the call
pushbuf_validate makes asks for 2 words, replaces the buffer and flushes again;
only the call made from there returns without a flush.  With room for one
re-entry the model runs out of fuel; with room for two the call returns 0. -/
theorem C19_counterexample_two_reentries :
    Reach hdr (st0 []) stEnd ∧ (stEnd.push 0).channel = some chan0 ∧
    reloc_words stEnd 0 = 2 ∧
    (∀ i, i < (stEnd.push 0).bo_nr →
      reloc_words stEnd 0 + (2 + (stEnd.push 0).rsvd_kick) % 2 ^ 32
        < (stEnd.bo ((stEnd.push 0).bos i)).size / 4) ∧
    1 < hdr.NOUVEAU_GEM_MAX_PUSH ∧
    nouveau_pushbuf_space hdr 2 stEnd 0 0 0 511 = .error .nofuel ∧
    ∃ s1, nouveau_pushbuf_space hdr 3 stEnd 0 0 0 511 = .ok (s1, 0) :=
  ⟨reach_stEnd, rfl, by decide, by decide, by decide, rfl, _, rfl⟩

theorem space_eq_body (c : Consts) (fuel : Nat) (s : State) (p dwords relocs pushes : Nat) :
    nouveau_pushbuf_space c (fuel + 1) s p dwords relocs pushes =
      match space_body c s p dwords pushes with
      | .error e => .error e
      | .ok (s9, ret, flushed) =>
        if ret ≠ 0 then .ok (s9, ret)
        else if flushed = true then
          pushbuf_validate_with c (nouveau_pushbuf_space c fuel) s9 p false
        else .ok (s9, 0) := by
  unfold nouveau_pushbuf_space space_body
  simp only
  split
  · rename_i h; simp [h]
  · split
    · rfl
    · rename_i s2 flushed hc
      split
      · rfl
      · rename_i s3 hf
        split
        · rfl
        · rename_i s8 ret hsw
          split
          · rename_i h; simp [h]
          · split
            · rfl
            · rename_i cb hb
              split
              · rfl
              · rename_i s9 k hk
                simp

theorem append_nf {s : State} {p : Nat} {bo : Option Nat} {off len : Nat} :
    push_data_append s p bo off len ≠ .error .nofuel := by
  unfold push_data_append
  intro h
  split at h
  · simp at h
  · split at h
    · simp at h
    · split at h <;> simp at h

theorem data_nf {s : State} {p : Nat} {bo : Option Nat} {off len : Nat} :
    nouveau_pushbuf_data s p bo off len ≠ .error .nofuel := by
  unfold nouveau_pushbuf_data
  intro h
  simp only at h
  split at h
  · split at h
    · rename_i e h2
      simp only [Except.error.injEq] at h
      subst h
      exact append_nf h2
    · exact append_nf h
  · exact append_nf h

theorem submit_nf {c : Consts} {s : State} {p : Nat} {chan : Option nouveau_object} :
    pushbuf_submit c s p chan ≠ .error .nofuel := by
  unfold pushbuf_submit
  intro h
  split at h
  · simp at h
  · split at h
    · simp at h
    · split at h
      · rename_i e h2
        simp only [Except.error.injEq] at h
        subst h
        exact data_nf h2
      · simp at h

theorem flush_nf {c : Consts} {s : State} {p : Nat} :
    pushbuf_flush c s p ≠ .error .nofuel := by
  unfold pushbuf_flush
  intro h
  split at h
  · rename_i e h2
    simp only [Except.error.injEq] at h
    subst h
    exact submit_nf h2
  · simp at h

theorem kref_nf {c : Consts} {s : State} {p bo flags : Nat} :
    pushbuf_kref c s p bo flags ≠ .error .nofuel := by
  unfold pushbuf_kref kref_flush_other
  intro h
  split at h
  · rename_i e h2
    simp only [Except.error.injEq] at h
    subst h
    split at h2
    · simp at h2
    · split at h2
      · split at h2
        · rename_i e2 h3
          simp only [Except.error.injEq] at h2
          subst h2
          exact flush_nf h3
        · simp at h2
      · simp at h2
  · simp at h

theorem kref_loop_nf (c : Consts) (p : Nat) : ∀ (l : List (Nat × Nat)) (s : State),
    kref_loop c p s l ≠ .error .nofuel := by
  intro l
  induction l with
  | nil => intro s h; simp [kref_loop] at h
  | cons x xs ih =>
    intro s h
    unfold kref_loop at h
    split at h
    · rename_i e h2
      simp only [Except.error.injEq] at h
      subst h
      exact kref_nf h2
    · simp at h
    · exact ih _ h

theorem validate_insert_nf {c : Consts} {s : State} {p b : Nat} :
    validate_insert c s p b ≠ .error .nofuel := by
  unfold validate_insert
  intro h
  simp only at h
  split at h
  · rename_i e h2
    simp only [Except.error.injEq] at h
    subst h
    exact kref_loop_nf c p _ _ h2
  · split at h <;> simp at h

theorem space_body_nf {c : Consts} {s : State} {p dwords pushes : Nat} :
    space_body c s p dwords pushes ≠ .error .nofuel := by
  unfold space_body
  intro h
  simp only at h
  split at h
  · simp at h
  · split at h
    · rename_i e hc
      simp only [Except.error.injEq] at h
      subst h
      unfold space_cond at hc
      simp only at hc
      split at hc
      · simp at hc
      · split at hc
        · simp at hc
        · split at hc
          · rename_i e2 hk
            simp only [Except.error.injEq] at hc
            subst hc
            exact kref_nf hk
          · simp at hc
          · simp at hc
    · split at h
      · rename_i e hf
        simp only [Except.error.injEq] at h
        subst h
        unfold space_flush at hf
        split at hf
        · split at hf
          · rename_i e2 hf2
            simp only [Except.error.injEq] at hf
            subst hf
            exact flush_nf hf2
          · simp at hf
        · simp at hf
      · split at h
        · rename_i e hsw
          simp only [Except.error.injEq] at h
          subst h
          unfold space_switch at hsw
          split at hsw
          · simp at hsw
          · simp only at hsw
            split at hsw
            · simp at hsw
            · split at hsw
              · rename_i e2 hd
                simp only [Except.error.injEq] at hsw
                subst hsw
                exact data_nf hd
              · simp at hsw
        · split at h
          · simp at h
          · split at h
            · simp at h
            · split at h
              · rename_i e hk
                simp only [Except.error.injEq] at h
                subst h
                exact kref_nf hk
              · simp at h

/-- The words pushbuf_validate asks for. -/
theorem validate_pass_words (c : Consts)
    (space : State → Nat → Nat → Nat → Nat → Except Err (State × Int)) (s : State) (p : Nat) :
    validate_pass c space s p =
      match space s p (reloc_words s p) (reloc_words s p) 0 with
      | .error e => .error e
      | .ok (s1, ret) =>
        match (s.push p).bufctx with
        | none => .ok (s1, ret, false)
        | some b =>
          if ret ≠ 0 then .ok (s1, ret, false)
          else
            match validate_insert c s1 p b with
            | .error e => .error e
            | .ok (s2, ret2) => .ok (s2, ret2, decide (ret2 ≠ 0)) := by
  unfold validate_pass reloc_words
  cases hb : (s.push p).bufctx with
  | none => simp
  | some b => simp

/-- pushbuf_validate without retry looks at the function it calls for space
only through the one call it makes. -/
theorem validate_with_congr (c : Consts)
    (sp1 sp2 : State → Nat → Nat → Nat → Nat → Except Err (State × Int)) (s : State) (p : Nat)
    (h : sp1 s p (reloc_words s p) (reloc_words s p) 0 = sp2 s p (reloc_words s p) (reloc_words s p) 0) :
    pushbuf_validate_with c sp1 s p false = pushbuf_validate_with c sp2 s p false := by
  unfold pushbuf_validate_with
  rw [validate_pass_words c sp1, validate_pass_words c sp2, h]
  simp only [Bool.false_eq_true, and_false, if_false]

theorem validate_with_nf (c : Consts)
    (sp : State → Nat → Nat → Nat → Nat → Except Err (State × Int)) (s : State) (p : Nat) :
    pushbuf_validate_with c sp s p false = .error .nofuel ↔
      sp s p (reloc_words s p) (reloc_words s p) 0 = .error .nofuel := by
  unfold pushbuf_validate_with
  rw [validate_pass_words c sp]
  constructor
  · intro h
    split at h
    · rename_i e hp
      simp only [Except.error.injEq] at h
      subst h
      split at hp
      · rename_i e2 hs
        simp only [Except.error.injEq] at hp
        subst hp
        exact hs
      · split at hp
        · simp at hp
        · split at hp
          · simp at hp
          · split at hp
            · rename_i e3 hins
              simp only [Except.error.injEq] at hp
              subst hp
              exact absurd hins validate_insert_nf
            · simp at hp
    · simp at h
  · intro h
    rw [h]

/-- A call of nouveau_pushbuf_space that does not run out of fuel gives the
same result with more fuel. -/
theorem space_fuel_succ (c : Consts) : ∀ (fuel : Nat) (s : State) (p dwords relocs pushes : Nat),
    nouveau_pushbuf_space c fuel s p dwords relocs pushes ≠ .error .nofuel →
    nouveau_pushbuf_space c (fuel + 1) s p dwords relocs pushes
      = nouveau_pushbuf_space c fuel s p dwords relocs pushes := by
  intro fuel
  induction fuel with
  | zero => intro s p dw rl pu h; exact absurd rfl h
  | succ n ih =>
    intro s p dw rl pu h
    rw [space_eq_body] at h
    rw [space_eq_body c (n + 1), space_eq_body c n]
    cases hp : space_body c s p dw pu with
    | error e => rfl
    | ok v =>
      obtain ⟨s9, ret, fl⟩ := v
      rw [hp] at h
      simp only at h ⊢
      by_cases hr : ret ≠ 0
      · rw [if_pos hr, if_pos hr]
      · rw [if_neg hr, if_neg hr]
        rw [if_neg hr] at h
        cases fl with
        | false => rfl
        | true =>
          simp only [if_true] at h ⊢
          apply validate_with_congr
          apply ih
          intro h2
          exact h ((validate_with_nf c _ s9 p).mpr h2)

theorem space_fuel_add (c : Consts) (k : Nat) (s : State) (p dwords relocs pushes : Nat)
    (h : nouveau_pushbuf_space c k s p dwords relocs pushes ≠ .error .nofuel) (fuel : Nat) :
    nouveau_pushbuf_space c (fuel + k) s p dwords relocs pushes
      = nouveau_pushbuf_space c k s p dwords relocs pushes := by
  induction fuel with
  | zero => rw [Nat.zero_add]
  | succ n ih =>
    rw [show n + 1 + k = (n + k) + 1 from by omega, space_fuel_succ c (n + k) s p _ _ _ (by rw [ih]; exact h), ih]

/-- The steps of a run of the body of nouveau_pushbuf_space that got to its
last statement with status 0. -/
theorem space_body_inv {c : Consts} {s s9 : State} {p dwords pushes : Nat} {ret : Int}
    {fl : Bool} (h : space_body c s p dwords pushes = .ok (s9, ret, fl)) :
    (ret ≠ 0 ∧ fl = false) ∨
    (ret = 0 ∧ (space_select s p dwords).2.1 = 0 ∧ ∃ s2 s3 s8 cb k,
      space_cond c (space_select s p dwords).1 p (space_select s p dwords).2.2
        ((pushes + 1) % 2 ^ 32) = .ok (s2, fl) ∧
      space_flush c s2 p fl = .ok s3 ∧
      space_switch s3 p (space_select s p dwords).2.2 = .ok (s8, 0) ∧
      (s8.push p).bo = some cb ∧ pushbuf_kref c s8 p cb (s8.push p).flags = .ok (s9, k)) := by
  unfold space_body at h
  simp only at h
  split at h
  · rename_i hne
    simp only [Except.ok.injEq, Prod.mk.injEq] at h
    left; rw [← h.2.1, ← h.2.2]; exact ⟨hne, rfl⟩
  · rename_i hsel
    split at h
    · simp at h
    · rename_i s2 flushed hc
      split at h
      · simp at h
      · rename_i s3 hf
        split at h
        · simp at h
        · rename_i s8 ret8 hsw
          split at h
          · rename_i hne
            simp only [Except.ok.injEq, Prod.mk.injEq] at h
            left; rw [← h.2.1, ← h.2.2]; exact ⟨hne, rfl⟩
          · rename_i hr8
            have hr0 : ret8 = 0 := by simpa using hr8
            subst hr0
            split at h
            · simp at h
            · rename_i cb hb
              split at h
              · simp at h
              · rename_i t k hk
                simp only [Except.ok.injEq, Prod.mk.injEq] at h
                obtain ⟨rfl, rfl, rfl⟩ := h
                right
                exact ⟨rfl, by simpa using hsel, s2, s3, s8, cb, k, hc, hf, hsw, hb, hk⟩

theorem space_switch_at {s s1 : State} {p b : Nat}
    (h : space_switch s p (some b) = .ok (s1, 0)) :
    (s1.push p).bo = some b ∧ (s1.push p).cur = (s1.bo b).map ∧
    (s1.push p).end_ = (s1.bo b).map + (((s1.bo b).size / 4 : Nat) : Int)
      - ((((2 + (s1.push p).rsvd_kick) % 2 ^ 32 : Nat)) : Int) := by
  unfold space_switch at h
  simp only at h
  split at h
  · rename_i hm
    simp only [Except.ok.injEq, Prod.mk.injEq] at h
    exact absurd h.2 hm
  · split at h
    · simp at h
    · rename_i s4 hd
      simp only [Except.ok.injEq, Prod.mk.injEq, and_true] at h
      rw [← h]
      have hb : ((bo_ref_current s4 p b).push p).bo = some b := by
        simp [bo_ref_current, setPush]
      refine ⟨?_, ?_, ?_⟩
      · simp [setPush, bo_unref, hb]
      · simp [setPush, bo_unref]
      · simp [setPush, bo_unref]

theorem space_select_push (s : State) (p dwords : Nat) (q : Nat) :
    ((space_select s p dwords).1.push q).bo = (s.push q).bo ∧
    ((space_select s p dwords).1.push q).cur = (s.push q).cur ∧
    ((space_select s p dwords).1.push q).end_ = (s.push q).end_ := by
  unfold space_select
  simp only
  split
  · split
    · by_cases hq : q = p
      · subst hq; simp [setPush, bo_incref]
      · simp [setPush, bo_incref, hq]
    · split
      · rw [bo_new_push]; exact ⟨rfl, rfl, rfl⟩
      · rw [bo_new_push]; exact ⟨rfl, rfl, rfl⟩
  · exact ⟨rfl, rfl, rfl⟩

theorem reloc_words_rot {s s1 : State} {p : Nat} (h : Rot s s1 p) :
    reloc_words s1 p = reloc_words s p := by
  unfold reloc_words
  rw [(h.2.2.2.2.1 p).2.2.2.2.2.1]
  cases (s.push p).bufctx with
  | none => rfl
  | some b => simp only; rw [h.2.2.1 b]

theorem poolFit_rot {s s1 : State} {p : Nat} (h : Rot s s1 p) (hf : PoolFit s p) :
    PoolFit s1 p := by
  obtain ⟨f1, f2⟩ := hf
  obtain ⟨_, x2, x3, _, x5, _, _⟩ := h.2.2.2.2.1 p
  refine ⟨h.2.2.2.2.2 f1, fun i hi => ?_⟩
  rw [reloc_words_rot h, x5, x3, (h.2.2.2.1 _).1]
  exact f2 i (by rw [← x2]; exact hi)

/-- An insertion into the record of a pushbuf leaves the record with at least
one reference, when records have room for one at all. -/
theorem kref_nonempty {c : Consts} {s s1 : State} {p bo flags : Nat} {k : Option KrefPtr}
    (hi : Inv c s) (hB : 0 < c.NOUVEAU_GEM_MAX_BUFFERS)
    (h : pushbuf_kref c s p bo flags = .ok (s1, k)) : (s1.push p).krec.nr_buffer ≠ 0 := by
  obtain ⟨w1, _, a3, a4, _, _⟩ := pushbuf_kref_spec hi.1 h
  cases hk : k with
  | none =>
    obtain ⟨_, _, e, hn⟩ := a3 hk
    rw [e, hn]; omega
  | some kp =>
    obtain ⟨⟨i, hki⟩, hfl, _, _⟩ := a4 (by rw [hk]; simp)
    have h1 := hfl bo
    rw [if_pos rfl] at h1
    unfold refFlags at h1
    cases ho : own s1 p bo with
    | none => rw [ho] at h1; simp at h1
    | some r =>
      obtain ⟨j, hj, _⟩ := own_some_iff.mp ho
      have := (w1.1 bo _ hj).1
      simp only at this
      omega

/-- What a run of the body of nouveau_pushbuf_space that got to its last
statement leaves: the invariant, a current buffer and a reference, and the
channels as they were. -/
theorem space_body_props {c : Consts} {s s9 : State} {p dwords pushes : Nat} {fl : Bool}
    (hi : Inv c s) (hB : 0 < c.NOUVEAU_GEM_MAX_BUFFERS)
    (h : space_body c s p dwords pushes = .ok (s9, 0, fl)) :
    Inv c s9 ∧ (s9.push p).bo.isSome ∧ (s9.push p).krec.nr_buffer ≠ 0 ∧ Quiet s s9 := by
  rcases space_body_inv h with ⟨hne, _⟩ | ⟨_, _, s2, s3, s8, cb, k, hc, hf, hsw, hb, hk⟩
  · exact absurd rfl hne
  · have i1 : Inv c (space_select s p dwords).1 :=
      sameRefs_inv (sameRefs_space_select s p dwords) hi
    have i2 := inv_space_cond i1 hc
    have i3 := inv_space_flush i2 hf
    have i8 := sameRefs_inv (sameRefs_space_switch hsw) i3
    have i9 := inv_kref i8 hk
    have q1 : Quiet s (space_select s p dwords).1 := quiet_of_grow (grow_space_select s p dwords)
    have q2 : Quiet (space_select s p dwords).1 s2 := by
      unfold space_cond at hc
      simp only at hc
      split at hc
      · simp only [Except.ok.injEq, Prod.mk.injEq] at hc
        rw [← hc.1]; exact quiet_refl _
      · split at hc
        · simp only [Except.ok.injEq, Prod.mk.injEq] at hc
          rw [← hc.1]; exact quiet_refl _
        · split at hc
          · simp at hc
          · rename_i t hk2
            simp only [Except.ok.injEq, Prod.mk.injEq] at hc
            rw [← hc.1]; exact (quiet_kref hk2).1
          · rename_i t k2 hk2
            simp only [Except.ok.injEq, Prod.mk.injEq] at hc
            rw [← hc.1]; exact (quiet_kref hk2).1
    have q3 : Quiet s2 s3 := by
      unfold space_flush at hf
      split at hf
      · split at hf
        · simp at hf
        · rename_i t r2 hf2
          simp only [Except.ok.injEq] at hf
          rw [← hf]; exact quiet_flush hf2
      · simp only [Except.ok.injEq] at hf
        rw [← hf]; exact quiet_refl _
    have q8 : Quiet s3 s8 := quiet_space_switch i3.1
      (fun b hbb hch => by rw [hbb] at hc hsw; exact switch_pre hc hf hch) hsw
    have q9 := (quiet_kref hk).1
    have g9 := geom_kref hk
    refine ⟨i9, ?_, kref_nonempty i8 hB hk,
      quiet_trans (quiet_trans (quiet_trans (quiet_trans q1 q2) q3) q8) q9⟩
    rw [(g9.1 p).2.2.2, hb]; rfl

theorem space_body_rot {c : Consts} {s s9 : State} {p dwords pushes : Nat} {fl : Bool}
    (ch : nouveau_object) (hch : (s.push p).channel = some ch)
    (hn : (s.push p).bo_next < (s.push p).bo_nr)
    (h : space_body c s p dwords pushes = .ok (s9, 0, fl)) : Rot s s9 p := by
  rcases space_body_inv h with ⟨hne, _⟩ | ⟨_, _, s2, s3, s8, cb, k, hc, hf, hsw, hb, hk⟩
  · exact absurd rfl hne
  · exact rot_trans (rot_space_select s p dwords ch hch hn)
      (rot_of_pool (pool_trans (pool_trans (pool_trans (pool_space_cond hc) (pool_space_flush hf))
        (pool_space_switch hsw)) (pool_kref hk)) p)

theorem space_cond_imm {c : Consts} {s s2 : State} {p : Nat} {bo : Option Nat} {pushes : Nat}
    {fl : Bool} (hch : (s.push p).channel.isSome) (h : space_cond c s p bo pushes = .ok (s2, fl)) :
    s2 = s ∧ (bo ≠ none → fl = true) := by
  unfold space_cond at h
  simp only at h
  split at h
  · simp only [Except.ok.injEq, Prod.mk.injEq] at h
    exact ⟨h.1.symm, fun hn => absurd rfl hn⟩
  · rw [if_pos hch] at h
    simp only [Except.ok.injEq, Prod.mk.injEq] at h
    exact ⟨h.1.symm, fun _ => h.2.symm⟩

theorem space_cond_keeps {c : Consts} {s s2 : State} {p : Nat} {bo : Option Nat} {pushes : Nat}
    {fl : Bool} (h : space_cond c s p bo pushes = .ok (s2, fl)) :
    GrowAt s s2 p ∧ (s2.push p).bo = (s.push p).bo := by
  unfold space_cond at h
  simp only at h
  split at h
  · simp only [Except.ok.injEq, Prod.mk.injEq] at h
    rw [← h.1]; exact ⟨growAt_refl s p, rfl⟩
  · split at h
    · simp only [Except.ok.injEq, Prod.mk.injEq] at h
      rw [← h.1]; exact ⟨growAt_refl s p, rfl⟩
    · split at h
      · simp at h
      · rename_i t hk
        simp only [Except.ok.injEq, Prod.mk.injEq] at h
        rw [← h.1]; exact ⟨(quiet_kref hk).2, ((geom_kref hk).1 p).2.2.2⟩
      · rename_i t k hk
        simp only [Except.ok.injEq, Prod.mk.injEq] at h
        rw [← h.1]; exact ⟨(quiet_kref hk).2, ((geom_kref hk).1 p).2.2.2⟩

/-- A run of the body of nouveau_pushbuf_space that starts with room for the
requested words and below the push limit does not flush. -/
theorem space_body_calm {c : Consts} {s s9 : State} {p dwords pushes : Nat} {ret : Int}
    {fl : Bool} (hroom : (s.push p).cur + (dwords : Int) < (s.push p).end_)
    (hlim : ((s.push p).krec.nr_push + (pushes + 1) % 2 ^ 32) % 2 ^ 32 < c.NOUVEAU_GEM_MAX_PUSH)
    (h : space_body c s p dwords pushes = .ok (s9, ret, fl)) : fl = false := by
  rcases space_body_inv h with ⟨_, hf⟩ | ⟨_, _, s2, s3, s8, cb, k, hc, _⟩
  · exact hf
  · rw [(space_select_cases s p dwords).1 hroom] at hc
    unfold space_cond at hc
    simp only [Except.ok.injEq, Prod.mk.injEq] at hc
    rw [← hc.2]
    simp only [decide_eq_false_iff_not, not_le]
    exact hlim

/-- On a pushbuf without a channel that has a current buffer and a reference,
a run of the body of nouveau_pushbuf_space whose flush condition holds ends in
the fault of pushbuf_flush. -/
theorem space_body_deferred {c : Consts} {s s9 : State} {p dwords pushes : Nat} {ret : Int}
    {fl : Bool} (hch : (s.push p).channel = none) (hbo : (s.push p).bo.isSome)
    (hnb : (s.push p).krec.nr_buffer ≠ 0)
    (h : space_body c s p dwords pushes = .ok (s9, ret, fl)) : fl = false := by
  rcases space_body_inv h with ⟨_, hf⟩ | ⟨_, _, s2, s3, s8, cb, k, hc, hf, _⟩
  · exact hf
  · cases fl with
    | false => rfl
    | true =>
      exfalso
      obtain ⟨e1, _, _⟩ := space_select_push s p dwords p
      have g1 := grow_space_select s p dwords p
      obtain ⟨g2, b2⟩ := space_cond_keeps hc
      have g := growAt_trans g1 g2
      have hc2 : (s2.push p).channel = none := by rw [g.1]; exact hch
      have hb2 : (s2.push p).bo.isSome := by rw [b2, e1]; exact hbo
      have hn2 : (s2.push p).krec.nr_buffer ≠ 0 := by
        have := g.2.2.2.1
        omega
      unfold space_flush at hf
      rw [if_pos ⟨rfl, hb2, hn2⟩, pushbuf_flush_deferred c s2 p hc2] at hf
      simp at hf

/-- On a pushbuf with a channel that has a current buffer and a reference, a
run of the body of nouveau_pushbuf_space whose flush condition holds leaves the
record without descriptors, and the cursor either where it was, with room for
the requested words, or at the start of a buffer of the pool, with room for the
words pushbuf_validate asks for. -/
theorem space_body_flushed {c : Consts} {s s9 : State} {p dwords pushes : Nat}
    (hi : Inv c s) (ch : nouveau_object) (hch : (s.push p).channel = some ch)
    (hbo : (s.push p).bo.isSome) (hnb : (s.push p).krec.nr_buffer ≠ 0) (hfit : PoolFit s p)
    (h : space_body c s p dwords pushes = .ok (s9, 0, true)) :
    (s9.push p).krec.nr_push = 0 ∧ reloc_words s9 p = reloc_words s p ∧
    (((s.push p).cur + (dwords : Int) < (s.push p).end_ ∧ (s9.push p).cur = (s.push p).cur ∧
        (s9.push p).end_ = (s.push p).end_) ∨
     ((s.push p).end_ ≤ (s.push p).cur + (dwords : Int) ∧
        (s9.push p).cur + (reloc_words s9 p : Int) < (s9.push p).end_)) := by
  have hrot := space_body_rot ch hch hfit.1 h
  have hrw := reloc_words_rot hrot
  have hsome : (s.push p).channel.isSome := by rw [hch]; rfl
  rcases space_body_inv h with ⟨hne, _⟩ | ⟨_, _, s2, s3, s8, cb, k, hc, hf, hsw, hb, hk⟩
  · exact absurd rfl hne
  · obtain ⟨e1, e2, e3⟩ := space_select_push s p dwords p
    have g1 := grow_space_select s p dwords p
    have hsome1 : ((space_select s p dwords).1.push p).channel.isSome := by rw [g1.1]; exact hsome
    obtain ⟨hs2, _⟩ := space_cond_imm hsome1 hc
    subst hs2
    have hb1 : ((space_select s p dwords).1.push p).bo.isSome := by rw [e1]; exact hbo
    have hn1 : ((space_select s p dwords).1.push p).krec.nr_buffer ≠ 0 := by
      have := g1.2.2.2.1
      omega
    have i1 : Inv c (space_select s p dwords).1 :=
      sameRefs_inv (sameRefs_space_select s p dwords) hi
    unfold space_flush at hf
    rw [if_pos ⟨rfl, hb1, hn1⟩] at hf
    split at hf
    · simp at hf
    · rename_i t r3 hfl
      simp only [Except.ok.injEq] at hf
      subst hf
      obtain ⟨_, n0, p0, _⟩ := pushbuf_flush_inv hfl
      have gf := geom_flush hfl
      have gk := geom_kref hk
      have k9 := (quiet_kref hk).2
      have i3 := inv_flush i1 hfl
      have hsome3 : (t.push p).channel.isSome := by
        rw [((pool_flush hfl).2.2.2.2 p).1]; exact hsome1
      refine ⟨?_, hrw, ?_⟩
      · have q8 := quiet_space_switch i3.1 (fun _ _ _ => Or.inr n0) hsw
        have := (q8 p).2.1 hsome3
        rw [k9.2.2.1]
        omega
      · by_cases hroom : (s.push p).cur + (dwords : Int) < (s.push p).end_
        · left
          rw [(space_select_cases s p dwords).1 hroom] at hsw
          simp only [space_switch, Except.ok.injEq, Prod.mk.injEq, and_true] at hsw
          subst hsw
          refine ⟨hroom, ?_, ?_⟩
          · rw [(gk.1 p).1, (gf.1 p).1, e2]
          · rw [(gk.1 p).2.1, (gf.1 p).2.1, e3]
        · right
          have hge : (s.push p).end_ ≤ (s.push p).cur + (dwords : Int) := by omega
          obtain ⟨hsel2, _⟩ := (space_select_cases s p dwords).2.1 hge hfit.1
          have hsel : (space_select s p dwords).2.2 = some ((s.push p).bos (s.push p).bo_next) := by
            rw [hsel2]
          rw [hsel] at hsw
          obtain ⟨a1, a2, a3⟩ := space_switch_at hsw
          refine ⟨hge, ?_⟩
          have f := hfit.2 _ hfit.1
          obtain ⟨_, _, _, _, x5, _, _⟩ := hrot.2.2.2.2.1 p
          have hsz : (s8.bo ((s.push p).bos (s.push p).bo_next)).size
              = (s.bo ((s.push p).bos (s.push p).bo_next)).size := by
            rw [← (gk.2 _).2, (hrot.2.2.2.1 _).1]
          have hrk : (s8.push p).rsvd_kick = (s.push p).rsvd_kick := by
            rw [← (gk.1 p).2.2.1, x5]
          rw [(gk.1 p).1, (gk.1 p).2.1, a2, a3, hrw, hsz, hrk]
          omega

/-- A call of nouveau_pushbuf_space with room for the requested words and below
the push limit does not re-enter. -/
theorem space_calm_nf (c : Consts) (fuel : Nat) (s : State) (p dwords relocs pushes : Nat)
    (hroom : (s.push p).cur + (dwords : Int) < (s.push p).end_)
    (hlim : ((s.push p).krec.nr_push + (pushes + 1) % 2 ^ 32) % 2 ^ 32 < c.NOUVEAU_GEM_MAX_PUSH) :
    nouveau_pushbuf_space c (fuel + 1) s p dwords relocs pushes ≠ .error .nofuel := by
  rw [space_eq_body]
  cases hp : space_body c s p dwords pushes with
  | error e =>
    intro h
    simp only [Except.error.injEq] at h
    subst h
    exact space_body_nf hp
  | ok v =>
    obtain ⟨s9, ret, fl⟩ := v
    have hfl := space_body_calm hroom hlim hp
    subst hfl
    simp only
    split <;> simp

/-- The call pushbuf_validate makes re-enters at most once, when the pushbuf
has a current buffer and a reference, as nouveau_pushbuf_space leaves it. -/
theorem space_ready_nf (c : Consts) (fuel : Nat) (s : State) (p relocs : Nat) (hi : Inv c s)
    (hP : 1 < c.NOUVEAU_GEM_MAX_PUSH) (hbo : (s.push p).bo.isSome)
    (hnb : (s.push p).krec.nr_buffer ≠ 0) (hfit : (s.push p).channel.isSome → PoolFit s p) :
    nouveau_pushbuf_space c (fuel + 2) s p (reloc_words s p) relocs 0 ≠ .error .nofuel := by
  rw [space_eq_body]
  cases hp : space_body c s p (reloc_words s p) 0 with
  | error e =>
    intro h
    simp only [Except.error.injEq] at h
    subst h
    exact space_body_nf hp
  | ok v =>
    obtain ⟨s9, ret, fl⟩ := v
    simp only
    by_cases hr : ret ≠ 0
    · rw [if_pos hr]; simp
    · rw [if_neg hr]
      have hr0 : ret = 0 := by simpa using hr
      subst hr0
      cases fl with
      | false => simp
      | true =>
        simp only [if_true]
        intro h
        rw [validate_with_nf] at h
        cases hch : (s.push p).channel with
        | none =>
          have := space_body_deferred hch hbo hnb hp
          simp at this
        | some ch =>
          obtain ⟨n0, hrw, hcur⟩ := space_body_flushed hi ch hch hbo hnb
            (hfit (by rw [hch]; rfl)) hp
          refine space_calm_nf c fuel s9 p _ _ 0 ?_ ?_ h
          · rcases hcur with ⟨a1, a2, a3⟩ | ⟨_, a⟩
            · rw [hrw, a2, a3]; exact a1
            · exact a
          · rw [n0]
            simp only [Nat.zero_add]
            have : (1 % 2 ^ 32) % 2 ^ 32 = 1 := by decide
            rw [this]; exact hP

/-- A call of nouveau_pushbuf_space re-enters at most twice. -/
theorem space_any_nf (c : Consts) (fuel : Nat) (s : State) (p dwords relocs pushes : Nat)
    (hi : Inv c s) (hP : 1 < c.NOUVEAU_GEM_MAX_PUSH) (hB : 0 < c.NOUVEAU_GEM_MAX_BUFFERS)
    (hfit : (s.push p).channel.isSome → PoolFit s p) :
    nouveau_pushbuf_space c (fuel + 3) s p dwords relocs pushes ≠ .error .nofuel := by
  rw [space_eq_body]
  cases hp : space_body c s p dwords pushes with
  | error e =>
    intro h
    simp only [Except.error.injEq] at h
    subst h
    exact space_body_nf hp
  | ok v =>
    obtain ⟨s9, ret, fl⟩ := v
    simp only
    by_cases hr : ret ≠ 0
    · rw [if_pos hr]; simp
    · rw [if_neg hr]
      have hr0 : ret = 0 := by simpa using hr
      subst hr0
      cases fl with
      | false => simp
      | true =>
        simp only [if_true]
        intro h
        rw [validate_with_nf] at h
        obtain ⟨i9, b9, n9, q9⟩ := space_body_props hi hB hp
        refine space_ready_nf c fuel s9 p _ i9 hP b9 n9 (fun hc9 => ?_) h
        have hc : (s.push p).channel.isSome := by rw [← (q9 p).1]; exact hc9
        cases hch : (s.push p).channel with
        | none => rw [hch] at hc; simp at hc
        | some ch => exact poolFit_rot (space_body_rot ch hch (hfit hc).1 hp) (hfit hc)

/-- A call of nouveau_pushbuf_space that replaces the buffer of a pushbuf with
a channel, a current buffer and a reference re-enters at most once. -/
theorem space_replace_nf (c : Consts) (fuel : Nat) (s : State) (p dwords relocs pushes : Nat)
    (hi : Inv c s) (hP : 1 < c.NOUVEAU_GEM_MAX_PUSH) (hch : (s.push p).channel.isSome)
    (hbo : (s.push p).bo.isSome) (hnb : (s.push p).krec.nr_buffer ≠ 0) (hfit : PoolFit s p)
    (hge : (s.push p).end_ ≤ (s.push p).cur + (dwords : Int)) :
    nouveau_pushbuf_space c (fuel + 2) s p dwords relocs pushes ≠ .error .nofuel := by
  rw [space_eq_body]
  cases hp : space_body c s p dwords pushes with
  | error e =>
    intro h
    simp only [Except.error.injEq] at h
    subst h
    exact space_body_nf hp
  | ok v =>
    obtain ⟨s9, ret, fl⟩ := v
    simp only
    by_cases hr : ret ≠ 0
    · rw [if_pos hr]; simp
    · rw [if_neg hr]
      have hr0 : ret = 0 := by simpa using hr
      subst hr0
      cases fl with
      | false => simp
      | true =>
        simp only [if_true]
        intro h
        rw [validate_with_nf] at h
        cases hc : (s.push p).channel with
        | none => rw [hc] at hch; simp at hch
        | some ch =>
          obtain ⟨n0, _, hcur⟩ := space_body_flushed hi ch hc hbo hnb hfit hp
          refine space_calm_nf c fuel s9 p _ _ 0 ?_ ?_ h
          · rcases hcur with ⟨a1, _⟩ | ⟨_, a⟩
            · omega
            · exact a
          · rw [n0]
            simp only [Nat.zero_add]
            have : (1 % 2 ^ 32) % 2 ^ 32 = 1 := by decide
            rw [this]; exact hP

/-- C19 (amended): the recursion of nouveau_pushbuf_space through
pushbuf_validate(retry = false) ends.  On a state that satisfies the invariant
of the reference tracker, with NOUVEAU_GEM_MAX_PUSH > 1 and
NOUVEAU_GEM_MAX_BUFFERS > 0, and, for a pushbuf with a channel, a pool in use
whose buffers each have more usable words (size/4 - 2 - rsvd_kick) than twice
the relocation count of the attached context: a call of nouveau_pushbuf_space
re-enters itself at most twice (a depth of three calls gives the result of any
larger depth and does not run out).  A call that replaces the buffer of a
pushbuf with a channel, a current buffer and a reference re-enters at most
once: the nested call, made after the flush and the cursor reset, neither
selects a buffer nor reaches the push limit.  A call that finds room for the
requested words and stays below the push limit does not re-enter. -/
theorem C19_recursion_depth (c : Consts) (s : State) (p dwords relocs pushes fuel : Nat)
    (hi : Inv c s) (hP : 1 < c.NOUVEAU_GEM_MAX_PUSH) (hB : 0 < c.NOUVEAU_GEM_MAX_BUFFERS)
    (hfit : (s.push p).channel.isSome → PoolFit s p) :
    (nouveau_pushbuf_space c 3 s p dwords relocs pushes ≠ .error .nofuel ∧
      nouveau_pushbuf_space c (fuel + 3) s p dwords relocs pushes
        = nouveau_pushbuf_space c 3 s p dwords relocs pushes) ∧
    ((s.push p).channel.isSome → (s.push p).bo.isSome → (s.push p).krec.nr_buffer ≠ 0 →
      (s.push p).end_ ≤ (s.push p).cur + (dwords : Int) →
      nouveau_pushbuf_space c 2 s p dwords relocs pushes ≠ .error .nofuel ∧
      nouveau_pushbuf_space c (fuel + 2) s p dwords relocs pushes
        = nouveau_pushbuf_space c 2 s p dwords relocs pushes) ∧
    ((s.push p).cur + (dwords : Int) < (s.push p).end_ →
      ((s.push p).krec.nr_push + (pushes + 1) % 2 ^ 32) % 2 ^ 32 < c.NOUVEAU_GEM_MAX_PUSH →
      nouveau_pushbuf_space c 1 s p dwords relocs pushes ≠ .error .nofuel ∧
      nouveau_pushbuf_space c (fuel + 1) s p dwords relocs pushes
        = nouveau_pushbuf_space c 1 s p dwords relocs pushes) := by
  refine ⟨?_, fun hch hbo hnb hge => ?_, fun hroom hlim => ?_⟩
  · have h := space_any_nf c 0 s p dwords relocs pushes hi hP hB hfit
    exact ⟨h, space_fuel_add c 3 s p dwords relocs pushes h fuel⟩
  · have h := space_replace_nf c 0 s p dwords relocs pushes hi hP hch hbo hnb (hfit hch) hge
    exact ⟨h, space_fuel_add c 2 s p dwords relocs pushes h fuel⟩
  · have h := space_calm_nf c 0 s p dwords relocs pushes hroom hlim
    exact ⟨h, space_fuel_add c 1 s p dwords relocs pushes h fuel⟩

/-- C19 at `stEnd` and the call nouveau_pushbuf_space(push, 0, 0, 511) on
pushbuf 0: a depth of three calls does not run out, and a depth of eight gives
the same result. -/
theorem C19_recursion_depth_witness :
    (Inv hdr stEnd ∧ 1 < hdr.NOUVEAU_GEM_MAX_PUSH ∧ 0 < hdr.NOUVEAU_GEM_MAX_BUFFERS ∧
      ((stEnd.push 0).channel.isSome → PoolFit stEnd 0)) ∧
    nouveau_pushbuf_space hdr 3 stEnd 0 0 0 511 ≠ .error .nofuel ∧
    nouveau_pushbuf_space hdr (5 + 3) stEnd 0 0 0 511
      = nouveau_pushbuf_space hdr 3 stEnd 0 0 0 511 := by
  have hi : Inv hdr stEnd := reach_inv hdr (fresh_inv hdr (fresh_st0 [])) reach_stEnd
  have hf : (stEnd.push 0).channel.isSome → PoolFit stEnd 0 :=
    fun _ => ⟨by decide, by decide⟩
  exact ⟨⟨hi, by decide, by decide, hf⟩,
    (C19_recursion_depth hdr stEnd 0 0 0 511 5 hi (by decide) (by decide) hf).1⟩

/-! ## The flush of a deferred owner -/

/-- C1 fails in the code when the owner A is a deferred pushbuf.  In `st7d`
buffer 7 has a live reference owned by the deferred pushbuf 1 (entry 0 of its
record) and the record of pushbuf 0 is empty, so it has a free slot.  The
insertion pushbuf_kref(push 0, buffer 7, NOUVEAU_BO_RD) starts the flush of
pushbuf 1, which calls pushbuf_submit(push, push->channel) with the null
channel of the deferred pushbuf and faults there: the flush of A is not
completed, no reference is recorded for pushbuf 0 and the call does not
return.  The client gets there with two calls of nouveau_pushbuf_refn: one on
the deferred pushbuf 1 of the fresh state `st0 []`, which returns 0 and leaves
`st7d`, and one on pushbuf 0, which does not return. -/
theorem C1_deferred_owner_fault :
    nouveau_pushbuf_refn hdr 3 (st0 []) 1 [⟨7, hdr.NOUVEAU_BO_RD⟩] = .ok (st7d, 0) ∧
    nouveau_pushbuf_refn hdr 3 st7d 0 [⟨7, hdr.NOUVEAU_BO_RD⟩] = .error .fault ∧
    cli_push_get st7d 7 = some 1 ∧ cli_kref_get st7d 7 = some ⟨1, 0⟩ ∧
    ((st7d.push 1).krec.buffer 0).bo = 7 ∧ 0 < (st7d.push 1).krec.nr_buffer ∧
    (st7d.push 1).channel = none ∧
    (st7d.push 0).krec.nr_buffer < hdr.NOUVEAU_GEM_MAX_BUFFERS ∧
    pushbuf_submit hdr st7d 1 (st7d.push 1).channel = .error .fault ∧
    pushbuf_flush hdr st7d 1 = .error .fault ∧
    pushbuf_kref hdr st7d 0 7 hdr.NOUVEAU_BO_RD = .error .fault :=
  ⟨rfl, rfl, by decide, by decide, by decide, by decide, by decide, by decide, rfl, rfl, rfl⟩

/-- On a pushbuf without a channel a batch over capacity does not come back
from nouveau_pushbuf_refn: the first pass fails and is rolled back, and the
flush that follows calls pushbuf_submit with the null channel. -/
theorem refn_deferred_overfull (c : Consts) (fuel : Nat) (s : State) (p : Nat)
    (refs : List struct_nouveau_pushbuf_refn) (L : List Nat)
    (hi : Inv c s) (hE : c.ENOSPC ≠ 0) (hnd : L.Nodup) (hL : ∀ b ∈ L, ∃ x ∈ refs, x.bo = b)
    (hlen : c.NOUVEAU_GEM_MAX_BUFFERS < L.length)
    (hno : ∀ x ∈ refs, s.kpush x.bo = none ∨ s.kpush x.bo = some p)
    (hch : (s.push p).channel = none) :
    (∃ s2, pushbuf_refn_pass c s p refs = .ok (s2, -(c.ENOSPC : Int)) ∧
      (s2.push p).krec.nr_buffer = (s.push p).krec.nr_buffer ∧
      (s2.push p).channel = none ∧ pushbuf_flush c s2 p = .error .fault) ∧
    nouveau_pushbuf_refn c fuel s p refs = .error .fault := by
  obtain ⟨s2, r, hl⟩ := kref_loop_total c p (refs.map (fun r => (r.bo, r.flags))) s (by
    intro x hx
    rw [List.mem_map] at hx
    obtain ⟨y, hy, rfl⟩ := hx
    exact hno y hy)
  obtain ⟨o1, o2, o3, o4⟩ := kref_loop_overfull hi hE hnd hL hlen hl
  have pf2 := pframe_kref_loop c p _ s s2 r hi.1 hl
  have pf3 := pframe_trans pf2 (pframe_refn_fail s2 p (s.push p).krec.nr_buffer)
  have hch3 : ((pushbuf_refn_fail s2 p (s.push p).krec.nr_buffer).push p).channel = none := by
    rw [pf3]; exact hch
  have hf := pushbuf_flush_deferred c _ p hch3
  subst o1
  refine ⟨⟨_, ?_, ?_, hch3, hf⟩, ?_⟩
  · unfold pushbuf_refn_pass
    simp only [hl, o2, ne_eq, not_false_eq_true, if_true]
  · simp [pushbuf_refn_fail, setKrec, setPush]
  · unfold nouveau_pushbuf_refn pushbuf_refn
    simp only [hl, o2, ne_eq, not_false_eq_true, if_true, hf]

/-- C12 fails in the code on a deferred pushbuf.  The deferred pushbuf 1 of the
fresh state `st0 []` is given the batch of 1025 distinct buffers, more than the
NOUVEAU_GEM_MAX_BUFFERS = 1024 a record holds.  The first pass fails with
-ENOSPC and is rolled back to the count at entry, as the claim says; the flush
that follows calls pushbuf_submit(push, push->channel) with the null channel
of the deferred pushbuf and faults, so nouveau_pushbuf_refn neither re-runs
the insertion nor returns -ENOSPC, whatever the fuel. -/
theorem C12_deferred_retry_fault :
    ((st0 []).push 1).channel = none ∧
    (∃ s2, pushbuf_refn_pass hdr (st0 []) 1 batch1025 = .ok (s2, -(hdr.ENOSPC : Int)) ∧
      (s2.push 1).krec.nr_buffer = ((st0 []).push 1).krec.nr_buffer ∧
      (s2.push 1).channel = none ∧ pushbuf_flush hdr s2 1 = .error .fault) ∧
    ∀ fuel, nouveau_pushbuf_refn hdr fuel (st0 []) 1 batch1025 = .error .fault := by
  obtain ⟨b1, b2, b3, _⟩ := batch1025_facts
  have h := fun fuel => refn_deferred_overfull hdr fuel (st0 []) 1 batch1025 _
    (fresh_inv hdr (fresh_st0 [])) (by decide) b1 b2 b3 (fun x _ => Or.inl rfl) (by decide)
  exact ⟨by decide, (h 0).1, fun fuel => (h fuel).2⟩

/-! ## The whole call of a buffer rotation -/

theorem data_null_total {s : State} (p : Nat) (ho : OwnCur s) :
    ∃ s1, nouveau_pushbuf_data s p none 0 0 = .ok s1 := by
  cases hb : (s.push p).bo with
  | none =>
    unfold nouveau_pushbuf_data
    simp only [hb, ne_eq, not_true_eq_false, false_and, if_false]
    exact ⟨_, rfl⟩
  | some cb =>
    by_cases hc : (s.push p).bgn ≠ (s.push p).cur
    · obtain ⟨j, hj⟩ := ho p cb hc hb
      rw [data_self_span s p none 0 0 cb j hb hj]
      split
      · exact ⟨_, rfl⟩
      · exact ⟨_, rfl⟩
    · unfold nouveau_pushbuf_data
      simp only
      rw [if_neg (fun hh => hc hh.2)]
      exact ⟨_, rfl⟩

end Pushbuf
